import Mathlib

/-!
Jacobi 1-D solver: partitioning, double-buffered sweeps and the two-turnstile barrier.

Shallow embedding of the C sources

* `2. Hilos/2. threads-jacobi1d.c`   (`jacobi_worker`, `jacobi_parallel`, `jacobi_sequential`,
  `jacobi`); `2. Hilos/threads2-jacobi1d.c` repeats `jacobi_worker` and the set-up of
  `jacobi_parallel` word for word
* `2. Hilos/threads4-jacobi1d.c`     (`jacobi_thread`, `main`)
* `3. Procesos/processes-jacobi1d.c` (`barrier_init`, `barrier_wait`, `main`)
* `4. OpenMP/jacobi1d_openmp.c`      (`main`)
* `5. mpich/jacobi1d_mpi_openmp.c`   (`main`)

Conventions.
* The C `int`s `n`, `num_threads` and the array indices are `Nat`: the programs use them
  with non-negative values only. `n - 1` is evaluated for `n ≥ 1` and a thread count is used
  as divisor only when it is `≥ 1` in every theorem (in C a count of 0 is a division by
  zero). The iteration count (`nsweeps`, `nsteps`) and the loop variable `sweep` are `Int`,
  the value `atoi` gives for `JACOBI_NUM_THREADS` as well. Overflow of these `int`s is not
  modelled.
* A C array of `double` is a total map `Nat → α` from index to value; a store `a[i] = v`
  is `Function.update a i v`. The content of a freshly `malloc`ed array is a parameter.
* The arithmetic on `double` is kept abstract: the value type `α` only carries `+`, `*`, `/`
  and the conversion of integers, no algebraic law is assumed. What is proved for all `α`
  holds for any arithmetic; `α := ℚ` gives exact arithmetic.
* A barrier between half-sweeps is rendered by lockstep rounds: all stores of one
  half-sweep are done before any load of the next one. Within a round the workers run in
  thread order; `round_interleaving` shows that any other interleaving of their stores
  gives the same buffer.
* The barrier of the process variant is a transition system: one step is one statement of
  `barrier_wait` executed by one participant, semaphore operations are atomic, and an
  interleaving is the list of participants in the order of their steps.
* The OpenMP and the distributed variant are modelled over `ℚ`; the iterations of a
  `parallel for` are independent and run in index order. In the distributed variant the
  locals `int left`, `int right` are 32-bit: the conversion to `int` is truncation toward
  zero when the result fits, and `INT_MIN` otherwise; their sum wraps around. The requests
  of one step are completed together by matching every receive with the send of its source
  that carries the same destination and tag.
-/

namespace Jacobi

/-! ## Domain partitioner -/

/-- Index range of one worker: the fields `start` and `end` of `thread_data_t`
(`istart`, `iend` in threads4). The range is half-open, `[start, end_)`. -/
structure thread_data_t where
  start : Nat
  end_ : Nat
deriving DecidableEq, Repr

/-- Partitioning loop of `jacobi_parallel` (2. threads-jacobi1d.c, lines 95-124):
`for (i = 0; i < num_threads; i++)` with the running `start`; the stored `end` is clamped
to `n`, the running `start` is not. -/
def parallel_loop (n points_per_thread remainder num_threads : Nat) (i start : Nat) :
    List thread_data_t :=
  if i < num_threads then
    let points := if i < remainder then points_per_thread + 1 else points_per_thread
    let e := start + points
    { start := start, end_ := if e > n then n else e } ::
      parallel_loop n points_per_thread remainder num_threads (i + 1) e
  else []
termination_by num_threads - i

/-- Clamp of `jacobi_parallel` (lines 76-79): `if (num_threads > n-1) num_threads = n-1`. -/
def clamp_threads (n num_threads : Nat) : Nat :=
  if num_threads > n - 1 then n - 1 else num_threads

/-- What `jacobi_parallel` sets up before the workers run: the participant count given to
`pthread_barrier_init` (line 86) and the per-thread ranges (lines 89-124). -/
structure parallel_setup where
  barrier_count : Nat
  thread_data : List thread_data_t
deriving DecidableEq, Repr

/-- Set-up part of `jacobi_parallel` (2. threads-jacobi1d.c, lines 76-124; the same text is
`jacobi_parallel_shared` of threads2-jacobi1d.c, lines 168-216): clamp, barrier
initialisation, partitioning loop starting at `i = 0`, `start = 1` (`num_threads ≥ 1`;
with 0 the C program divides by zero). -/
def jacobi_parallel_setup (n num_threads : Nat) : parallel_setup :=
  let num_threads := clamp_threads n num_threads
  let points_per_thread := (n - 1) / num_threads
  let remainder := (n - 1) % num_threads
  { barrier_count := num_threads
    thread_data := parallel_loop n points_per_thread remainder num_threads 0 1 }

/-- Thread ranges built by `jacobi_parallel` (lines 76-124), worker 0 first. -/
def parallel_thread_data (n num_threads : Nat) : List thread_data_t :=
  (jacobi_parallel_setup n num_threads).thread_data

/-- Partitioning loop of `main` in threads4-jacobi1d.c (lines 126-132) and of `main` in
processes-jacobi1d.c (lines 132-134, 170): no clamp of the end index. -/
def main_loop (chunk remainder num_threads : Nat) (i start : Nat) : List thread_data_t :=
  if i < num_threads then
    let extra := if i < remainder then 1 else 0
    let e := start + chunk + extra
    { start := start, end_ := e } :: main_loop chunk remainder num_threads (i + 1) e
  else []
termination_by num_threads - i

/-- Set-up part of `main` in threads4-jacobi1d.c (lines 106-132) and in
processes-jacobi1d.c (lines 115-134, 170): the barrier is initialised with `num_threads`
as given and the ranges are computed without any clamp (`num_threads ≥ 1`; with 0 the C
program divides by zero). -/
def main_setup (n num_threads : Nat) : parallel_setup :=
  let chunk := (n - 1) / num_threads
  let remainder := (n - 1) % num_threads
  { barrier_count := num_threads
    thread_data := main_loop chunk remainder num_threads 0 1 }

/-- Thread ranges built by `main` of threads4 and of the process variant, worker 0 first. -/
def main_thread_data (n num_threads : Nat) : List thread_data_t :=
  (main_setup n num_threads).thread_data

/-- Closed form of the running `start` before iteration `i` of the partitioning loops. -/
def pstart (base remainder i : Nat) : Nat := 1 + i * base + min i remainder

/-- Ranges in closed form: worker `j` owns `[pstart j, pstart (j+1))`. -/
def closed_ranges (b r W : Nat) : List thread_data_t :=
  (List.range' 0 W).map (fun j => ⟨pstart b r j, pstart b r (j + 1)⟩)


/-! ## Double-buffered sweep engine -/

section Sweep

variable {α : Type} [Add α] [Mul α] [Div α] [NatCast α]

/-- The averaging update `(src[i-1] + src[i+1] + h2*f[i])/2` of every half-sweep
(the index `i` is at least 1 in every loop of the programs). -/
def stencil (h2 : α) (f src : Nat → α) (i : Nat) : α :=
  (src (i - 1) + src (i + 1) + h2 * f i) / ((2 : Nat) : α)

/-- The squared grid spacing every variant computes as `h = 1.0 / n; h2 = h * h;`. -/
def grid_h2 (n : Nat) : α :=
  let h : α := ((1 : Nat) : α) / ((n : Nat) : α)
  h * h

/-- One worker's half-sweep loop, `for (i = start; i < end; ++i) dst[i] = (src[i-1] +
src[i+1] + h2*f[i])/2;` entered with loop counter `i`
(`jacobi_worker` lines 39-41 and 47-49, `jacobi_thread` lines 33-35, 39-41, 47-49,
`jacobi_sequential` lines 151-152, 155-156). -/
def half_sweep (h2 : α) (f src : Nat → α) (end_ : Nat) (i : Nat) (dst : Nat → α) : Nat → α :=
  if i < end_ then
    half_sweep h2 f src end_ (i + 1) (Function.update dst i (stencil h2 f src i))
  else dst
termination_by end_ - i

/-- One worker's copy-back loop, `for (i = istart; i < iend; i++) u[i] = utmp[i];`
(`jacobi_thread` lines 52-54, process variant lines 160-162). -/
def copy_back (src : Nat → α) (end_ : Nat) (i : Nat) (dst : Nat → α) : Nat → α :=
  if i < end_ then
    copy_back src end_ (i + 1) (Function.update dst i (src i))
  else dst
termination_by end_ - i

/-- One barrier-delimited round of half-sweeps: every worker of `ws` runs its half-sweep
loop on its own range, reading `src` and storing into `dst` (thread 0 first). -/
def workers_half_sweep (h2 : α) (f src : Nat → α) (ws : List thread_data_t)
    (dst : Nat → α) : Nat → α :=
  ws.foldl (fun d w => half_sweep h2 f src w.end_ w.start d) dst

/-- One barrier-delimited round of copy-back loops over all workers. -/
def workers_copy_back (src : Nat → α) (ws : List thread_data_t) (dst : Nat → α) : Nat → α :=
  ws.foldl (fun d w => copy_back src w.end_ w.start d) dst

/-- The paired-sweep loop header `for (sweep = s; sweep < bound; sweep += 2) body` on a
state of type `σ`; `bound` is `nsweeps` in `jacobi_worker`/`jacobi_sequential` and
`nsteps - 1` in `jacobi_thread` and the process variant. -/
def pair_loop {σ : Type} (body : σ → σ) (bound : Int) (sweep : Int) (s : σ) : σ :=
  if sweep < bound then pair_loop body bound (sweep + 2) (body s) else s
termination_by (bound - sweep).toNat
decreasing_by omega

/-- Body of the loop of `jacobi_worker` run by all workers in lockstep on the pair
`(u, utmp)`: half-sweep `u → utmp`, barrier, half-sweep `utmp → u`, barrier. -/
def worker_pair (h2 : α) (f : Nat → α) (ws : List thread_data_t)
    (s : (Nat → α) × (Nat → α)) : (Nat → α) × (Nat → α) :=
  let utmp := workers_half_sweep h2 f s.1 ws s.2
  let u := workers_half_sweep h2 f utmp ws s.1
  (u, utmp)

/-- All threads running `jacobi_worker` (2. threads-jacobi1d.c, lines 23-56; same text in
threads2-jacobi1d.c, lines 109-142): `for (sweep = 0; sweep < nsweeps; sweep += 2)`.
Returns the buffers `(u, utmp)`. -/
def jacobi_worker (h2 : α) (f : Nat → α) (ws : List thread_data_t) (nsweeps : Int)
    (u utmp : Nat → α) : (Nat → α) × (Nat → α) :=
  pair_loop (worker_pair h2 f ws) nsweeps 0 (u, utmp)

/-- Seeding of the scratch buffer, `utmp[0] = u[0]; utmp[n] = u[n];`, on the freshly
allocated (arbitrary) contents `utmp0`. -/
def seed_boundary (n : Nat) (u utmp0 : Nat → α) : Nat → α :=
  Function.update (Function.update utmp0 0 (u 0)) n (u n)

/-- `jacobi_parallel(nsweeps, n, u, f, num_threads)` of 2. threads-jacobi1d.c (lines
62-136). `utmp0` is the content of the `malloc`ed scratch array. Returns `(u, utmp)`. -/
def jacobi_parallel (nsweeps : Int) (n : Nat) (u f : Nat → α) (num_threads : Nat)
    (utmp0 : Nat → α) : (Nat → α) × (Nat → α) :=
  let h2 : α := grid_h2 n
  let utmp := seed_boundary n u utmp0
  jacobi_worker h2 f (jacobi_parallel_setup n num_threads).thread_data nsweeps u utmp

/-- Body of the loop of `jacobi_sequential`: both half-sweeps over `1 ≤ i < n`. -/
def sequential_pair (h2 : α) (f : Nat → α) (n : Nat)
    (s : (Nat → α) × (Nat → α)) : (Nat → α) × (Nat → α) :=
  let utmp := half_sweep h2 f s.1 n 1 s.2
  let u := half_sweep h2 f utmp n 1 s.1
  (u, utmp)

/-- `jacobi_sequential(nsweeps, n, u, f)` of 2. threads-jacobi1d.c (lines 139-160).
Returns `(u, utmp)`. -/
def jacobi_sequential (nsweeps : Int) (n : Nat) (u f : Nat → α) (utmp0 : Nat → α) :
    (Nat → α) × (Nat → α) :=
  let h2 : α := grid_h2 n
  let utmp := seed_boundary n u utmp0
  pair_loop (sequential_pair h2 f n) nsweeps 0 (u, utmp)

/-- Trailing part of `jacobi_thread` for an odd count (lines 46-56): half-sweep `u → utmp`,
barrier, copy `utmp → u` on each worker's range, barrier. -/
def odd_tail (h2 : α) (f : Nat → α) (ws : List thread_data_t)
    (s : (Nat → α) × (Nat → α)) : (Nat → α) × (Nat → α) :=
  let utmp := workers_half_sweep h2 f s.1 ws s.2
  let u := workers_copy_back utmp ws s.1
  (u, utmp)

/-- All threads running `jacobi_thread` of threads4-jacobi1d.c (lines 27-58; the child
process body of processes-jacobi1d.c, lines 141-164, is the same text):
`for (sweep = 0; sweep < nsteps - 1; sweep += 2)` then `if (nsteps % 2 != 0)`.
C `%` truncates toward zero, hence `Int.tmod`. Returns `(u, utmp)`. -/
def jacobi_thread (h2 : α) (f : Nat → α) (ws : List thread_data_t) (nsteps : Int)
    (u utmp : Nat → α) : (Nat → α) × (Nat → α) :=
  let s := pair_loop (worker_pair h2 f ws) (nsteps - 1) 0 (u, utmp)
  if Int.tmod nsteps 2 ≠ 0 then odd_tail h2 f ws s else s

/-- One half-sweep over the whole interior followed by the copy-back, in the words of the
spec: `scratch[i] = (grid[i-1] + grid[i+1] + h²·source[i])/2` for `1 ≤ i < M`, then
`grid[i] = scratch[i]` for `1 ≤ i < M`; on the pair `(grid, scratch)`. -/
def half_sweep_copy (h2 : α) (f : Nat → α) (M : Nat)
    (s : (Nat → α) × (Nat → α)) : (Nat → α) × (Nat → α) :=
  let scratch := half_sweep h2 f s.1 M 1 s.2
  (copy_back scratch M 1 s.1, scratch)

/-- Solver part of `main` of threads4-jacobi1d.c (lines 86-87, 102-150) and of
processes-jacobi1d.c (lines 85-86, 105-176) on a given initial grid `u` and source `f`:
spacing, scratch seeding, partitioning, run of all workers. Returns `(u, utmp)`. -/
def main_solve (nsteps : Int) (n : Nat) (u f : Nat → α) (num_threads : Nat)
    (utmp0 : Nat → α) : (Nat → α) × (Nat → α) :=
  let h2 : α := grid_h2 n
  let utmp := seed_boundary n u utmp0
  jacobi_thread h2 f (main_setup n num_threads).thread_data nsteps u utmp

end Sweep

/-- The ranges of `ws` cover exactly the interior `[1, M)`: an index lies in some range of
`ws` iff it is an interior index. -/
def covers_interior (ws : List thread_data_t) (M : Nat) : Prop :=
  ∀ j : Nat, (∃ w ∈ ws, w.start ≤ j ∧ j < w.end_) ↔ (1 ≤ j ∧ j < M)

/-- Source term of the end-to-end scenario, `source = [0, 0.25, 0.5, 0.75, 1]`. -/
def scenario_source : Nat → ℚ := fun i => [0, 1/4, 1/2, 3/4, 1].getD i 0

/-- Initial grid of the end-to-end scenario, all zero. -/
def scenario_grid : Nat → ℚ := fun _ => 0

/-! ### Interleaved execution of one round

The lockstep rounds above run the workers of a round one after the other. The
definitions below execute the same round store by store under an arbitrary interleaving;
`round_interleaving` shows that every interleaving that lets all workers finish their loop
leaves the destination buffer in the state `workers_half_sweep` computes. -/

/-- State of a round in progress: the destination buffer and the loop counter `i` of
every worker (by thread id). -/
structure round_state (α : Type) where
  dst : Nat → α
  i : Nat → Nat

/-- Start of a round: every worker's loop counter is at its `start`. -/
def round_init {α : Type} (ws : List thread_data_t) (dst : Nat → α) : round_state α :=
  { dst := dst
    i := fun w => match ws[w]? with
      | some d => d.start
      | none => 0 }

section Round

variable {α : Type} [Add α] [Mul α] [Div α] [NatCast α]

/-- Worker `w` executes one iteration of its half-sweep loop (test `i < end`, store
`dst[i]`, `++i`); a worker whose loop is over, or an id that is no worker, does nothing. -/
def round_step (h2 : α) (f src : Nat → α) (ws : List thread_data_t) (s : round_state α)
    (w : Nat) : round_state α :=
  match ws[w]? with
  | none => s
  | some d =>
    if s.i w < d.end_ then
      { dst := Function.update s.dst (s.i w) (stencil h2 f src (s.i w))
        i := Function.update s.i w (s.i w + 1) }
    else s

/-- Execution of an interleaving, given as the list of thread ids in the order of their
loop iterations. -/
def round_run (h2 : α) (f src : Nat → α) (ws : List thread_data_t) (sched : List Nat)
    (s : round_state α) : round_state α :=
  sched.foldl (round_step h2 f src ws) s

end Round

/-- Every worker has left its loop (all of them have reached the barrier). -/
def round_finished {α : Type} (ws : List thread_data_t) (s : round_state α) : Prop :=
  ∀ (w : Nat) (d : thread_data_t), ws[w]? = some d → d.end_ ≤ s.i w

section RoundInv

variable {α : Type} [Add α] [Mul α] [Div α] [NatCast α]

/-- Invariant of a round in progress: loop counters stay within their range, the indices
below a loop counter hold the new value, all other indices hold the old one. -/
structure round_inv (h2 : α) (f src : Nat → α) (ws : List thread_data_t) (dst0 : Nat → α)
    (s : round_state α) : Prop where
  hi : ∀ (w : Nat) (d : thread_data_t), ws[w]? = some d →
    d.start ≤ s.i w ∧ (s.i w ≤ d.end_ ∨ s.i w = d.start)
  hnew : ∀ j : Nat, (∃ (w : Nat) (d : thread_data_t), ws[w]? = some d ∧ d.start ≤ j ∧ j < s.i w) →
    s.dst j = stencil h2 f src j
  hkeep : ∀ j : Nat,
    (¬ ∃ (w : Nat) (d : thread_data_t), ws[w]? = some d ∧ d.start ≤ j ∧ j < s.i w) →
    s.dst j = dst0 j

end RoundInv

/-! ## Worker count of `jacobi` -/

/-- Thread count chosen by `jacobi` (2. threads-jacobi1d.c, lines 165-174; same text in
threads2-jacobi1d.c, lines 236-245). `threads_env` is `none` when `JACOBI_NUM_THREADS` is
unset and `some v` when it is set and `atoi` of it is `v`. -/
def jacobi_num_threads (threads_env : Option Int) : Int :=
  match threads_env with
  | none => 4
  | some v => if v ≤ 0 then 4 else v

/-- `jacobi(nsweeps, n, u, f)` of 2. threads-jacobi1d.c (lines 163-178): picks the thread
count and calls `jacobi_parallel`; the count is positive, so its conversion to `Nat` is
exact. There is no error return. -/
def jacobi {α : Type} [Add α] [Mul α] [Div α] [NatCast α] (nsweeps : Int) (n : Nat)
    (u f : Nat → α) (threads_env : Option Int) (utmp0 : Nat → α) : (Nat → α) × (Nat → α) :=
  jacobi_parallel nsweeps n u f (jacobi_num_threads threads_env).toNat utmp0

/-- What `jacobi` makes `jacobi_parallel` set up (barrier size and ranges). -/
def jacobi_setup (n : Nat) (threads_env : Option Int) : parallel_setup :=
  jacobi_parallel_setup n (jacobi_num_threads threads_env).toNat

/-! ## Two-turnstile barrier of processes-jacobi1d.c -/

/-- Program points of one participant with respect to `barrier_wait`
(processes-jacobi1d.c, lines 30-54); each constructor names the statement the participant
executes next. -/
inductive Loc where
  /-- outside `barrier_wait`: the next step is the call -/
  | idle
  /-- line 32, `sem_wait(&b->mutex)` -/
  | p1_lock
  /-- line 33, `b->count++` -/
  | p1_incr
  /-- line 34, `if (b->count == b->n)` -/
  | p1_test
  /-- line 35, `sem_wait(&b->turnstile2)` -/
  | p1_close2
  /-- line 36, `sem_post(&b->turnstile1)` -/
  | p1_open1
  /-- line 38, `sem_post(&b->mutex)` -/
  | p1_unlock
  /-- line 40, `sem_wait(&b->turnstile1)` -/
  | p1_wait1
  /-- line 41, `sem_post(&b->turnstile1)` -/
  | p1_post1
  /-- line 44, `sem_wait(&b->mutex)` -/
  | p2_lock
  /-- line 45, `b->count--` -/
  | p2_decr
  /-- line 46, `if (b->count == 0)` -/
  | p2_test
  /-- line 47, `sem_wait(&b->turnstile1)` -/
  | p2_close1
  /-- line 48, `sem_post(&b->turnstile2)` -/
  | p2_open2
  /-- line 50, `sem_post(&b->mutex)` -/
  | p2_unlock
  /-- line 52, `sem_wait(&b->turnstile2)` -/
  | p2_wait2
  /-- line 53, `sem_post(&b->turnstile2)`, then return -/
  | p2_post2
deriving DecidableEq, Repr

/-- The shared `barrier_t` (lines 12-18): `count`, `n` and the values of the three
semaphores. -/
structure barrier_t where
  count : Int
  n : Nat
  mutex : Nat
  turnstile1 : Nat
  turnstile2 : Nat
deriving DecidableEq, Repr

/-- `barrier_init(b, n)` (lines 21-27). -/
def barrier_init (n : Nat) : barrier_t :=
  { count := 0, n := n, mutex := 1, turnstile1 := 0, turnstile2 := 1 }

/-- The barrier together with its participants `0 .. n-1`: where each one is, and the
history counters `entered` (calls of `barrier_wait` made) and `returned` (calls of
`barrier_wait` completed). -/
structure system where
  b : barrier_t
  pc : Nat → Loc
  entered : Nat → Nat
  returned : Nat → Nat

/-- State right after `barrier_init(b, n)`: every participant is outside `barrier_wait`. -/
def system_init (n : Nat) : system :=
  { b := barrier_init n, pc := fun _ => Loc.idle, entered := fun _ => 0,
    returned := fun _ => 0 }

/-- Participant `p` moves to program point `l`. -/
def goto (s : system) (p : Nat) (l : Loc) (b : barrier_t) : system :=
  { s with b := b, pc := Function.update s.pc p l }

/-- One atomic step of participant `p`: the statement at its program point. `sem_wait` on a
semaphore of value 0 blocks, which leaves the state unchanged; `sem_post` increments. A `p`
that is not one of the `n` participants does nothing. -/
def barrier_step (s : system) (p : Nat) : system :=
  if p < s.b.n then
    match s.pc p with
    | Loc.idle =>
      { goto s p Loc.p1_lock s.b with entered := Function.update s.entered p (s.entered p + 1) }
    | Loc.p1_lock =>
      if 0 < s.b.mutex then goto s p Loc.p1_incr { s.b with mutex := s.b.mutex - 1 } else s
    | Loc.p1_incr => goto s p Loc.p1_test { s.b with count := s.b.count + 1 }
    | Loc.p1_test =>
      if s.b.count = (s.b.n : Int) then goto s p Loc.p1_close2 s.b
      else goto s p Loc.p1_unlock s.b
    | Loc.p1_close2 =>
      if 0 < s.b.turnstile2 then
        goto s p Loc.p1_open1 { s.b with turnstile2 := s.b.turnstile2 - 1 }
      else s
    | Loc.p1_open1 => goto s p Loc.p1_unlock { s.b with turnstile1 := s.b.turnstile1 + 1 }
    | Loc.p1_unlock => goto s p Loc.p1_wait1 { s.b with mutex := s.b.mutex + 1 }
    | Loc.p1_wait1 =>
      if 0 < s.b.turnstile1 then
        goto s p Loc.p1_post1 { s.b with turnstile1 := s.b.turnstile1 - 1 }
      else s
    | Loc.p1_post1 => goto s p Loc.p2_lock { s.b with turnstile1 := s.b.turnstile1 + 1 }
    | Loc.p2_lock =>
      if 0 < s.b.mutex then goto s p Loc.p2_decr { s.b with mutex := s.b.mutex - 1 } else s
    | Loc.p2_decr => goto s p Loc.p2_test { s.b with count := s.b.count - 1 }
    | Loc.p2_test =>
      if s.b.count = 0 then goto s p Loc.p2_close1 s.b
      else goto s p Loc.p2_unlock s.b
    | Loc.p2_close1 =>
      if 0 < s.b.turnstile1 then
        goto s p Loc.p2_open2 { s.b with turnstile1 := s.b.turnstile1 - 1 }
      else s
    | Loc.p2_open2 => goto s p Loc.p2_unlock { s.b with turnstile2 := s.b.turnstile2 + 1 }
    | Loc.p2_unlock => goto s p Loc.p2_wait2 { s.b with mutex := s.b.mutex + 1 }
    | Loc.p2_wait2 =>
      if 0 < s.b.turnstile2 then
        goto s p Loc.p2_post2 { s.b with turnstile2 := s.b.turnstile2 - 1 }
      else s
    | Loc.p2_post2 =>
      { goto s p Loc.idle { s.b with turnstile2 := s.b.turnstile2 + 1 } with
        returned := Function.update s.returned p (s.returned p + 1) }
  else s

/-- An interleaving is the list of participants in the order in which they take their
steps; `barrier_run` executes it from `s`. -/
def barrier_run (s : system) (sched : List Nat) : system :=
  sched.foldl barrier_step s

/-- Number of participants `p < k` whose program point satisfies `P`. -/
def count_at (P : Loc → Bool) (pc : Nat → Loc) : Nat → Nat
  | 0 => 0
  | k + 1 => count_at P pc k + (if P (pc k) then 1 else 0)

/-- Program points at which the participant holds `mutex`. -/
def holds_mutex : Loc → Bool
  | Loc.p1_incr | Loc.p1_test | Loc.p1_close2 | Loc.p1_open1 | Loc.p1_unlock
  | Loc.p2_decr | Loc.p2_test | Loc.p2_close1 | Loc.p2_open2 | Loc.p2_unlock => true
  | _ => false

/-- Program points between the participant's `count++` and its `count--`. -/
def counted : Loc → Bool
  | Loc.p1_test | Loc.p1_close2 | Loc.p1_open1 | Loc.p1_unlock | Loc.p1_wait1 | Loc.p1_post1
  | Loc.p2_lock | Loc.p2_decr => true
  | _ => false

/-- The four phases of a barrier round, by where the single gate token is. -/
inductive Phase where
  /-- turnstile2 open (token in `turnstile2` or with a participant passing it): arrivals -/
  | fill
  /-- the last arriver has closed turnstile2 and is about to open turnstile1 -/
  | open1
  /-- turnstile1 open (token in `turnstile1` or with a participant passing it): departures -/
  | drain
  /-- the last leaver has closed turnstile1 and is about to open turnstile2 -/
  | open2
deriving DecidableEq, Repr

/-- Program points a participant can be at in each phase. -/
def allowed : Phase → Loc → Bool
  | Phase.fill, l =>
    match l with
    | Loc.idle | Loc.p1_lock | Loc.p1_incr | Loc.p1_test | Loc.p1_close2 | Loc.p1_unlock
    | Loc.p1_wait1 | Loc.p2_unlock | Loc.p2_wait2 | Loc.p2_post2 => true
    | _ => false
  | Phase.open1, l =>
    match l with
    | Loc.p1_open1 | Loc.p1_wait1 => true
    | _ => false
  | Phase.drain, l =>
    match l with
    | Loc.p1_unlock | Loc.p1_wait1 | Loc.p1_post1 | Loc.p2_lock | Loc.p2_decr | Loc.p2_test
    | Loc.p2_close1 | Loc.p2_unlock | Loc.p2_wait2 => true
    | _ => false
  | Phase.open2, l =>
    match l with
    | Loc.p2_open2 | Loc.p2_wait2 => true
    | _ => false

/-- Number of gate tokens a state holds for each phase (semaphore value plus participants
carrying the token). -/
def tokens (s : system) : Phase → Nat
  | Phase.fill => s.b.turnstile2 + count_at (fun l => decide (l = Loc.p2_post2)) s.pc s.b.n
  | Phase.open1 => count_at (fun l => decide (l = Loc.p1_open1)) s.pc s.b.n
  | Phase.drain => s.b.turnstile1 + count_at (fun l => decide (l = Loc.p1_post1)) s.pc s.b.n
  | Phase.open2 => count_at (fun l => decide (l = Loc.p2_open2)) s.pc s.b.n

/-- Program points after the gate of phase 2 has been re-opened for the participant's
current call: it is certain to return. -/
def leaving : Loc → Bool
  | Loc.p2_unlock | Loc.p2_wait2 | Loc.p2_post2 => true
  | _ => false

/-- Round index of a participant: completed calls, plus one when it is already through the
last gate of its current call. -/
def round_of (s : system) (p : Nat) : Nat :=
  s.returned p + (if tokens s Phase.fill = 1 ∧ leaving (s.pc p) = true then 1 else 0)

/-- Inductive invariant of the barrier with `W` participants. -/
structure barrier_inv (W : Nat) (s : system) : Prop where
  hn : s.b.n = W
  hmutex : s.b.mutex + count_at holds_mutex s.pc W = 1
  hcount : s.b.count = (count_at counted s.pc W : Int)
  htoken : tokens s Phase.fill + tokens s Phase.open1 + tokens s Phase.drain +
    tokens s Phase.open2 = 1
  hphase : ∀ X : Phase, tokens s X = 1 → ∀ q, q < W → allowed X (s.pc q) = true
  hfull : ∀ q, q < W → s.pc q = Loc.p1_close2 → s.b.count = (W : Int)
  hempty : ∀ q, q < W → s.pc q = Loc.p2_close1 → s.b.count = 0
  hround : ∀ p q, p < W → q < W → round_of s p = round_of s q
  hentered : ∀ q, q < W →
    s.entered q = s.returned q + (if s.pc q = Loc.idle then 0 else 1)

/-- A two-participant interleaving: participant 0 arrives and waits at the first turnstile
(5 steps), participant 1 arrives last, opens it and goes on to wait at the second turnstile
(13 steps), participant 0 leaves last, re-opens the second turnstile and returns (10
steps). -/
def schedule_first_return : List Nat :=
  [0, 0, 0, 0, 0, 1, 1, 1, 1, 1, 1, 1, 1, 1, 1, 1, 1, 1, 0, 0, 0, 0, 0, 0, 0, 0, 0, 0]

/-- The interleaving `schedule_first_return` followed by the two steps with which
participant 1 passes the second turnstile and returns. -/
def schedule_full_round : List Nat := schedule_first_return ++ [1, 1]

/-! ## Trip count of the paired loop -/

/-- Number of times the body of `for (sweep = 0; sweep < bound; sweep += 2)` is executed:
the loop itself, run with a counter increment as body. -/
def loop_trips (bound : Int) : Nat :=
  pair_loop (fun c : Nat => c + 1) bound 0 0

/-! ## Loop-parallel variant (jacobi1d_openmp.c), in exact arithmetic -/

/-- One sweep of the OpenMP variant, `for (int i = 1; i < n; i++) dst[i] = (src[i-1] +
src[i+1] + h2*f[i]) * 0.5;` (jacobi1d_openmp.c, lines 38-39 and 42-43), entered with loop
counter `i`. The iterations of the `parallel for` are independent of each other (they read
`src` and store to distinct cells of `dst`), so they are run in index order. -/
def omp_sweep (h2 : ℚ) (f src : Nat → ℚ) (n : Nat) (i : Nat) (dst : Nat → ℚ) : Nat → ℚ :=
  if i < n then
    omp_sweep h2 f src n (i + 1)
      (Function.update dst i ((src (i - 1) + src (i + 1) + h2 * f i) * (1 / 2)))
  else dst
termination_by n - i

/-- The loop header `for (step = s; step < nsteps; step++) body` on a state of type `σ`
(jacobi1d_openmp.c, line 35). -/
def step_loop {σ : Type} (body : σ → σ) (nsteps : Int) (step : Int) (s : σ) : σ :=
  if step < nsteps then step_loop body nsteps (step + 1) (body s) else s
termination_by (nsteps - step).toNat
decreasing_by omega

/-- Body of the step loop of the OpenMP variant (lines 36-44) on the pair `(u, utmp)`:
first sweep `u → utmp`, second sweep `utmp → u`. -/
def openmp_step (h2 : ℚ) (f : Nat → ℚ) (n : Nat)
    (s : (Nat → ℚ) × (Nat → ℚ)) : (Nat → ℚ) × (Nat → ℚ) :=
  let utmp := omp_sweep h2 f s.1 n 1 s.2
  let u := omp_sweep h2 f utmp n 1 s.1
  (u, utmp)

/-- Solver part of `main` of jacobi1d_openmp.c (lines 14-15, 24-45) on a given initial grid
`u` and source `f`: `utmp[i] = 0.0` for `0 ≤ i ≤ n` on the allocated contents `utmp0`,
boundary seeding, then `nsteps` steps of two sweeps each. Returns `(u, utmp)`. -/
def openmp_solve (nsteps : Int) (n : Nat) (u f utmp0 : Nat → ℚ) : (Nat → ℚ) × (Nat → ℚ) :=
  let h2 : ℚ := grid_h2 n
  let utmp : Nat → ℚ := fun i => if i ≤ n then 0 else utmp0 i
  let utmp := seed_boundary n u utmp
  step_loop (openmp_step h2 f n) nsteps 0 (u, utmp)

/-! ## Distributed variant (jacobi1d_mpi_openmp.c)

Every rank runs `main` on its own local arrays. The ranks are `0 .. size-1` (`size ≥ 1`),
`rank` and `size` are `Nat`. Values are rationals (exact arithmetic). The locals
`int left`, `int right` of the sweeps are 32-bit: the conversion of a `double` to `int` is
`c_trunc`, the truncation toward zero when the result fits an `int`, and `left + right` is
the `int` addition `int_add`. The non-blocking sends and receives of one step are completed
together by `MPI_Waitall`: a receive from `source` with `tag` obtains the value of the
first message that `source` sent to the receiving rank with that tag, and never completes
when there is none. -/

/-- The `local_n` of a rank after line 30: `n / size`, plus one when `rank < n % size`. -/
def mpi_local_n (n size rank : Nat) : Nat :=
  let local_n := n / size
  let remainder := n % size
  if rank < remainder then local_n + 1 else local_n

/-- The `local_start` of a rank (line 29), computed from `local_n = n / size` before the
increment of line 30. -/
def mpi_local_start (n size rank : Nat) : Nat :=
  let local_n := n / size
  let remainder := n % size
  rank * local_n + (if rank < remainder then rank else remainder)

/-- Least value of the 32-bit `int`. -/
def INT_MIN : Int := -2147483648

/-- Greatest value of the 32-bit `int`. -/
def INT_MAX : Int := 2147483647

/-- The integer is a value of the 32-bit `int`. -/
def int_fits (k : Int) : Prop := INT_MIN ≤ k ∧ k ≤ INT_MAX

instance int_fits_decidable (k : Int) : Decidable (int_fits k) :=
  inferInstanceAs (Decidable (INT_MIN ≤ k ∧ k ≤ INT_MAX))

/-- Integer part of a value: the fractional part is discarded (truncation toward zero). -/
def trunc_zero (x : ℚ) : Int := if 0 ≤ x then ⌊x⌋ else ⌈x⌉

/-- Conversion of a `double` to `int` (`int left = ...`): the integer part of the value when
it is a value of `int`. When it is not, C leaves the conversion undefined; the value taken
is `INT_MIN`, which the conversion instruction of x86-64 delivers. -/
def c_trunc (x : ℚ) : Int :=
  let t := trunc_zero x
  if INT_MIN ≤ t ∧ t ≤ INT_MAX then t else INT_MIN

/-- Addition of two `int`s (`left + right`): the sum when it is a value of `int`. When it is
not, C leaves the addition undefined; the value taken is the sum reduced modulo `2^32` into
the range of `int` (two's complement wrap-around). -/
def int_add (a b : Int) : Int := (a + b - INT_MIN) % 4294967296 + INT_MIN

/-- A message in flight: `MPI_Isend` of one value by `source` to `dest` with `tag`. -/
structure message (α : Type) where
  source : Nat
  dest : Nat
  tag : Nat
  value : α

/-- A posted `MPI_Irecv` of one value: expected source and tag, and the index of the local
cell of `u_local` the value is stored into. -/
structure recv_req where
  source : Nat
  tag : Nat
  cell : Nat
deriving DecidableEq, Repr

/-- Sends posted by `rank` in one step (lines 72-73 and 78-79): `u_local[1]` to `rank - 1`
with tag 0 when `rank > 0`, `u_local[local_n]` to `rank + 1` with tag 1 when
`rank < size - 1`. -/
def posted_sends {α : Type} (size local_n rank : Nat) (u_local : Nat → α) :
    List (message α) :=
  (if 0 < rank then [⟨rank, rank - 1, 0, u_local 1⟩] else []) ++
  (if rank < size - 1 then [⟨rank, rank + 1, 1, u_local local_n⟩] else [])

/-- Receives posted by `rank` in one step (lines 74 and 80): into `u_local[0]` from
`rank - 1` with tag 1 when `rank > 0`, into `u_local[local_n + 1]` from `rank + 1` with
tag 0 when `rank < size - 1`. -/
def posted_recvs (size local_n rank : Nat) : List recv_req :=
  (if 0 < rank then [⟨rank - 1, 1, 0⟩] else []) ++
  (if rank < size - 1 then [⟨rank + 1, 0, local_n + 1⟩] else [])

/-- Value a receive of `rank` obtains: that of the first message of its source addressed
to `rank` with its tag; `none` when the source is no rank or sent no such message. -/
def match_recv {α : Type} (size : Nat) (sends : Nat → List (message α)) (rank : Nat)
    (r : recv_req) : Option α :=
  if r.source < size then
    ((sends r.source).find? (fun m => decide (m.dest = rank ∧ m.tag = r.tag))).map
      (fun m => m.value)
  else none

/-- Completion of the receives of `rank` (`MPI_Waitall`, line 84): every received value is
stored into its cell; `none` when some receive cannot complete. -/
def complete_recvs {α : Type} (size : Nat) (sends : Nat → List (message α)) (rank : Nat) :
    List recv_req → (Nat → α) → Option (Nat → α)
  | [], u => some u
  | r :: rs, u =>
    match match_recv size sends rank r with
    | none => none
    | some v => complete_recvs size sends rank rs (Function.update u r.cell v)

/-- The halo exchange at the start of a step (lines 67-84) seen from `rank`: `u s` is the
array `u_local` of rank `s` and `local_n s` its `local_n` when the step starts; the result
is `u_local` of `rank` after `MPI_Waitall`. -/
def exchange {α : Type} (size : Nat) (local_n : Nat → Nat) (u : Nat → Nat → α)
    (rank : Nat) : Option (Nat → α) :=
  complete_recvs size (fun s => posted_sends size (local_n s) s (u s)) rank
    (posted_recvs size (local_n rank) rank) (u rank)

/-- The neighbour value selected for `left` (lines 89 and 97):
`(i == 1 && rank == 0) ? src[1] : src[i-1]`. -/
def mpi_left (rank : Nat) (src : Nat → ℚ) (i : Nat) : ℚ :=
  if i = 1 ∧ rank = 0 then src 1 else src (i - 1)

/-- The neighbour value selected for `right` (lines 90 and 98):
`(i == local_n && rank == size - 1) ? src[local_n] : src[i+1]`. -/
def mpi_right (size rank local_n : Nat) (src : Nat → ℚ) (i : Nat) : ℚ :=
  if i = local_n ∧ rank = size - 1 then src local_n else src (i + 1)

/-- The value one iteration of a sweep stores into `dst[i]` (lines 89-91 and 97-99):
`int left = ...; int right = ...;` then `(left + right + h2 * f_local[i]) * 0.5`. `left`
and `right` are `int`: the selected neighbour values are converted to `int` and added as
`int`s before the sum is converted back. -/
def mpi_cell (size rank local_n : Nat) (h2 : ℚ) (f_local src : Nat → ℚ) (i : Nat) : ℚ :=
  let left : Int := c_trunc (mpi_left rank src i)
  let right : Int := c_trunc (mpi_right size rank local_n src i)
  (((int_add left right : Int) : ℚ) + h2 * f_local i) * (1 / 2)

/-- One sweep of a rank, `for (int i = 1; i <= local_n; i++) dst[i] = ...` (lines 88-92
and 96-100), entered with loop counter `i`. The iterations of the `parallel for` are
independent of each other, so they are run in index order. -/
def mpi_sweep (size rank local_n : Nat) (h2 : ℚ) (f_local src : Nat → ℚ) (i : Nat)
    (dst : Nat → ℚ) : Nat → ℚ :=
  if i ≤ local_n then
    mpi_sweep size rank local_n h2 f_local src (i + 1)
      (Function.update dst i (mpi_cell size rank local_n h2 f_local src i))
  else dst
termination_by local_n + 1 - i

/-- The three local arrays of a rank. -/
structure rank_state where
  u_local : Nat → ℚ
  utmp_local : Nat → ℚ
  f_local : Nat → ℚ

/-- The initialisation loop of lines 46-50, `for (int i = 1; i <= local_n; i++)
{ f_local[i] = (local_start + i - 1) * h; utmp_local[i] = 0.0; }`, on the pair
`(f_local, utmp_local)`. -/
def mpi_init_loop (h : ℚ) (local_start local_n : Nat) (i : Nat)
    (s : (Nat → ℚ) × (Nat → ℚ)) : (Nat → ℚ) × (Nat → ℚ) :=
  if i ≤ local_n then
    let global_i := local_start + i - 1
    mpi_init_loop h local_start local_n (i + 1)
      (Function.update s.1 i ((global_i : ℚ) * h), Function.update s.2 i 0)
  else s
termination_by local_n + 1 - i

/-- Initialisation of a rank (lines 23-60): `u_local` is zeroed by `memset`, `f_local` and
`utmp_local` are set on the owned cells `1 .. local_n` only (their other cells keep the
allocated contents `f0`, `utmp0`), then the global boundary assignments. -/
def mpi_init (n size rank : Nat) (utmp0 f0 : Nat → ℚ) : rank_state :=
  let h : ℚ := 1 / (n : ℚ)
  let local_n := mpi_local_n n size rank
  let local_start := mpi_local_start n size rank
  let u : Nat → ℚ := fun _ => 0
  let fu := mpi_init_loop h local_start local_n 1 (f0, utmp0)
  let u := if rank = 0 then Function.update u 1 0 else u
  let utmp := if rank = 0 then Function.update fu.2 1 0 else fu.2
  let u := if rank = size - 1 then Function.update u local_n 0 else u
  let utmp := if rank = size - 1 then Function.update utmp local_n 0 else utmp
  { u_local := u, utmp_local := utmp, f_local := fu.1 }

/-- First part of a step of `rank` (lines 67-92): the halo exchange of `u_local`, then the
first sweep `u_local → utmp_local`. `st s` is the state of rank `s` when the step starts. -/
def mpi_first_half (n size : Nat) (st : Nat → rank_state) (rank : Nat) : Option rank_state :=
  let h : ℚ := 1 / (n : ℚ)
  let h2 := h * h
  match exchange size (mpi_local_n n size) (fun s => (st s).u_local) rank with
  | none => none
  | some u =>
    some { u_local := u
           utmp_local := mpi_sweep size rank (mpi_local_n n size rank) h2 (st rank).f_local u 1
             (st rank).utmp_local
           f_local := (st rank).f_local }

/-- One step of `rank` (lines 66-101): the first part, then the second sweep
`utmp_local → u_local`; nothing is exchanged between the two sweeps. -/
def mpi_step (n size : Nat) (st : Nat → rank_state) (rank : Nat) : Option rank_state :=
  let h : ℚ := 1 / (n : ℚ)
  let h2 := h * h
  match mpi_first_half n size st rank with
  | none => none
  | some s =>
    some { u_local := mpi_sweep size rank (mpi_local_n n size rank) h2 s.f_local s.utmp_local 1
             s.u_local
           utmp_local := s.utmp_local
           f_local := s.f_local }

/-- Sample contents of the ranks' arrays: cell `i` of rank `s` holds `100 s + i`. -/
def sample_cells : Nat → Nat → ℚ := fun s i => ((100 * s + i : Nat) : ℚ)

/-- State of the two ranks of a run with `n = 4`, `size = 2` after initialisation, when the
allocated `utmp_local` holds 7 and the allocated `f_local` holds 9 in every cell. -/
def mpi_start_state : Nat → rank_state := fun r => mpi_init 4 2 r (fun _ => 7) (fun _ => 9)

theorem pstart_zero (b r : Nat) : pstart b r 0 = 1 := by simp [pstart]

theorem pstart_succ (b r i : Nat) :
    pstart b r (i + 1) = pstart b r i + b + (if i < r then 1 else 0) := by
  unfold pstart
  rw [Nat.succ_mul]
  split <;> omega

theorem pstart_mono (b r : Nat) {i j : Nat} (h : i ≤ j) : pstart b r i ≤ pstart b r j := by
  induction h with
  | refl => exact Nat.le_refl _
  | step _ ih => rw [pstart_succ]; omega

theorem pstart_last (n W : Nat) (hn : 1 ≤ n) (hW : 1 ≤ W) :
    pstart ((n - 1) / W) ((n - 1) % W) W = n := by
  unfold pstart
  have h1 : (n - 1) % W < W := Nat.mod_lt _ hW
  have h2 := Nat.div_add_mod (n - 1) W
  rw [Nat.min_eq_right (Nat.le_of_lt h1)]
  omega

theorem main_loop_eq (b r W : Nat) (k : Nat) : ∀ i, W - i = k →
    main_loop b r W i (pstart b r i) =
      (List.range' i k).map (fun j => ⟨pstart b r j, pstart b r (j + 1)⟩) := by
  induction k with
  | zero =>
    intro i hi
    rw [main_loop, if_neg (by omega)]
    rfl
  | succ k ih =>
    intro i hi
    rw [main_loop, if_pos (by omega)]
    have hs : pstart b r i + b + (if i < r then 1 else 0) = pstart b r (i + 1) :=
      (pstart_succ b r i).symm
    simp only [hs, List.range'_succ, List.map_cons]
    rw [ih (i + 1) (by omega)]

theorem parallel_loop_eq (n b r W : Nat) (hle : ∀ j, j ≤ W → pstart b r j ≤ n) (k : Nat) :
    ∀ i, W - i = k →
    parallel_loop n b r W i (pstart b r i) =
      (List.range' i k).map (fun j => ⟨pstart b r j, pstart b r (j + 1)⟩) := by
  induction k with
  | zero =>
    intro i hi
    rw [parallel_loop, if_neg (by omega)]
    rfl
  | succ k ih =>
    intro i hi
    rw [parallel_loop, if_pos (by omega)]
    have hs : pstart b r i + (if i < r then b + 1 else b) = pstart b r (i + 1) := by
      rw [pstart_succ]; split <;> omega
    have hc : ¬ pstart b r (i + 1) > n := by
      have := hle (i + 1) (by omega); omega
    simp only [hs, if_neg hc, List.range'_succ, List.map_cons]
    rw [ih (i + 1) (by omega)]

theorem main_thread_data_eq (n W : Nat) :
    main_thread_data n W = closed_ranges ((n - 1) / W) ((n - 1) % W) W := by
  unfold main_thread_data main_setup closed_ranges
  have := main_loop_eq ((n - 1) / W) ((n - 1) % W) W W 0 (by omega)
  simpa [pstart_zero] using this

theorem clamp_threads_eq_min (n W : Nat) : clamp_threads n W = min W (n - 1) := by
  unfold clamp_threads
  split <;> omega

theorem parallel_thread_data_eq (n W : Nat) (hn : 2 ≤ n) (hW : 1 ≤ W) :
    parallel_thread_data n W =
      closed_ranges ((n - 1) / min W (n - 1)) ((n - 1) % min W (n - 1)) (min W (n - 1)) := by
  unfold parallel_thread_data jacobi_parallel_setup closed_ranges
  rw [clamp_threads_eq_min]
  have hV : 1 ≤ min W (n - 1) := by omega
  have hle : ∀ j, j ≤ min W (n - 1) →
      pstart ((n - 1) / min W (n - 1)) ((n - 1) % min W (n - 1)) j ≤ n := by
    intro j hj
    have := pstart_mono ((n - 1) / min W (n - 1)) ((n - 1) % min W (n - 1)) hj
    rw [pstart_last n _ (by omega) hV] at this
    exact this
  have := parallel_loop_eq n _ _ (min W (n - 1)) hle (min W (n - 1)) 0 (by omega)
  simpa [pstart_zero] using this


theorem closed_ranges_length (b r W : Nat) : (closed_ranges b r W).length = W := by
  simp [closed_ranges]

theorem closed_ranges_get (b r W i : Nat) (h : i < W) :
    (closed_ranges b r W)[i]? = some ⟨pstart b r i, pstart b r (i + 1)⟩ := by
  simp [closed_ranges, List.getElem?_map, List.getElem?_range', h]

theorem closed_ranges_get_some (b r W i : Nat) (w : thread_data_t)
    (h : (closed_ranges b r W)[i]? = some w) :
    i < W ∧ w = ⟨pstart b r i, pstart b r (i + 1)⟩ := by
  have hi : i < W := by
    have := List.getElem?_eq_some_iff.mp h
    obtain ⟨hlt, _⟩ := this
    simpa [closed_ranges_length] using hlt
  rw [closed_ranges_get b r W i hi] at h
  exact ⟨hi, (Option.some.inj h).symm⟩

/-- Every index between the first start and the last end lies in some range. -/
theorem pstart_cover (b r : Nat) (j : Nat) : ∀ W, pstart b r 0 ≤ j → j < pstart b r W →
    ∃ i, i < W ∧ pstart b r i ≤ j ∧ j < pstart b r (i + 1) := by
  intro W
  induction W with
  | zero => intro h0 h1; omega
  | succ W ih =>
    intro h0 h1
    by_cases hj : j < pstart b r W
    · obtain ⟨i, hi, h⟩ := ih h0 hj
      exact ⟨i, by omega, h⟩
    · exact ⟨W, by omega, by omega, h1⟩

/-- Two ranges that share an index are the same range. -/
theorem pstart_disjoint (b r : Nat) (j i k : Nat)
    (hi : pstart b r i ≤ j ∧ j < pstart b r (i + 1))
    (hk : pstart b r k ≤ j ∧ j < pstart b r (k + 1)) : i = k := by
  rcases Nat.lt_trichotomy i k with h | h | h
  · have := pstart_mono b r (show i + 1 ≤ k from h); omega
  · exact h
  · have := pstart_mono b r (show k + 1 ≤ i from h); omega

/-- Chain, cover and disjointness for ranges in closed form whose last end is `M`. -/
theorem closed_ranges_partition (b r W M : Nat) (hW : 1 ≤ W) (hlast : pstart b r W = M) :
    let ws := closed_ranges b r W
    ws.length = W ∧
    (∃ w : thread_data_t, ws[0]? = some w ∧ w.start = 1) ∧
    (∀ i, i + 1 < W → ∃ a c : thread_data_t, ws[i]? = some a ∧ ws[i + 1]? = some c ∧ c.start = a.end_) ∧
    (∃ w : thread_data_t, ws[W - 1]? = some w ∧ w.end_ = M) ∧
    (∀ j, 1 ≤ j → j < M → ∃! i : Nat, ∃ w : thread_data_t, ws[i]? = some w ∧ w.start ≤ j ∧ j < w.end_) ∧
    (∀ (i k : Nat) (a c : thread_data_t) (j : Nat), ws[i]? = some a → ws[k]? = some c →
      a.start ≤ j → j < a.end_ → c.start ≤ j → j < c.end_ → i = k) := by
  intro ws
  refine ⟨closed_ranges_length b r W, ?_, ?_, ?_, ?_, ?_⟩
  · exact ⟨_, closed_ranges_get b r W 0 (by omega), pstart_zero b r⟩
  · intro i hi
    exact ⟨_, _, closed_ranges_get b r W i (by omega), closed_ranges_get b r W (i + 1) hi, rfl⟩
  · refine ⟨_, closed_ranges_get b r W (W - 1) (by omega), ?_⟩
    show pstart b r (W - 1 + 1) = M
    rw [Nat.sub_add_cancel hW]; exact hlast
  · intro j h1 hM
    obtain ⟨i, hi, hlo, hhi⟩ := pstart_cover b r j W (by rw [pstart_zero]; exact h1)
      (by rw [hlast]; exact hM)
    refine ⟨i, ⟨_, closed_ranges_get b r W i hi, hlo, hhi⟩, ?_⟩
    rintro k ⟨w, hw, hwlo, hwhi⟩
    obtain ⟨_, rfl⟩ := closed_ranges_get_some b r W k w hw
    exact pstart_disjoint b r j k i ⟨hwlo, hwhi⟩ ⟨hlo, hhi⟩
  · intro i k a c j ha hc h1 h2 h3 h4
    obtain ⟨_, rfl⟩ := closed_ranges_get_some b r W i a ha
    obtain ⟨_, rfl⟩ := closed_ranges_get_some b r W k c hc
    exact pstart_disjoint b r j i k ⟨h1, h2⟩ ⟨h3, h4⟩

/-! ### Lemmas on the sweep engine -/

section CopyLemmas

variable {α : Type}

theorem copy_back_apply (src : Nat → α) (e : Nat) (k : Nat) :
    ∀ (i : Nat) (dst : Nat → α) (j : Nat), e - i = k →
      copy_back src e i dst j = if i ≤ j ∧ j < e then src j else dst j := by
  induction k with
  | zero =>
    intro i dst j hk
    rw [copy_back, if_neg (by omega), if_neg (by omega)]
  | succ k ih =>
    intro i dst j hk
    rw [copy_back, if_pos (by omega), ih (i + 1) _ j (by omega)]
    by_cases hji : j = i
    · subst hji
      rw [if_neg (by omega), if_pos (by omega), Function.update_same]
    · rw [Function.update_noteq hji]
      by_cases hj : i + 1 ≤ j ∧ j < e
      · rw [if_pos hj, if_pos (by omega)]
      · rw [if_neg hj, if_neg (by omega)]

theorem workers_copy_back_out (src : Nat → α) (ws : List thread_data_t) :
    ∀ (dst : Nat → α) (j : Nat), (∀ w ∈ ws, ¬ (w.start ≤ j ∧ j < w.end_)) →
      workers_copy_back src ws dst j = dst j := by
  induction ws with
  | nil => intro dst j _; rfl
  | cons w ws ih =>
    intro dst j h
    show workers_copy_back src ws _ j = dst j
    rw [ih _ j (fun v hv => h v (List.mem_cons_of_mem _ hv))]
    show copy_back src w.end_ w.start dst j = dst j
    rw [copy_back_apply src _ _ _ dst j rfl, if_neg (h w (List.mem_cons_self _ _))]

theorem workers_copy_back_in (src : Nat → α) (ws : List thread_data_t) :
    ∀ (dst : Nat → α) (j : Nat), (∃ w ∈ ws, w.start ≤ j ∧ j < w.end_) →
      workers_copy_back src ws dst j = src j := by
  induction ws with
  | nil => intro dst j h; obtain ⟨w, hw, _⟩ := h; cases hw
  | cons w ws ih =>
    intro dst j h
    show workers_copy_back src ws _ j = _
    by_cases hrest : ∃ v ∈ ws, v.start ≤ j ∧ j < v.end_
    · exact ih _ j hrest
    · have hw : w.start ≤ j ∧ j < w.end_ := by
        obtain ⟨v, hv, hin⟩ := h
        rcases List.mem_cons.mp hv with rfl | hv'
        · exact hin
        · exact absurd ⟨v, hv', hin⟩ hrest
      rw [workers_copy_back_out src ws _ j (fun v hv hin => hrest ⟨v, hv, hin⟩)]
      show copy_back src w.end_ w.start dst j = src j
      rw [copy_back_apply src _ _ _ dst j rfl, if_pos hw]

theorem workers_copy_back_eq (src : Nat → α) (ws : List thread_data_t) (M : Nat)
    (hc : covers_interior ws M) (dst : Nat → α) :
    workers_copy_back src ws dst = copy_back src M 1 dst := by
  funext j
  rw [copy_back_apply src M _ 1 dst j rfl]
  by_cases hj : 1 ≤ j ∧ j < M
  · rw [workers_copy_back_in src ws dst j ((hc j).mpr hj), if_pos hj]
  · rw [workers_copy_back_out src ws dst j
      (fun w hw hin => hj ((hc j).mp ⟨w, hw, hin⟩)), if_neg hj]

theorem seed_boundary_zero (M : Nat) (u utmp0 : Nat → α) : seed_boundary M u utmp0 0 = u 0 := by
  unfold seed_boundary
  by_cases hM : 0 = M
  · subst hM; rw [Function.update_same]
  · rw [Function.update_noteq hM, Function.update_same]

theorem seed_boundary_last (M : Nat) (u utmp0 : Nat → α) : seed_boundary M u utmp0 M = u M := by
  unfold seed_boundary
  rw [Function.update_same]

end CopyLemmas

section SweepLemmas

variable {α : Type} [Add α] [Mul α] [Div α] [NatCast α]

theorem half_sweep_apply (h2 : α) (f src : Nat → α) (e : Nat) (k : Nat) :
    ∀ (i : Nat) (dst : Nat → α) (j : Nat), e - i = k →
      half_sweep h2 f src e i dst j =
        if i ≤ j ∧ j < e then stencil h2 f src j else dst j := by
  induction k with
  | zero =>
    intro i dst j hk
    rw [half_sweep, if_neg (by omega), if_neg (by omega)]
  | succ k ih =>
    intro i dst j hk
    rw [half_sweep, if_pos (by omega), ih (i + 1) _ j (by omega)]
    by_cases hji : j = i
    · subst hji
      rw [if_neg (by omega), if_pos (by omega), Function.update_same]
    · rw [Function.update_noteq hji]
      by_cases hj : i + 1 ≤ j ∧ j < e
      · rw [if_pos hj, if_pos (by omega)]
      · rw [if_neg hj, if_neg (by omega)]

theorem half_sweep_in (h2 : α) (f src : Nat → α) (e i : Nat) (dst : Nat → α) (j : Nat)
    (h : i ≤ j ∧ j < e) : half_sweep h2 f src e i dst j = stencil h2 f src j := by
  rw [half_sweep_apply h2 f src e (e - i) i dst j rfl, if_pos h]

theorem half_sweep_out (h2 : α) (f src : Nat → α) (e i : Nat) (dst : Nat → α) (j : Nat)
    (h : ¬ (i ≤ j ∧ j < e)) : half_sweep h2 f src e i dst j = dst j := by
  rw [half_sweep_apply h2 f src e (e - i) i dst j rfl, if_neg h]

theorem workers_half_sweep_out (h2 : α) (f src : Nat → α) (ws : List thread_data_t) :
    ∀ (dst : Nat → α) (j : Nat), (∀ w ∈ ws, ¬ (w.start ≤ j ∧ j < w.end_)) →
      workers_half_sweep h2 f src ws dst j = dst j := by
  induction ws with
  | nil => intro dst j _; rfl
  | cons w ws ih =>
    intro dst j h
    show workers_half_sweep h2 f src ws _ j = dst j
    rw [ih _ j (fun v hv => h v (List.mem_cons_of_mem _ hv))]
    exact half_sweep_out h2 f src _ _ dst j (h w (List.mem_cons_self _ _))

theorem workers_half_sweep_in (h2 : α) (f src : Nat → α) (ws : List thread_data_t) :
    ∀ (dst : Nat → α) (j : Nat), (∃ w ∈ ws, w.start ≤ j ∧ j < w.end_) →
      workers_half_sweep h2 f src ws dst j = stencil h2 f src j := by
  induction ws with
  | nil => intro dst j h; obtain ⟨w, hw, _⟩ := h; cases hw
  | cons w ws ih =>
    intro dst j h
    show workers_half_sweep h2 f src ws _ j = _
    by_cases hrest : ∃ v ∈ ws, v.start ≤ j ∧ j < v.end_
    · exact ih _ j hrest
    · have hw : w.start ≤ j ∧ j < w.end_ := by
        obtain ⟨v, hv, hin⟩ := h
        rcases List.mem_cons.mp hv with rfl | hv'
        · exact hin
        · exact absurd ⟨v, hv', hin⟩ hrest
      rw [workers_half_sweep_out h2 f src ws _ j
        (fun v hv hin => hrest ⟨v, hv, hin⟩)]
      exact half_sweep_in h2 f src _ _ dst j hw

/-- With ranges covering the interior, a round of all workers stores exactly what the
single loop over `1 ≤ i < M` stores. -/
theorem workers_half_sweep_eq (h2 : α) (f src : Nat → α) (ws : List thread_data_t) (M : Nat)
    (hc : covers_interior ws M) (dst : Nat → α) :
    workers_half_sweep h2 f src ws dst = half_sweep h2 f src M 1 dst := by
  funext j
  by_cases hj : 1 ≤ j ∧ j < M
  · rw [workers_half_sweep_in h2 f src ws dst j ((hc j).mpr hj), half_sweep_in _ _ _ _ _ _ _ hj]
  · rw [workers_half_sweep_out h2 f src ws dst j
      (fun w hw hin => hj ((hc j).mp ⟨w, hw, hin⟩)), half_sweep_out _ _ _ _ _ _ _ hj]

theorem worker_pair_eq (h2 : α) (f : Nat → α) (ws : List thread_data_t) (M : Nat)
    (hc : covers_interior ws M) :
    worker_pair h2 f ws = sequential_pair h2 f M := by
  funext s
  simp only [worker_pair, sequential_pair, workers_half_sweep_eq h2 f _ ws M hc]

/-- The paired loop runs its body `(bound - sweep + 1) / 2` times (none if that is
negative). -/
theorem pair_loop_eq_iterate {σ : Type} (body : σ → σ) (bound : Int) (k : Nat) :
    ∀ (sweep : Int) (s : σ), ((bound - sweep + 1) / 2).toNat = k →
      pair_loop body bound sweep s = body^[k] s := by
  induction k with
  | zero =>
    intro sweep s hk
    rw [pair_loop, if_neg (by omega)]
    rfl
  | succ k ih =>
    intro sweep s hk
    rw [pair_loop, if_pos (by omega), ih (sweep + 2) (body s) (by omega)]
    rfl

end SweepLemmas

theorem closed_ranges_mem (b r W : Nat) (w : thread_data_t) :
    w ∈ closed_ranges b r W ↔ ∃ i, i < W ∧ w = ⟨pstart b r i, pstart b r (i + 1)⟩ := by
  constructor
  · intro h
    obtain ⟨i, hi⟩ := List.getElem?_of_mem h
    exact ⟨i, closed_ranges_get_some b r W i w hi⟩
  · rintro ⟨i, hi, rfl⟩
    exact List.getElem?_mem (closed_ranges_get b r W i hi)

theorem closed_ranges_covers (b r W M : Nat) (hlast : pstart b r W = M) :
    covers_interior (closed_ranges b r W) M := by
  intro j
  constructor
  · rintro ⟨w, hw, hlo, hhi⟩
    obtain ⟨i, hi, rfl⟩ := (closed_ranges_mem b r W w).mp hw
    have h0 := pstart_mono b r (Nat.zero_le i)
    have h1 := pstart_mono b r (show i + 1 ≤ W from hi)
    rw [pstart_zero] at h0
    rw [hlast] at h1
    exact ⟨Nat.le_trans h0 hlo, Nat.lt_of_lt_of_le hhi h1⟩
  · rintro ⟨h1, hM⟩
    obtain ⟨i, hi, hlo, hhi⟩ := pstart_cover b r j W (by rw [pstart_zero]; exact h1)
      (by rw [hlast]; exact hM)
    exact ⟨_, (closed_ranges_mem b r W _).mpr ⟨i, hi, rfl⟩, hlo, hhi⟩

/-- The ranges of `jacobi_parallel` cover the interior for every requested `W ≥ 1`. -/
theorem parallel_thread_data_covers (M W : Nat) (hM : 2 ≤ M) (hW : 1 ≤ W) :
    covers_interior (parallel_thread_data M W) M := by
  rw [parallel_thread_data_eq M W hM hW]
  exact closed_ranges_covers _ _ _ M (pstart_last M _ (by omega) (by omega))

/-- The ranges of threads4/process `main` cover the interior for every `W ≥ 1`. -/
theorem main_thread_data_covers (M W : Nat) (hM : 1 ≤ M) (hW : 1 ≤ W) :
    covers_interior (main_thread_data M W) M := by
  rw [main_thread_data_eq]
  exact closed_ranges_covers _ _ _ M (pstart_last M W hM hW)

section SweepRefinement

variable {α : Type} [Add α] [Mul α] [Div α] [NatCast α]

theorem stencil_congr (h2 : α) (f src src' : Nat → α) (i : Nat)
    (hl : src (i - 1) = src' (i - 1)) (hr : src (i + 1) = src' (i + 1)) :
    stencil h2 f src i = stencil h2 f src' i := by
  unfold stencil
  rw [hl, hr]

/-- One sequential pair of half-sweeps only depends on the scratch buffer through its
two boundary entries: the interior ones are overwritten before they are read. -/
theorem sequential_pair_agree (h2 : α) (f : Nat → α) (M : Nat)
    (u sv tv : Nat → α) (h0 : sv 0 = tv 0) (hM : sv M = tv M) :
    (sequential_pair h2 f M (u, sv)).1 = (sequential_pair h2 f M (u, tv)).1 ∧
    ∀ j, j ≤ M → (sequential_pair h2 f M (u, sv)).2 j = (sequential_pair h2 f M (u, tv)).2 j := by
  have hscr : ∀ j, j ≤ M →
      half_sweep h2 f u M 1 sv j = half_sweep h2 f u M 1 tv j := by
    intro j hj
    rw [half_sweep_apply h2 f u M _ 1 sv j rfl, half_sweep_apply h2 f u M _ 1 tv j rfl]
    by_cases hin : 1 ≤ j ∧ j < M
    · rw [if_pos hin, if_pos hin]
    · rw [if_neg hin, if_neg hin]
      rcases Nat.eq_zero_or_pos j with hz | hp
      · rw [hz]; exact h0
      · have : j = M := by omega
        rw [this]; exact hM
  refine ⟨?_, hscr⟩
  funext j
  show half_sweep h2 f _ M 1 u j = half_sweep h2 f _ M 1 u j
  rw [half_sweep_apply h2 f _ M _ 1 u j rfl, half_sweep_apply h2 f _ M _ 1 u j rfl]
  by_cases hj : 1 ≤ j ∧ j < M
  · rw [if_pos hj, if_pos hj]
    exact stencil_congr h2 f _ _ j (hscr (j - 1) (by omega)) (hscr (j + 1) (by omega))
  · rw [if_neg hj, if_neg hj]

theorem sequential_iterate_agree (h2 : α) (f : Nat → α) (M : Nat) (k : Nat) :
    ∀ (u sv tv : Nat → α), sv 0 = tv 0 → sv M = tv M →
      ((sequential_pair h2 f M)^[k] (u, sv)).1 = ((sequential_pair h2 f M)^[k] (u, tv)).1 := by
  induction k with
  | zero => intro u sv tv _ _; rfl
  | succ k ih =>
    intro u sv tv h0 hM
    rw [Function.iterate_succ_apply, Function.iterate_succ_apply]
    obtain ⟨ha, hb⟩ := sequential_pair_agree h2 f M u sv tv h0 hM
    have e1 : sequential_pair h2 f M (u, sv) =
        ((sequential_pair h2 f M (u, sv)).1, (sequential_pair h2 f M (u, sv)).2) := rfl
    have e2 : sequential_pair h2 f M (u, tv) =
        ((sequential_pair h2 f M (u, sv)).1, (sequential_pair h2 f M (u, tv)).2) := by
      rw [ha]
    rw [e1, e2]
    exact ih _ _ _ (hb 0 (Nat.zero_le M)) (hb M (Nat.le_refl M))

/-- The final grid of `jacobi_sequential` does not depend on the initial contents of the
allocated scratch buffer. -/
theorem jacobi_sequential_scratch_indep (nsweeps : Int) (M : Nat) (u f utmp0 utmp1 : Nat → α) :
    (jacobi_sequential nsweeps M u f utmp0).1 = (jacobi_sequential nsweeps M u f utmp1).1 := by
  unfold jacobi_sequential
  simp only
  rw [pair_loop_eq_iterate _ nsweeps _ 0 _ rfl, pair_loop_eq_iterate _ nsweeps _ 0 _ rfl]
  apply sequential_iterate_agree
  · rw [seed_boundary_zero, seed_boundary_zero]
  · rw [seed_boundary_last, seed_boundary_last]

/-- With ranges covering the interior, the lockstep workers compute exactly what
`jacobi_sequential` computes, on both buffers. -/
theorem jacobi_parallel_eq_sequential (nsweeps : Int) (M W : Nat) (hM : 2 ≤ M) (hW : 1 ≤ W)
    (u f utmp0 : Nat → α) :
    jacobi_parallel nsweeps M u f W utmp0 = jacobi_sequential nsweeps M u f utmp0 := by
  unfold jacobi_parallel jacobi_sequential jacobi_worker
  simp only
  have hc : covers_interior (jacobi_parallel_setup M W).thread_data M :=
    parallel_thread_data_covers M W hM hW
  rw [worker_pair_eq _ f _ M hc]

theorem worker_pair_frame (h2 : α) (f : Nat → α) (ws : List thread_data_t) (M : Nat)
    (hc : covers_interior ws M) (s : (Nat → α) × (Nat → α)) (j : Nat)
    (hj : ¬ (1 ≤ j ∧ j < M)) :
    (worker_pair h2 f ws s).1 j = s.1 j ∧ (worker_pair h2 f ws s).2 j = s.2 j := by
  rw [worker_pair_eq h2 f ws M hc]
  exact ⟨half_sweep_out h2 f _ M 1 s.1 j hj, half_sweep_out h2 f _ M 1 s.2 j hj⟩

theorem worker_iterate_frame (h2 : α) (f : Nat → α) (ws : List thread_data_t) (M : Nat)
    (hc : covers_interior ws M) (j : Nat) (hj : ¬ (1 ≤ j ∧ j < M)) (k : Nat) :
    ∀ s : (Nat → α) × (Nat → α),
      ((worker_pair h2 f ws)^[k] s).1 j = s.1 j ∧ ((worker_pair h2 f ws)^[k] s).2 j = s.2 j := by
  induction k with
  | zero => intro s; exact ⟨rfl, rfl⟩
  | succ k ih =>
    intro s
    rw [Function.iterate_succ_apply]
    obtain ⟨h1, h2'⟩ := ih (worker_pair h2 f ws s)
    obtain ⟨h3, h4⟩ := worker_pair_frame h2 f ws M hc s j hj
    exact ⟨h1.trans h3, h2'.trans h4⟩

theorem odd_tail_eq (h2 : α) (f : Nat → α) (ws : List thread_data_t) (M : Nat)
    (hc : covers_interior ws M) (s : (Nat → α) × (Nat → α)) :
    odd_tail h2 f ws s = half_sweep_copy h2 f M s := by
  unfold odd_tail half_sweep_copy
  simp only [workers_half_sweep_eq h2 f _ ws M hc, workers_copy_back_eq _ ws M hc]

theorem odd_tail_frame (h2 : α) (f : Nat → α) (ws : List thread_data_t) (M : Nat)
    (hc : covers_interior ws M) (s : (Nat → α) × (Nat → α)) (j : Nat)
    (hj : ¬ (1 ≤ j ∧ j < M)) :
    (odd_tail h2 f ws s).1 j = s.1 j ∧ (odd_tail h2 f ws s).2 j = s.2 j := by
  rw [odd_tail_eq h2 f ws M hc]
  refine ⟨?_, half_sweep_out h2 f _ M 1 s.2 j hj⟩
  show copy_back _ M 1 s.1 j = s.1 j
  rw [copy_back_apply _ M _ 1 s.1 j rfl, if_neg hj]

theorem half_sweep_copy_in (h2 : α) (f : Nat → α) (M : Nat) (s : (Nat → α) × (Nat → α))
    (i : Nat) (hi : 1 ≤ i ∧ i < M) :
    (half_sweep_copy h2 f M s).1 i = (s.1 (i - 1) + s.1 (i + 1) + h2 * f i) / ((2 : Nat) : α) := by
  show copy_back _ M 1 s.1 i = _
  rw [copy_back_apply _ M _ 1 s.1 i rfl, if_pos hi, half_sweep_in h2 f s.1 M 1 s.2 i hi]
  rfl

theorem half_sweep_copy_out (h2 : α) (f : Nat → α) (M : Nat) (s : (Nat → α) × (Nat → α))
    (i : Nat) (hi : ¬ (1 ≤ i ∧ i < M)) :
    (half_sweep_copy h2 f M s).1 i = s.1 i := by
  show copy_back _ M 1 s.1 i = _
  rw [copy_back_apply _ M _ 1 s.1 i rfl, if_neg hi]

theorem jacobi_worker_frame (h2 : α) (f : Nat → α) (ws : List thread_data_t) (M : Nat)
    (hc : covers_interior ws M) (nsweeps : Int) (u utmp : Nat → α) (j : Nat)
    (hj : ¬ (1 ≤ j ∧ j < M)) :
    (jacobi_worker h2 f ws nsweeps u utmp).1 j = u j ∧
    (jacobi_worker h2 f ws nsweeps u utmp).2 j = utmp j := by
  unfold jacobi_worker
  rw [pair_loop_eq_iterate _ nsweeps _ 0 _ rfl]
  exact worker_iterate_frame h2 f ws M hc j hj _ (u, utmp)

theorem jacobi_thread_frame (h2 : α) (f : Nat → α) (ws : List thread_data_t) (M : Nat)
    (hc : covers_interior ws M) (nsteps : Int) (u utmp : Nat → α) (j : Nat)
    (hj : ¬ (1 ≤ j ∧ j < M)) :
    (jacobi_thread h2 f ws nsteps u utmp).1 j = u j ∧
    (jacobi_thread h2 f ws nsteps u utmp).2 j = utmp j := by
  unfold jacobi_thread
  simp only
  rw [pair_loop_eq_iterate _ (nsteps - 1) _ 0 _ rfl]
  have hloop := worker_iterate_frame h2 f ws M hc j hj ((nsteps - 1 - 0 + 1) / 2).toNat (u, utmp)
  split
  · have htail := odd_tail_frame h2 f ws M hc
      ((worker_pair h2 f ws)^[((nsteps - 1 - 0 + 1) / 2).toNat] (u, utmp)) j hj
    exact ⟨htail.1.trans hloop.1, htail.2.trans hloop.2⟩
  · exact hloop

/-- For an even count `2k` the paired loop of `jacobi_thread` runs `k` times and there is no
tail; for `2k+1` it runs `k` times as well and the tail follows. -/
theorem jacobi_thread_odd (h2 : α) (f : Nat → α) (ws : List thread_data_t) (k : Nat)
    (u utmp : Nat → α) :
    jacobi_thread h2 f ws (2 * (k : Int) + 1) u utmp =
      odd_tail h2 f ws (jacobi_thread h2 f ws (2 * (k : Int)) u utmp) := by
  unfold jacobi_thread
  simp only
  have e1 : Int.tmod (2 * (k : Int) + 1) 2 ≠ 0 := by
    rw [Int.tmod_eq_emod (by omega) (by omega)]; omega
  have e2 : ¬ Int.tmod (2 * (k : Int)) 2 ≠ 0 := by
    rw [Int.tmod_eq_emod (by omega) (by omega)]; omega
  rw [if_pos e1, if_neg e2]
  rw [pair_loop_eq_iterate _ _ k 0 _ (by omega), pair_loop_eq_iterate _ _ k 0 _ (by omega)]

/-- Final grids of `jacobi_parallel` and `jacobi_sequential` agree for every `W ≥ 1` and
any scratch allocations. -/
theorem parallel_final_grid_eq (M : Nat) (hM : 2 ≤ M) (nsweeps : Int) (f u : Nat → α) (W : Nat)
    (hW : 1 ≤ W) (utmp0 utmp1 : Nat → α) :
    (jacobi_parallel nsweeps M u f W utmp0).1 = (jacobi_sequential nsweeps M u f utmp1).1 := by
  rw [jacobi_parallel_eq_sequential nsweeps M W hM hW]
  exact jacobi_sequential_scratch_indep nsweeps M u f utmp0 utmp1

end SweepRefinement

/-- Final grid of the sequential recurrence on the end-to-end scenario, computed from the
averaging formula with `h = 1/4`. -/
theorem scenario_sequential_grid (utmp0 : Nat → ℚ) :
    (List.range 5).map (jacobi_sequential 2 4 scenario_grid scenario_source utmp0).1 =
      [0, 1/64, 1/32, 1/32, 0] := by
  have hrun : jacobi_sequential 2 4 scenario_grid scenario_source utmp0 =
      sequential_pair (grid_h2 4) scenario_source 4
        (scenario_grid, seed_boundary 4 scenario_grid utmp0) := by
    unfold jacobi_sequential
    simp only
    rw [pair_loop_eq_iterate _ 2 1 0 _ (by decide)]
    rfl
  have hscr : ∀ j, half_sweep (grid_h2 4) scenario_source scenario_grid 4 1
      (seed_boundary 4 scenario_grid utmp0) j =
      if 1 ≤ j ∧ j < 4 then stencil (grid_h2 4) scenario_source scenario_grid j
      else seed_boundary 4 scenario_grid utmp0 j :=
    fun j => half_sweep_apply _ _ _ 4 _ 1 _ j rfl
  have hgrid : ∀ j, (sequential_pair (grid_h2 4) scenario_source 4
      (scenario_grid, seed_boundary 4 scenario_grid utmp0)).1 j =
      if 1 ≤ j ∧ j < 4 then stencil (grid_h2 4) scenario_source
        (half_sweep (grid_h2 4) scenario_source scenario_grid 4 1
          (seed_boundary 4 scenario_grid utmp0)) j
      else scenario_grid j :=
    fun j => half_sweep_apply _ _ _ 4 _ 1 _ j rfl
  have s0 : seed_boundary 4 scenario_grid utmp0 0 = 0 := seed_boundary_zero 4 _ _
  have s4 : seed_boundary 4 scenario_grid utmp0 4 = 0 := seed_boundary_last 4 _ _
  rw [hrun]
  simp only [List.range, List.range.loop, List.map, hgrid, hscr, stencil]
  simp [s0, s4, grid_h2, scenario_source, scenario_grid]
  norm_num

section RoundLemmas

variable {α : Type} [Add α] [Mul α] [Div α] [NatCast α]

theorem round_init_inv (h2 : α) (f src : Nat → α) (ws : List thread_data_t) (dst : Nat → α) :
    round_inv h2 f src ws dst (round_init ws dst) := by
  have hi0 : ∀ (w : Nat) (d : thread_data_t), ws[w]? = some d →
      (round_init ws dst).i w = d.start := by
    intro w d hd
    simp only [round_init, hd]
  refine ⟨?_, ?_, ?_⟩
  · intro w d hd
    rw [hi0 w d hd]
    exact ⟨Nat.le_refl _, Or.inr rfl⟩
  · rintro j ⟨w, d, hd, h1, h2'⟩
    rw [hi0 w d hd] at h2'
    omega
  · intro j _
    rfl

theorem round_step_inv (h2 : α) (f src : Nat → α) (ws : List thread_data_t) (dst0 : Nat → α)
    (s : round_state α) (inv : round_inv h2 f src ws dst0 s) (w : Nat) :
    round_inv h2 f src ws dst0 (round_step h2 f src ws s w) := by
  unfold round_step
  split
  · exact inv
  · rename_i d hd
    split
    · rename_i hlt
      have hw := inv.hi w d hd
      have key : ∀ (j : Nat), j ≠ s.i w → ∀ (v : Nat) (e : thread_data_t), ws[v]? = some e →
          ((e.start ≤ j ∧ j < Function.update s.i w (s.i w + 1) v) ↔
            (e.start ≤ j ∧ j < s.i v)) := by
        intro j hj v e he
        by_cases hv : v = w
        · subst hv
          rw [Function.update_same]
          constructor <;> rintro ⟨a, b⟩ <;> exact ⟨a, by omega⟩
        · rw [Function.update_noteq hv]
      refine ⟨?_, ?_, ?_⟩
      · intro v e he
        show e.start ≤ Function.update s.i w (s.i w + 1) v ∧
          (Function.update s.i w (s.i w + 1) v ≤ e.end_ ∨
            Function.update s.i w (s.i w + 1) v = e.start)
        by_cases hv : v = w
        · subst hv
          rw [hd] at he
          obtain rfl := Option.some.inj he
          rw [Function.update_same]
          exact ⟨by omega, Or.inl (by omega)⟩
        · rw [Function.update_noteq hv]
          exact inv.hi v e he
      · rintro j ⟨v, e, he, h1, h2'⟩
        show Function.update s.dst (s.i w) _ j = _
        by_cases hj : j = s.i w
        · subst hj
          rw [Function.update_same]
        · rw [Function.update_noteq hj]
          exact inv.hnew j ⟨v, e, he, ((key j hj v e he).mp ⟨h1, h2'⟩)⟩
      · intro j hno
        show Function.update s.dst (s.i w) _ j = _
        by_cases hj : j = s.i w
        · subst hj
          exfalso
          apply hno
          refine ⟨w, d, hd, hw.1, ?_⟩
          show s.i w < Function.update s.i w (s.i w + 1) w
          rw [Function.update_same]
          omega
        · rw [Function.update_noteq hj]
          apply inv.hkeep j
          rintro ⟨v, e, he, h1, h2'⟩
          exact hno ⟨v, e, he, ((key j hj v e he).mpr ⟨h1, h2'⟩)⟩
    · exact inv

theorem round_run_inv (h2 : α) (f src : Nat → α) (ws : List thread_data_t) (dst0 : Nat → α)
    (sched : List Nat) :
    ∀ s : round_state α, round_inv h2 f src ws dst0 s →
      round_inv h2 f src ws dst0 (round_run h2 f src ws sched s) := by
  induction sched with
  | nil => intro s h; exact h
  | cons w rest ih =>
    intro s h
    exact ih _ (round_step_inv h2 f src ws dst0 s h w)

/-- Every interleaving of the workers' stores that lets all workers finish their loop ends
in the destination buffer computed by the lockstep round `workers_half_sweep`. -/
theorem round_interleaving (h2 : α) (f src : Nat → α) (ws : List thread_data_t)
    (dst : Nat → α) (sched : List Nat)
    (hfin : round_finished ws (round_run h2 f src ws sched (round_init ws dst))) :
    (round_run h2 f src ws sched (round_init ws dst)).dst =
      workers_half_sweep h2 f src ws dst := by
  have inv := round_run_inv h2 f src ws dst sched _ (round_init_inv h2 f src ws dst)
  funext j
  by_cases hj : ∃ d ∈ ws, d.start ≤ j ∧ j < d.end_
  · rw [workers_half_sweep_in h2 f src ws dst j hj]
    obtain ⟨d, hd, h1, h2'⟩ := hj
    obtain ⟨w, hw⟩ := List.getElem?_of_mem hd
    have := hfin w d hw
    exact inv.hnew j ⟨w, d, hw, h1, by omega⟩
  · rw [workers_half_sweep_out h2 f src ws dst j (fun d hd hin => hj ⟨d, hd, hin⟩)]
    apply inv.hkeep j
    rintro ⟨w, d, hw, h1, h2'⟩
    have hb := inv.hi w d hw
    exact hj ⟨d, List.getElem?_mem hw, h1, by omega⟩

end RoundLemmas

/-! ### Lemmas on the barrier -/

theorem count_at_le (P : Loc → Bool) (pc : Nat → Loc) : ∀ k, count_at P pc k ≤ k := by
  intro k
  induction k with
  | zero => exact Nat.le_refl 0
  | succ k ih => simp only [count_at]; split <;> omega

theorem count_at_pos (P : Loc → Bool) (pc : Nat → Loc) (q : Nat) (hP : P (pc q) = true) :
    ∀ k, q < k → 1 ≤ count_at P pc k := by
  intro k
  induction k with
  | zero => intro h; omega
  | succ k ih =>
    intro h
    simp only [count_at]
    by_cases hq : q = k
    · subst hq; rw [if_pos hP]; omega
    · have := ih (by omega); omega

theorem count_at_two (P : Loc → Bool) (pc : Nat → Loc) (p q : Nat) (hpq : p ≠ q)
    (hp : P (pc p) = true) (hq : P (pc q) = true) :
    ∀ k, p < k → q < k → 2 ≤ count_at P pc k := by
  intro k
  induction k with
  | zero => intro h; omega
  | succ k ih =>
    intro h1 h2
    simp only [count_at]
    by_cases hpk : p = k
    · subst hpk
      have := count_at_pos P pc q hq p (by omega)
      rw [if_pos hp]; omega
    · by_cases hqk : q = k
      · subst hqk
        have := count_at_pos P pc p hp q (by omega)
        rw [if_pos hq]; omega
      · have := ih (by omega) (by omega)
        omega

theorem count_at_full (P : Loc → Bool) (pc : Nat → Loc) :
    ∀ k, count_at P pc k = k → ∀ q, q < k → P (pc q) = true := by
  intro k
  induction k with
  | zero => intro _ q hq; omega
  | succ k ih =>
    intro h q hq
    simp only [count_at] at h
    have hle := count_at_le P pc k
    by_cases hP : P (pc k) = true
    · rw [if_pos hP] at h
      by_cases hqk : q = k
      · subst hqk; exact hP
      · exact ih (by omega) q (by omega)
    · rw [if_neg hP] at h; omega

theorem count_at_none (P : Loc → Bool) (pc : Nat → Loc) :
    ∀ k, count_at P pc k = 0 → ∀ q, q < k → P (pc q) = false := by
  intro k h q hq
  by_contra hP
  have := count_at_pos P pc q (by simpa using hP) k hq
  omega

theorem count_at_update (P : Loc → Bool) (pc : Nat → Loc) (p : Nat) (l : Loc) :
    ∀ k, count_at P (Function.update pc p l) k + (if p < k ∧ P (pc p) = true then 1 else 0) =
      count_at P pc k + (if p < k ∧ P l = true then 1 else 0) := by
  intro k
  induction k with
  | zero => simp [count_at]
  | succ k ih =>
    simp only [count_at]
    by_cases hpk : p = k
    · subst hpk
      have h1 : ¬ (p < p) := Nat.lt_irrefl p
      simp only [h1, false_and, if_false, Nat.add_zero] at ih
      simp only [Function.update_same, Nat.lt_succ_self, true_and, ih]
      omega
    · have hk : Function.update pc p l k = pc k := Function.update_noteq (Ne.symm hpk) _ _
      rw [hk]
      have e : (p < k + 1) ↔ (p < k) := by
        constructor <;> intro h <;> omega
      simp only [e]
      omega

/-- Counting after participant `p < k` has moved from `pc p` to `l`. -/
theorem count_at_move (P : Loc → Bool) (pc : Nat → Loc) (p k : Nat) (hp : p < k) (l : Loc) :
    count_at P (Function.update pc p l) k + (if P (pc p) = true then 1 else 0) =
      count_at P pc k + (if P l = true then 1 else 0) := by
  have := count_at_update P pc p l k
  simpa [hp] using this

theorem tokens_move (s : system) (p : Nat) (hp : p < s.b.n) (l : Loc) (b : barrier_t)
    (e r : Nat → Nat) (hn : b.n = s.b.n) :
    tokens (system.mk b (Function.update s.pc p l) e r) Phase.fill +
        (if s.pc p = Loc.p2_post2 then 1 else 0) + s.b.turnstile2 =
      tokens s Phase.fill + (if l = Loc.p2_post2 then 1 else 0) + b.turnstile2 ∧
    tokens (system.mk b (Function.update s.pc p l) e r) Phase.open1 +
        (if s.pc p = Loc.p1_open1 then 1 else 0) =
      tokens s Phase.open1 + (if l = Loc.p1_open1 then 1 else 0) ∧
    tokens (system.mk b (Function.update s.pc p l) e r) Phase.drain +
        (if s.pc p = Loc.p1_post1 then 1 else 0) + s.b.turnstile1 =
      tokens s Phase.drain + (if l = Loc.p1_post1 then 1 else 0) + b.turnstile1 ∧
    tokens (system.mk b (Function.update s.pc p l) e r) Phase.open2 +
        (if s.pc p = Loc.p2_open2 then 1 else 0) =
      tokens s Phase.open2 + (if l = Loc.p2_open2 then 1 else 0) := by
  have h1 := count_at_move (fun l => decide (l = Loc.p2_post2)) s.pc p s.b.n hp l
  have h2 := count_at_move (fun l => decide (l = Loc.p1_open1)) s.pc p s.b.n hp l
  have h3 := count_at_move (fun l => decide (l = Loc.p1_post1)) s.pc p s.b.n hp l
  have h4 := count_at_move (fun l => decide (l = Loc.p2_open2)) s.pc p s.b.n hp l
  simp only [decide_eq_true_eq] at h1 h2 h3 h4
  simp only [tokens, hn]
  refine ⟨?_, ?_, ?_, ?_⟩ <;> omega

/-- At most one participant holds the mutex. -/
theorem holder_unique (W : Nat) (s : system) (inv : barrier_inv W s) (p q : Nat)
    (hp : p < W) (hq : q < W) (h1 : holds_mutex (s.pc p) = true)
    (h2 : holds_mutex (s.pc q) = true) : p = q := by
  by_contra hne
  have := count_at_two holds_mutex s.pc p q hne h1 h2 W hp hq
  have := inv.hmutex
  omega

/-- A step that keeps every gate token where it is, or moves it between a turnstile and the
participant passing it, preserves the invariant under the listed local conditions. -/
theorem inv_same_phase (W : Nat) (s : system) (inv : barrier_inv W s) (p : Nat) (hp : p < W)
    (l l' : Loc) (hl : s.pc p = l) (b : barrier_t) (e r : Nat → Nat)
    (hn : b.n = s.b.n)
    (hmut : b.mutex + (if holds_mutex l' = true then 1 else 0) =
      s.b.mutex + (if holds_mutex l = true then 1 else 0))
    (hcnt : b.count + (if counted l = true then 1 else 0) =
      s.b.count + (if counted l' = true then 1 else 0))
    (hcnt2 : b.count = s.b.count ∨ holds_mutex l = true)
    (htokA : b.turnstile2 + (if l' = Loc.p2_post2 then 1 else 0) =
      s.b.turnstile2 + (if l = Loc.p2_post2 then 1 else 0))
    (htokB : l' ≠ Loc.p1_open1 ∧ l ≠ Loc.p1_open1)
    (htokC : b.turnstile1 + (if l' = Loc.p1_post1 then 1 else 0) =
      s.b.turnstile1 + (if l = Loc.p1_post1 then 1 else 0))
    (htokD : l' ≠ Loc.p2_open2 ∧ l ≠ Loc.p2_open2)
    (hallow : ∀ X, tokens s X = 1 → allowed X l = true → allowed X l' = true)
    (hfull : l' = Loc.p1_close2 → b.count = (W : Int))
    (hempty : l' = Loc.p2_close1 → b.count = 0)
    (hret : r p + (if tokens s Phase.fill = 1 ∧ leaving l' = true then 1 else 0) =
      s.returned p + (if tokens s Phase.fill = 1 ∧ leaving l = true then 1 else 0))
    (hret' : ∀ q, q ≠ p → r q = s.returned q)
    (hent : e p = r p + (if l' = Loc.idle then 0 else 1))
    (hent' : ∀ q, q ≠ p → e q = s.entered q) :
    barrier_inv W (system.mk b (Function.update s.pc p l') e r) := by
  have hW := inv.hn
  have htk := tokens_move s p (by omega) l' b e r hn
  rw [hl] at htk
  obtain ⟨tA, tB, tC, tD⟩ := htk
  simp only [htokB.1, htokB.2, htokD.1, htokD.2, if_false, Nat.add_zero] at tB tD
  have tA' : tokens (system.mk b (Function.update s.pc p l') e r)
      Phase.fill = tokens s Phase.fill := by omega
  have tC' : tokens (system.mk b (Function.update s.pc p l') e r)
      Phase.drain = tokens s Phase.drain := by omega
  have tall : ∀ X, tokens (system.mk b (Function.update s.pc p l') e r) X = tokens s X := by
    intro X; cases X
    · exact tA'
    · exact tB
    · exact tC'
    · exact tD
  have hround' : ∀ q, q < W →
      round_of (system.mk b (Function.update s.pc p l') e r) q =
        round_of s q := by
    intro q _
    unfold round_of
    rw [tA']
    by_cases hqp : q = p
    · subst hqp
      simp only [Function.update_same, hl]
      exact hret
    · simp only [Function.update_noteq hqp, hret' q hqp]
  refine ⟨?_, ?_, ?_, ?_, ?_, ?_, ?_, ?_, ?_⟩
  · show b.n = W
    omega
  · have h := count_at_move holds_mutex s.pc p W hp l'
    rw [hl] at h
    have := inv.hmutex
    show b.mutex + count_at holds_mutex (Function.update s.pc p l') W = 1
    omega
  · have h := count_at_move counted s.pc p W hp l'
    rw [hl] at h
    have := inv.hcount
    show b.count = (count_at counted (Function.update s.pc p l') W : Int)
    by_cases h1 : counted l = true <;> by_cases h2 : counted l' = true <;>
      simp [h1, h2] at hcnt h <;> omega
  · rw [tall, tall, tall, tall]
    exact inv.htoken
  · intro X hX q hq
    rw [tall] at hX
    have hold := inv.hphase X hX q hq
    show allowed X (Function.update s.pc p l' q) = true
    by_cases hqp : q = p
    · subst hqp
      rw [Function.update_same]
      rw [hl] at hold
      exact hallow X hX hold
    · rw [Function.update_noteq hqp]; exact hold
  · intro q hq hpc
    show b.count = (W : Int)
    by_cases hqp : q = p
    · subst hqp
      simp only [Function.update_same] at hpc
      exact hfull hpc
    · simp only [Function.update_noteq hqp] at hpc
      have hold := inv.hfull q hq hpc
      rcases hcnt2 with h | h
      · rw [h]; exact hold
      · exact absurd (holder_unique W s inv q p hq hp (by rw [hpc]; rfl) (by rw [hl]; exact h)) hqp
  · intro q hq hpc
    show b.count = 0
    by_cases hqp : q = p
    · subst hqp
      simp only [Function.update_same] at hpc
      exact hempty hpc
    · simp only [Function.update_noteq hqp] at hpc
      have hold := inv.hempty q hq hpc
      rcases hcnt2 with h | h
      · rw [h]; exact hold
      · exact absurd (holder_unique W s inv q p hq hp (by rw [hpc]; rfl) (by rw [hl]; exact h)) hqp
  · intro a c ha hc
    rw [hround' a ha, hround' c hc]
    exact inv.hround a c ha hc
  · intro q hq
    show e q = r q + (if Function.update s.pc p l' q = Loc.idle then 0 else 1)
    by_cases hqp : q = p
    · subst hqp
      rw [Function.update_same]; exact hent
    · rw [Function.update_noteq hqp, hent' q hqp, hret' q hqp]
      exact inv.hentered q hq

/-- A step taken while every other participant waits at `w`, and which moves the gate token
to phase `Y`, preserves the invariant under the listed local conditions. -/
theorem inv_gate (W : Nat) (s : system) (inv : barrier_inv W s) (p : Nat) (hp : p < W)
    (l l' w : Loc) (hl : s.pc p = l) (hothers : ∀ q, q < W → q ≠ p → s.pc q = w)
    (b : barrier_t) (Y : Phase)
    (hn : b.n = s.b.n) (hmut : b.mutex = s.b.mutex) (hcnt : b.count = s.b.count)
    (hh : holds_mutex l = true ∧ holds_mutex l' = true)
    (hc : counted l = counted l')
    (htok : ∀ Z, tokens (system.mk b (Function.update s.pc p l') s.entered s.returned) Z =
      if Z = Y then 1 else 0)
    (hallow : allowed Y l' = true ∧ allowed Y w = true)
    (hclose : l' ≠ Loc.p1_close2 ∧ l' ≠ Loc.p2_close1 ∧ w ≠ Loc.p1_close2 ∧ w ≠ Loc.p2_close1)
    (hold : tokens s Phase.fill = 1 → leaving l = false ∧ leaving w = false)
    (hnew : Y = Phase.fill → leaving l' = true ∧ leaving w = true)
    (hidle : l ≠ Loc.idle ∧ l' ≠ Loc.idle) :
    barrier_inv W (system.mk b (Function.update s.pc p l') s.entered s.returned) := by
  have hW := inv.hn
  have hpc : ∀ q, q < W → q ≠ p → Function.update s.pc p l' q = w := by
    intro q hq hqp
    rw [Function.update_noteq hqp]; exact hothers q hq hqp
  have hround' : ∀ q, q < W →
      round_of (system.mk b (Function.update s.pc p l') s.entered s.returned) q =
        round_of s q + (if Y = Phase.fill then 1 else 0) := by
    intro q hq
    have e1 : round_of s q = s.returned q := by
      unfold round_of
      by_cases hf : tokens s Phase.fill = 1
      · obtain ⟨a1, a2⟩ := hold hf
        by_cases hqp : q = p
        · subst hqp; simp [hl, a1]
        · simp [hothers q hq hqp, a2]
      · simp [hf]
    rw [e1]
    unfold round_of
    rw [htok Phase.fill]
    by_cases hY : Y = Phase.fill
    · obtain ⟨a1, a2⟩ := hnew hY
      subst hY
      by_cases hqp : q = p
      · subst hqp; simp [a1]
      · simp [hpc q hq hqp, a2]
    · have hY' : ¬ Phase.fill = Y := fun h => hY h.symm
      simp [hY, hY']
  refine ⟨?_, ?_, ?_, ?_, ?_, ?_, ?_, ?_, ?_⟩
  · show b.n = W
    omega
  · have h := count_at_move holds_mutex s.pc p W hp l'
    rw [hl] at h
    have := inv.hmutex
    simp only [hh.1, hh.2, if_true] at h
    show b.mutex + count_at holds_mutex (Function.update s.pc p l') W = 1
    omega
  · have h := count_at_move counted s.pc p W hp l'
    rw [hl, hc] at h
    have := inv.hcount
    show b.count = (count_at counted (Function.update s.pc p l') W : Int)
    omega
  · rw [htok, htok, htok, htok]
    cases Y <;> simp
  · intro X hX q hq
    rw [htok] at hX
    have hXY : X = Y := by
      by_contra hne
      rw [if_neg hne] at hX
      omega
    subst hXY
    show allowed X (Function.update s.pc p l' q) = true
    by_cases hqp : q = p
    · subst hqp
      rw [Function.update_same]; exact hallow.1
    · rw [hpc q hq hqp]; exact hallow.2
  · intro q hq hq2
    exfalso
    by_cases hqp : q = p
    · subst hqp
      simp only [Function.update_same] at hq2
      exact hclose.1 hq2
    · have := hpc q hq hqp
      simp only at hq2
      rw [this] at hq2
      exact hclose.2.2.1 hq2
  · intro q hq hq2
    exfalso
    by_cases hqp : q = p
    · subst hqp
      simp only [Function.update_same] at hq2
      exact hclose.2.1 hq2
    · have := hpc q hq hqp
      simp only at hq2
      rw [this] at hq2
      exact hclose.2.2.2 hq2
  · intro a c ha hc'
    rw [hround' a ha, hround' c hc', inv.hround a c ha hc']
  · intro q hq
    show s.entered q = s.returned q + (if Function.update s.pc p l' q = Loc.idle then 0 else 1)
    have := inv.hentered q hq
    by_cases hqp : q = p
    · subst hqp
      rw [Function.update_same, if_neg hidle.2]
      rw [hl, if_neg hidle.1] at this
      exact this
    · rw [Function.update_noteq hqp]; exact this

/-- When the counter equals `W` in the arrival phase, every participant other than the
mutex holder waits at the first turnstile. -/
theorem others_at_wait1 (W : Nat) (s : system) (inv : barrier_inv W s) (p : Nat) (hp : p < W)
    (hl : s.pc p = Loc.p1_close2) (hg : 0 < s.b.turnstile2) :
    ∀ q, q < W → q ≠ p → s.pc q = Loc.p1_wait1 := by
  intro q hq hqp
  have hfull := inv.hfull p hp hl
  have hcnt := inv.hcount
  have hall := count_at_full counted s.pc W (by omega) q hq
  have htok := inv.htoken
  have hfill : tokens s Phase.fill = 1 := by
    simp only [tokens] at htok ⊢
    omega
  have hal := inv.hphase Phase.fill hfill q hq
  have hnh : holds_mutex (s.pc q) ≠ true := by
    intro h
    exact hqp (holder_unique W s inv q p hq hp h (by rw [hl]; rfl))
  cases hq' : s.pc q <;> rw [hq'] at hall hal hnh <;>
    first | rfl | (exfalso; revert hall hal hnh; decide)

/-- When the counter is back to 0 in the departure phase, every participant other than the
mutex holder waits at the second turnstile. -/
theorem others_at_wait2 (W : Nat) (s : system) (inv : barrier_inv W s) (p : Nat) (hp : p < W)
    (hl : s.pc p = Loc.p2_close1) (hg : 0 < s.b.turnstile1) :
    ∀ q, q < W → q ≠ p → s.pc q = Loc.p2_wait2 := by
  intro q hq hqp
  have hempty := inv.hempty p hp hl
  have hcnt := inv.hcount
  have hall := count_at_none counted s.pc W (by omega) q hq
  have htok := inv.htoken
  have hdrain : tokens s Phase.drain = 1 := by
    simp only [tokens] at htok ⊢
    omega
  have hal := inv.hphase Phase.drain hdrain q hq
  have hnh : holds_mutex (s.pc q) ≠ true := by
    intro h
    exact hqp (holder_unique W s inv q p hq hp h (by rw [hl]; rfl))
  cases hq' : s.pc q <;> rw [hq'] at hall hal hnh <;>
    first | rfl | (exfalso; revert hall hal hnh; decide)

/-- While a participant is about to open a turnstile, all the others wait at the other
side of it. -/
theorem others_at_gate (W : Nat) (s : system) (inv : barrier_inv W s) (p : Nat) (hp : p < W)
    (X : Phase) (l w : Loc) (hl : s.pc p = l) (hX : tokens s X = 1)
    (hh : holds_mutex l = true)
    (hw : ∀ x, allowed X x = true → holds_mutex x ≠ true → x = w) :
    ∀ q, q < W → q ≠ p → s.pc q = w := by
  intro q hq hqp
  have hal := inv.hphase X hX q hq
  have hnh : holds_mutex (s.pc q) ≠ true := by
    intro h
    exact hqp (holder_unique W s inv q p hq hp h (by rw [hl]; exact hh))
  exact hw _ hal hnh

/-! ### The barrier invariant is inductive -/

theorem step_idle_p1_lock (W : Nat) (s : system) (inv : barrier_inv W s) (p : Nat) (hp : p < W)
    (heq : s.pc p = Loc.idle) :
    barrier_inv W (system.mk s.b (Function.update s.pc p Loc.p1_lock)
      (Function.update s.entered p (s.entered p + 1)) s.returned) := by
  have htok := inv.htoken
  have hpos : ∀ P : Loc → Bool, P Loc.idle = true → 1 ≤ count_at P s.pc W :=
    fun P hP => count_at_pos P s.pc p (by rw [heq]; exact hP) W hp
  have hnot : ∀ X, tokens s X = 1 → allowed X Loc.idle = true := by
    intro X hX; have := inv.hphase X hX p hp; rwa [heq] at this
  have hWn := inv.hn
  refine inv_same_phase W s inv p hp Loc.idle Loc.p1_lock heq _ _ _
    ?hn ?hmut ?hcnt ?hcnt2 ?htokA ?htokB ?htokC ?htokD ?hallow ?hfull ?hempty ?hret ?hretq
    ?hent ?hentq
  case hn => rfl
  case hmut => simp [holds_mutex]
  case hcnt => simp [counted]
  case hcnt2 => exact (Or.inl rfl)
  case htokA => simp
  case htokB => decide
  case htokC => simp
  case htokD => decide
  case hallow => intro X _; cases X <;> decide
  case hfull => exact (fun h => by cases h)
  case hempty => exact (fun h => by cases h)
  case hret => simp [leaving]
  case hretq => exact (fun _ _ => rfl)
  case hent => exact (by have := inv.hentered p hp; rw [heq] at this; simp at this; simp [this])
  case hentq => exact (fun q hq => Function.update_noteq hq _ _)

theorem step_p1_lock_p1_incr (W : Nat) (s : system) (inv : barrier_inv W s) (p : Nat) (hp : p < W)
    (heq : s.pc p = Loc.p1_lock) (hg : 0 < s.b.mutex) :
    barrier_inv W (system.mk { s.b with mutex := s.b.mutex - 1 } (Function.update s.pc p Loc.p1_incr)
      s.entered s.returned) := by
  have htok := inv.htoken
  have hpos : ∀ P : Loc → Bool, P Loc.p1_lock = true → 1 ≤ count_at P s.pc W :=
    fun P hP => count_at_pos P s.pc p (by rw [heq]; exact hP) W hp
  have hnot : ∀ X, tokens s X = 1 → allowed X Loc.p1_lock = true := by
    intro X hX; have := inv.hphase X hX p hp; rwa [heq] at this
  have hWn := inv.hn
  refine inv_same_phase W s inv p hp Loc.p1_lock Loc.p1_incr heq _ _ _
    ?hn ?hmut ?hcnt ?hcnt2 ?htokA ?htokB ?htokC ?htokD ?hallow ?hfull ?hempty ?hret ?hretq
    ?hent ?hentq
  case hn => rfl
  case hmut => simp [holds_mutex]; omega
  case hcnt => simp [counted]
  case hcnt2 => exact (Or.inl rfl)
  case htokA => simp
  case htokB => decide
  case htokC => simp
  case htokD => decide
  case hallow => intro X _; cases X <;> decide
  case hfull => exact (fun h => by cases h)
  case hempty => exact (fun h => by cases h)
  case hret => simp [leaving]
  case hretq => exact (fun _ _ => rfl)
  case hent => exact (by have := inv.hentered p hp; rw [heq] at this; simpa using this)
  case hentq => exact (fun _ _ => rfl)

theorem step_p1_incr_p1_test (W : Nat) (s : system) (inv : barrier_inv W s) (p : Nat) (hp : p < W)
    (heq : s.pc p = Loc.p1_incr) :
    barrier_inv W (system.mk { s.b with count := s.b.count + 1 } (Function.update s.pc p Loc.p1_test)
      s.entered s.returned) := by
  have htok := inv.htoken
  have hpos : ∀ P : Loc → Bool, P Loc.p1_incr = true → 1 ≤ count_at P s.pc W :=
    fun P hP => count_at_pos P s.pc p (by rw [heq]; exact hP) W hp
  have hnot : ∀ X, tokens s X = 1 → allowed X Loc.p1_incr = true := by
    intro X hX; have := inv.hphase X hX p hp; rwa [heq] at this
  have hWn := inv.hn
  refine inv_same_phase W s inv p hp Loc.p1_incr Loc.p1_test heq _ _ _
    ?hn ?hmut ?hcnt ?hcnt2 ?htokA ?htokB ?htokC ?htokD ?hallow ?hfull ?hempty ?hret ?hretq
    ?hent ?hentq
  case hn => rfl
  case hmut => simp [holds_mutex]
  case hcnt => simp [counted]
  case hcnt2 => exact (Or.inr rfl)
  case htokA => simp
  case htokB => decide
  case htokC => simp
  case htokD => decide
  case hallow => intro X _; cases X <;> decide
  case hfull => exact (fun h => by cases h)
  case hempty => exact (fun h => by cases h)
  case hret => simp [leaving]
  case hretq => exact (fun _ _ => rfl)
  case hent => exact (by have := inv.hentered p hp; rw [heq] at this; simpa using this)
  case hentq => exact (fun _ _ => rfl)

theorem step_p1_test_p1_close2 (W : Nat) (s : system) (inv : barrier_inv W s) (p : Nat) (hp : p < W)
    (heq : s.pc p = Loc.p1_test) (hg : s.b.count = (s.b.n : Int)) :
    barrier_inv W (system.mk s.b (Function.update s.pc p Loc.p1_close2)
      s.entered s.returned) := by
  have htok := inv.htoken
  have hpos : ∀ P : Loc → Bool, P Loc.p1_test = true → 1 ≤ count_at P s.pc W :=
    fun P hP => count_at_pos P s.pc p (by rw [heq]; exact hP) W hp
  have hnot : ∀ X, tokens s X = 1 → allowed X Loc.p1_test = true := by
    intro X hX; have := inv.hphase X hX p hp; rwa [heq] at this
  have hWn := inv.hn
  refine inv_same_phase W s inv p hp Loc.p1_test Loc.p1_close2 heq _ _ _
    ?hn ?hmut ?hcnt ?hcnt2 ?htokA ?htokB ?htokC ?htokD ?hallow ?hfull ?hempty ?hret ?hretq
    ?hent ?hentq
  case hn => rfl
  case hmut => simp [holds_mutex]
  case hcnt => simp [counted]
  case hcnt2 => exact (Or.inl rfl)
  case htokA => simp
  case htokB => decide
  case htokC => simp
  case htokD => decide
  case hallow => intro X _; cases X <;> decide
  case hfull => exact (fun _ => by rw [← inv.hn]; exact hg)
  case hempty => exact (fun h => by cases h)
  case hret => simp [leaving]
  case hretq => exact (fun _ _ => rfl)
  case hent => exact (by have := inv.hentered p hp; rw [heq] at this; simpa using this)
  case hentq => exact (fun _ _ => rfl)

theorem step_p1_test_p1_unlock (W : Nat) (s : system) (inv : barrier_inv W s) (p : Nat) (hp : p < W)
    (heq : s.pc p = Loc.p1_test) :
    barrier_inv W (system.mk s.b (Function.update s.pc p Loc.p1_unlock)
      s.entered s.returned) := by
  have htok := inv.htoken
  have hpos : ∀ P : Loc → Bool, P Loc.p1_test = true → 1 ≤ count_at P s.pc W :=
    fun P hP => count_at_pos P s.pc p (by rw [heq]; exact hP) W hp
  have hnot : ∀ X, tokens s X = 1 → allowed X Loc.p1_test = true := by
    intro X hX; have := inv.hphase X hX p hp; rwa [heq] at this
  have hWn := inv.hn
  refine inv_same_phase W s inv p hp Loc.p1_test Loc.p1_unlock heq _ _ _
    ?hn ?hmut ?hcnt ?hcnt2 ?htokA ?htokB ?htokC ?htokD ?hallow ?hfull ?hempty ?hret ?hretq
    ?hent ?hentq
  case hn => rfl
  case hmut => simp [holds_mutex]
  case hcnt => simp [counted]
  case hcnt2 => exact (Or.inl rfl)
  case htokA => simp
  case htokB => decide
  case htokC => simp
  case htokD => decide
  case hallow => intro X _; cases X <;> decide
  case hfull => exact (fun h => by cases h)
  case hempty => exact (fun h => by cases h)
  case hret => simp [leaving]
  case hretq => exact (fun _ _ => rfl)
  case hent => exact (by have := inv.hentered p hp; rw [heq] at this; simpa using this)
  case hentq => exact (fun _ _ => rfl)

theorem step_p1_close2_p1_open1 (W : Nat) (s : system) (inv : barrier_inv W s) (p : Nat) (hp : p < W)
    (heq : s.pc p = Loc.p1_close2) (hg : 0 < s.b.turnstile2) :
    barrier_inv W (system.mk { s.b with turnstile2 := s.b.turnstile2 - 1 } (Function.update s.pc p Loc.p1_open1)
      s.entered s.returned) := by
  have htok := inv.htoken
  have hWn := inv.hn
  have h1 := count_at_pos (fun l => decide (l = Loc.p1_close2)) s.pc p (by rw [heq]; decide) W hp
  have hoth := others_at_wait1 W s inv p hp heq hg
  have hmv := tokens_move s p (by omega) Loc.p1_open1 ({ s.b with turnstile2 := s.b.turnstile2 - 1 } : barrier_t)
    s.entered s.returned rfl
  rw [heq] at hmv
  simp at hmv
  obtain ⟨mA, mB, mC, mD⟩ := hmv
  refine inv_gate W s inv p hp Loc.p1_close2 Loc.p1_open1 Loc.p1_wait1 heq hoth _ Phase.open1
    rfl rfl rfl (by decide) (by decide) ?htok (by decide) (by decide) ?hold ?hnew (by decide)
  case htok =>
    simp only [tokens, hWn] at htok mA mB mC mD h1
    intro Z; cases Z <;> simp [tokens, hWn] <;> omega
  case hold =>
    intro _; decide
  case hnew =>
    intro h; cases h

theorem step_p1_open1_p1_unlock (W : Nat) (s : system) (inv : barrier_inv W s) (p : Nat) (hp : p < W)
    (heq : s.pc p = Loc.p1_open1) :
    barrier_inv W (system.mk { s.b with turnstile1 := s.b.turnstile1 + 1 } (Function.update s.pc p Loc.p1_unlock)
      s.entered s.returned) := by
  have htok := inv.htoken
  have hWn := inv.hn
  have h1 := count_at_pos (fun l => decide (l = Loc.p1_open1)) s.pc p (by rw [heq]; decide) W hp
  have hph : tokens s Phase.open1 = 1 := by
    simp only [tokens, hWn] at htok ⊢; omega
  have hoth := others_at_gate W s inv p hp Phase.open1 Loc.p1_open1 Loc.p1_wait1 heq hph rfl (by intro x; cases x <;> decide)
  have hmv := tokens_move s p (by omega) Loc.p1_unlock ({ s.b with turnstile1 := s.b.turnstile1 + 1 } : barrier_t)
    s.entered s.returned rfl
  rw [heq] at hmv
  simp at hmv
  obtain ⟨mA, mB, mC, mD⟩ := hmv
  refine inv_gate W s inv p hp Loc.p1_open1 Loc.p1_unlock Loc.p1_wait1 heq hoth _ Phase.drain
    rfl rfl rfl (by decide) (by decide) ?htok (by decide) (by decide) ?hold ?hnew (by decide)
  case htok =>
    simp only [tokens, hWn] at htok mA mB mC mD h1
    intro Z; cases Z <;> simp [tokens, hWn] <;> omega
  case hold =>
    intro hf
    simp only [tokens, hWn] at htok hf h1 hph
    omega
  case hnew =>
    intro h; cases h

theorem step_p1_unlock_p1_wait1 (W : Nat) (s : system) (inv : barrier_inv W s) (p : Nat) (hp : p < W)
    (heq : s.pc p = Loc.p1_unlock) :
    barrier_inv W (system.mk { s.b with mutex := s.b.mutex + 1 } (Function.update s.pc p Loc.p1_wait1)
      s.entered s.returned) := by
  have htok := inv.htoken
  have hpos : ∀ P : Loc → Bool, P Loc.p1_unlock = true → 1 ≤ count_at P s.pc W :=
    fun P hP => count_at_pos P s.pc p (by rw [heq]; exact hP) W hp
  have hnot : ∀ X, tokens s X = 1 → allowed X Loc.p1_unlock = true := by
    intro X hX; have := inv.hphase X hX p hp; rwa [heq] at this
  have hWn := inv.hn
  refine inv_same_phase W s inv p hp Loc.p1_unlock Loc.p1_wait1 heq _ _ _
    ?hn ?hmut ?hcnt ?hcnt2 ?htokA ?htokB ?htokC ?htokD ?hallow ?hfull ?hempty ?hret ?hretq
    ?hent ?hentq
  case hn => rfl
  case hmut => simp [holds_mutex]
  case hcnt => simp [counted]
  case hcnt2 => exact (Or.inl rfl)
  case htokA => simp
  case htokB => decide
  case htokC => simp
  case htokD => decide
  case hallow => intro X _; cases X <;> decide
  case hfull => exact (fun h => by cases h)
  case hempty => exact (fun h => by cases h)
  case hret => simp [leaving]
  case hretq => exact (fun _ _ => rfl)
  case hent => exact (by have := inv.hentered p hp; rw [heq] at this; simpa using this)
  case hentq => exact (fun _ _ => rfl)

theorem step_p1_wait1_p1_post1 (W : Nat) (s : system) (inv : barrier_inv W s) (p : Nat) (hp : p < W)
    (heq : s.pc p = Loc.p1_wait1) (hg : 0 < s.b.turnstile1) :
    barrier_inv W (system.mk { s.b with turnstile1 := s.b.turnstile1 - 1 } (Function.update s.pc p Loc.p1_post1)
      s.entered s.returned) := by
  have htok := inv.htoken
  have hpos : ∀ P : Loc → Bool, P Loc.p1_wait1 = true → 1 ≤ count_at P s.pc W :=
    fun P hP => count_at_pos P s.pc p (by rw [heq]; exact hP) W hp
  have hnot : ∀ X, tokens s X = 1 → allowed X Loc.p1_wait1 = true := by
    intro X hX; have := inv.hphase X hX p hp; rwa [heq] at this
  have hWn := inv.hn
  refine inv_same_phase W s inv p hp Loc.p1_wait1 Loc.p1_post1 heq _ _ _
    ?hn ?hmut ?hcnt ?hcnt2 ?htokA ?htokB ?htokC ?htokD ?hallow ?hfull ?hempty ?hret ?hretq
    ?hent ?hentq
  case hn => rfl
  case hmut => simp [holds_mutex]
  case hcnt => simp [counted]
  case hcnt2 => exact (Or.inl rfl)
  case htokA => simp
  case htokB => decide
  case htokC => simp; omega
  case htokD => decide
  case hallow =>
    intro X hX _
    have hd : tokens s Phase.drain = 1 := by
      simp only [tokens] at htok ⊢; omega
    cases X
    · omega
    · omega
    · rfl
    · omega
  case hfull => exact (fun h => by cases h)
  case hempty => exact (fun h => by cases h)
  case hret => simp [leaving]
  case hretq => exact (fun _ _ => rfl)
  case hent => exact (by have := inv.hentered p hp; rw [heq] at this; simpa using this)
  case hentq => exact (fun _ _ => rfl)

theorem step_p1_post1_p2_lock (W : Nat) (s : system) (inv : barrier_inv W s) (p : Nat) (hp : p < W)
    (heq : s.pc p = Loc.p1_post1) :
    barrier_inv W (system.mk { s.b with turnstile1 := s.b.turnstile1 + 1 } (Function.update s.pc p Loc.p2_lock)
      s.entered s.returned) := by
  have htok := inv.htoken
  have hpos : ∀ P : Loc → Bool, P Loc.p1_post1 = true → 1 ≤ count_at P s.pc W :=
    fun P hP => count_at_pos P s.pc p (by rw [heq]; exact hP) W hp
  have hnot : ∀ X, tokens s X = 1 → allowed X Loc.p1_post1 = true := by
    intro X hX; have := inv.hphase X hX p hp; rwa [heq] at this
  have hWn := inv.hn
  refine inv_same_phase W s inv p hp Loc.p1_post1 Loc.p2_lock heq _ _ _
    ?hn ?hmut ?hcnt ?hcnt2 ?htokA ?htokB ?htokC ?htokD ?hallow ?hfull ?hempty ?hret ?hretq
    ?hent ?hentq
  case hn => rfl
  case hmut => simp [holds_mutex]
  case hcnt => simp [counted]
  case hcnt2 => exact (Or.inl rfl)
  case htokA => simp
  case htokB => decide
  case htokC => simp
  case htokD => decide
  case hallow => intro X _; cases X <;> decide
  case hfull => exact (fun h => by cases h)
  case hempty => exact (fun h => by cases h)
  case hret => simp [leaving]
  case hretq => exact (fun _ _ => rfl)
  case hent => exact (by have := inv.hentered p hp; rw [heq] at this; simpa using this)
  case hentq => exact (fun _ _ => rfl)

theorem step_p2_lock_p2_decr (W : Nat) (s : system) (inv : barrier_inv W s) (p : Nat) (hp : p < W)
    (heq : s.pc p = Loc.p2_lock) (hg : 0 < s.b.mutex) :
    barrier_inv W (system.mk { s.b with mutex := s.b.mutex - 1 } (Function.update s.pc p Loc.p2_decr)
      s.entered s.returned) := by
  have htok := inv.htoken
  have hpos : ∀ P : Loc → Bool, P Loc.p2_lock = true → 1 ≤ count_at P s.pc W :=
    fun P hP => count_at_pos P s.pc p (by rw [heq]; exact hP) W hp
  have hnot : ∀ X, tokens s X = 1 → allowed X Loc.p2_lock = true := by
    intro X hX; have := inv.hphase X hX p hp; rwa [heq] at this
  have hWn := inv.hn
  refine inv_same_phase W s inv p hp Loc.p2_lock Loc.p2_decr heq _ _ _
    ?hn ?hmut ?hcnt ?hcnt2 ?htokA ?htokB ?htokC ?htokD ?hallow ?hfull ?hempty ?hret ?hretq
    ?hent ?hentq
  case hn => rfl
  case hmut => simp [holds_mutex]; omega
  case hcnt => simp [counted]
  case hcnt2 => exact (Or.inl rfl)
  case htokA => simp
  case htokB => decide
  case htokC => simp
  case htokD => decide
  case hallow => intro X _; cases X <;> decide
  case hfull => exact (fun h => by cases h)
  case hempty => exact (fun h => by cases h)
  case hret => simp [leaving]
  case hretq => exact (fun _ _ => rfl)
  case hent => exact (by have := inv.hentered p hp; rw [heq] at this; simpa using this)
  case hentq => exact (fun _ _ => rfl)

theorem step_p2_decr_p2_test (W : Nat) (s : system) (inv : barrier_inv W s) (p : Nat) (hp : p < W)
    (heq : s.pc p = Loc.p2_decr) :
    barrier_inv W (system.mk { s.b with count := s.b.count - 1 } (Function.update s.pc p Loc.p2_test)
      s.entered s.returned) := by
  have htok := inv.htoken
  have hpos : ∀ P : Loc → Bool, P Loc.p2_decr = true → 1 ≤ count_at P s.pc W :=
    fun P hP => count_at_pos P s.pc p (by rw [heq]; exact hP) W hp
  have hnot : ∀ X, tokens s X = 1 → allowed X Loc.p2_decr = true := by
    intro X hX; have := inv.hphase X hX p hp; rwa [heq] at this
  have hWn := inv.hn
  refine inv_same_phase W s inv p hp Loc.p2_decr Loc.p2_test heq _ _ _
    ?hn ?hmut ?hcnt ?hcnt2 ?htokA ?htokB ?htokC ?htokD ?hallow ?hfull ?hempty ?hret ?hretq
    ?hent ?hentq
  case hn => rfl
  case hmut => simp [holds_mutex]
  case hcnt => simp [counted]
  case hcnt2 => exact (Or.inr rfl)
  case htokA => simp
  case htokB => decide
  case htokC => simp
  case htokD => decide
  case hallow => intro X _; cases X <;> decide
  case hfull => exact (fun h => by cases h)
  case hempty => exact (fun h => by cases h)
  case hret => simp [leaving]
  case hretq => exact (fun _ _ => rfl)
  case hent => exact (by have := inv.hentered p hp; rw [heq] at this; simpa using this)
  case hentq => exact (fun _ _ => rfl)

theorem step_p2_test_p2_close1 (W : Nat) (s : system) (inv : barrier_inv W s) (p : Nat) (hp : p < W)
    (heq : s.pc p = Loc.p2_test) (hg : s.b.count = 0) :
    barrier_inv W (system.mk s.b (Function.update s.pc p Loc.p2_close1)
      s.entered s.returned) := by
  have htok := inv.htoken
  have hpos : ∀ P : Loc → Bool, P Loc.p2_test = true → 1 ≤ count_at P s.pc W :=
    fun P hP => count_at_pos P s.pc p (by rw [heq]; exact hP) W hp
  have hnot : ∀ X, tokens s X = 1 → allowed X Loc.p2_test = true := by
    intro X hX; have := inv.hphase X hX p hp; rwa [heq] at this
  have hWn := inv.hn
  refine inv_same_phase W s inv p hp Loc.p2_test Loc.p2_close1 heq _ _ _
    ?hn ?hmut ?hcnt ?hcnt2 ?htokA ?htokB ?htokC ?htokD ?hallow ?hfull ?hempty ?hret ?hretq
    ?hent ?hentq
  case hn => rfl
  case hmut => simp [holds_mutex]
  case hcnt => simp [counted]
  case hcnt2 => exact (Or.inl rfl)
  case htokA => simp
  case htokB => decide
  case htokC => simp
  case htokD => decide
  case hallow => intro X _; cases X <;> decide
  case hfull => exact (fun h => by cases h)
  case hempty => exact (fun _ => hg)
  case hret => simp [leaving]
  case hretq => exact (fun _ _ => rfl)
  case hent => exact (by have := inv.hentered p hp; rw [heq] at this; simpa using this)
  case hentq => exact (fun _ _ => rfl)

theorem step_p2_test_p2_unlock (W : Nat) (s : system) (inv : barrier_inv W s) (p : Nat) (hp : p < W)
    (heq : s.pc p = Loc.p2_test) :
    barrier_inv W (system.mk s.b (Function.update s.pc p Loc.p2_unlock)
      s.entered s.returned) := by
  have htok := inv.htoken
  have hpos : ∀ P : Loc → Bool, P Loc.p2_test = true → 1 ≤ count_at P s.pc W :=
    fun P hP => count_at_pos P s.pc p (by rw [heq]; exact hP) W hp
  have hnot : ∀ X, tokens s X = 1 → allowed X Loc.p2_test = true := by
    intro X hX; have := inv.hphase X hX p hp; rwa [heq] at this
  have hWn := inv.hn
  refine inv_same_phase W s inv p hp Loc.p2_test Loc.p2_unlock heq _ _ _
    ?hn ?hmut ?hcnt ?hcnt2 ?htokA ?htokB ?htokC ?htokD ?hallow ?hfull ?hempty ?hret ?hretq
    ?hent ?hentq
  case hn => rfl
  case hmut => simp [holds_mutex]
  case hcnt => simp [counted]
  case hcnt2 => exact (Or.inl rfl)
  case htokA => simp
  case htokB => decide
  case htokC => simp
  case htokD => decide
  case hallow => intro X _; cases X <;> decide
  case hfull => exact (fun h => by cases h)
  case hempty => exact (fun h => by cases h)
  case hret =>
    have hf : tokens s Phase.fill ≠ 1 := fun h => by have := hnot _ h; revert this; decide
    simp [leaving, hf]
  case hretq => exact (fun _ _ => rfl)
  case hent => exact (by have := inv.hentered p hp; rw [heq] at this; simpa using this)
  case hentq => exact (fun _ _ => rfl)

theorem step_p2_close1_p2_open2 (W : Nat) (s : system) (inv : barrier_inv W s) (p : Nat) (hp : p < W)
    (heq : s.pc p = Loc.p2_close1) (hg : 0 < s.b.turnstile1) :
    barrier_inv W (system.mk { s.b with turnstile1 := s.b.turnstile1 - 1 } (Function.update s.pc p Loc.p2_open2)
      s.entered s.returned) := by
  have htok := inv.htoken
  have hWn := inv.hn
  have h1 := count_at_pos (fun l => decide (l = Loc.p2_close1)) s.pc p (by rw [heq]; decide) W hp
  have hoth := others_at_wait2 W s inv p hp heq hg
  have hmv := tokens_move s p (by omega) Loc.p2_open2 ({ s.b with turnstile1 := s.b.turnstile1 - 1 } : barrier_t)
    s.entered s.returned rfl
  rw [heq] at hmv
  simp at hmv
  obtain ⟨mA, mB, mC, mD⟩ := hmv
  refine inv_gate W s inv p hp Loc.p2_close1 Loc.p2_open2 Loc.p2_wait2 heq hoth _ Phase.open2
    rfl rfl rfl (by decide) (by decide) ?htok (by decide) (by decide) ?hold ?hnew (by decide)
  case htok =>
    simp only [tokens, hWn] at htok mA mB mC mD h1
    intro Z; cases Z <;> simp [tokens, hWn] <;> omega
  case hold =>
    intro hf
    simp only [tokens, hWn] at htok hf h1
    omega
  case hnew =>
    intro h; cases h

theorem step_p2_open2_p2_unlock (W : Nat) (s : system) (inv : barrier_inv W s) (p : Nat) (hp : p < W)
    (heq : s.pc p = Loc.p2_open2) :
    barrier_inv W (system.mk { s.b with turnstile2 := s.b.turnstile2 + 1 } (Function.update s.pc p Loc.p2_unlock)
      s.entered s.returned) := by
  have htok := inv.htoken
  have hWn := inv.hn
  have h1 := count_at_pos (fun l => decide (l = Loc.p2_open2)) s.pc p (by rw [heq]; decide) W hp
  have hph : tokens s Phase.open2 = 1 := by
    simp only [tokens, hWn] at htok ⊢; omega
  have hoth := others_at_gate W s inv p hp Phase.open2 Loc.p2_open2 Loc.p2_wait2 heq hph rfl (by intro x; cases x <;> decide)
  have hmv := tokens_move s p (by omega) Loc.p2_unlock ({ s.b with turnstile2 := s.b.turnstile2 + 1 } : barrier_t)
    s.entered s.returned rfl
  rw [heq] at hmv
  simp at hmv
  obtain ⟨mA, mB, mC, mD⟩ := hmv
  refine inv_gate W s inv p hp Loc.p2_open2 Loc.p2_unlock Loc.p2_wait2 heq hoth _ Phase.fill
    rfl rfl rfl (by decide) (by decide) ?htok (by decide) (by decide) ?hold ?hnew (by decide)
  case htok =>
    simp only [tokens, hWn] at htok mA mB mC mD h1
    intro Z; cases Z <;> simp [tokens, hWn] <;> omega
  case hold =>
    intro hf
    simp only [tokens, hWn] at htok hf h1 hph
    omega
  case hnew =>
    intro _; decide

theorem step_p2_unlock_p2_wait2 (W : Nat) (s : system) (inv : barrier_inv W s) (p : Nat) (hp : p < W)
    (heq : s.pc p = Loc.p2_unlock) :
    barrier_inv W (system.mk { s.b with mutex := s.b.mutex + 1 } (Function.update s.pc p Loc.p2_wait2)
      s.entered s.returned) := by
  have htok := inv.htoken
  have hpos : ∀ P : Loc → Bool, P Loc.p2_unlock = true → 1 ≤ count_at P s.pc W :=
    fun P hP => count_at_pos P s.pc p (by rw [heq]; exact hP) W hp
  have hnot : ∀ X, tokens s X = 1 → allowed X Loc.p2_unlock = true := by
    intro X hX; have := inv.hphase X hX p hp; rwa [heq] at this
  have hWn := inv.hn
  refine inv_same_phase W s inv p hp Loc.p2_unlock Loc.p2_wait2 heq _ _ _
    ?hn ?hmut ?hcnt ?hcnt2 ?htokA ?htokB ?htokC ?htokD ?hallow ?hfull ?hempty ?hret ?hretq
    ?hent ?hentq
  case hn => rfl
  case hmut => simp [holds_mutex]
  case hcnt => simp [counted]
  case hcnt2 => exact (Or.inl rfl)
  case htokA => simp
  case htokB => decide
  case htokC => simp
  case htokD => decide
  case hallow => intro X _; cases X <;> decide
  case hfull => exact (fun h => by cases h)
  case hempty => exact (fun h => by cases h)
  case hret => simp [leaving]
  case hretq => exact (fun _ _ => rfl)
  case hent => exact (by have := inv.hentered p hp; rw [heq] at this; simpa using this)
  case hentq => exact (fun _ _ => rfl)

theorem step_p2_wait2_p2_post2 (W : Nat) (s : system) (inv : barrier_inv W s) (p : Nat) (hp : p < W)
    (heq : s.pc p = Loc.p2_wait2) (hg : 0 < s.b.turnstile2) :
    barrier_inv W (system.mk { s.b with turnstile2 := s.b.turnstile2 - 1 } (Function.update s.pc p Loc.p2_post2)
      s.entered s.returned) := by
  have htok := inv.htoken
  have hpos : ∀ P : Loc → Bool, P Loc.p2_wait2 = true → 1 ≤ count_at P s.pc W :=
    fun P hP => count_at_pos P s.pc p (by rw [heq]; exact hP) W hp
  have hnot : ∀ X, tokens s X = 1 → allowed X Loc.p2_wait2 = true := by
    intro X hX; have := inv.hphase X hX p hp; rwa [heq] at this
  have hWn := inv.hn
  refine inv_same_phase W s inv p hp Loc.p2_wait2 Loc.p2_post2 heq _ _ _
    ?hn ?hmut ?hcnt ?hcnt2 ?htokA ?htokB ?htokC ?htokD ?hallow ?hfull ?hempty ?hret ?hretq
    ?hent ?hentq
  case hn => rfl
  case hmut => simp [holds_mutex]
  case hcnt => simp [counted]
  case hcnt2 => exact (Or.inl rfl)
  case htokA => simp; omega
  case htokB => decide
  case htokC => simp
  case htokD => decide
  case hallow =>
    intro X hX _
    have hd : tokens s Phase.fill = 1 := by
      simp only [tokens] at htok ⊢; omega
    cases X
    · rfl
    · omega
    · omega
    · omega
  case hfull => exact (fun h => by cases h)
  case hempty => exact (fun h => by cases h)
  case hret => simp [leaving]
  case hretq => exact (fun _ _ => rfl)
  case hent => exact (by have := inv.hentered p hp; rw [heq] at this; simpa using this)
  case hentq => exact (fun _ _ => rfl)

theorem step_p2_post2_idle (W : Nat) (s : system) (inv : barrier_inv W s) (p : Nat) (hp : p < W)
    (heq : s.pc p = Loc.p2_post2) :
    barrier_inv W (system.mk { s.b with turnstile2 := s.b.turnstile2 + 1 } (Function.update s.pc p Loc.idle)
      s.entered (Function.update s.returned p (s.returned p + 1))) := by
  have htok := inv.htoken
  have hpos : ∀ P : Loc → Bool, P Loc.p2_post2 = true → 1 ≤ count_at P s.pc W :=
    fun P hP => count_at_pos P s.pc p (by rw [heq]; exact hP) W hp
  have hnot : ∀ X, tokens s X = 1 → allowed X Loc.p2_post2 = true := by
    intro X hX; have := inv.hphase X hX p hp; rwa [heq] at this
  have hWn := inv.hn
  refine inv_same_phase W s inv p hp Loc.p2_post2 Loc.idle heq _ _ _
    ?hn ?hmut ?hcnt ?hcnt2 ?htokA ?htokB ?htokC ?htokD ?hallow ?hfull ?hempty ?hret ?hretq
    ?hent ?hentq
  case hn => rfl
  case hmut => simp [holds_mutex]
  case hcnt => simp [counted]
  case hcnt2 => exact (Or.inl rfl)
  case htokA => simp
  case htokB => decide
  case htokC => simp
  case htokD => decide
  case hallow => intro X _; cases X <;> decide
  case hfull => exact (fun h => by cases h)
  case hempty => exact (fun h => by cases h)
  case hret =>
    have h1 := hpos (fun l => decide (l = Loc.p2_post2)) (by decide)
    have hf : tokens s Phase.fill = 1 := by
      simp only [tokens, hWn] at htok ⊢; omega
    simp [leaving, hf]
  case hretq => exact (fun q hq => Function.update_noteq hq _ _)
  case hent => exact (by have := inv.hentered p hp; rw [heq] at this; simp at this; simp [this])
  case hentq => exact (fun _ _ => rfl)

/-- Every step of every participant preserves the invariant. -/
theorem barrier_step_inv (W : Nat) (s : system) (inv : barrier_inv W s) (p : Nat) :
    barrier_inv W (barrier_step s p) := by
  unfold barrier_step
  have hWn := inv.hn
  split
  · rename_i hpn
    have hp : p < W := by omega
    split
    · rename_i heq
      exact step_idle_p1_lock W s inv p hp heq
    · rename_i heq
      split
      · rename_i hg
        exact step_p1_lock_p1_incr W s inv p hp heq hg
      · exact inv
    · rename_i heq
      exact step_p1_incr_p1_test W s inv p hp heq
    · rename_i heq
      split
      · rename_i hg
        exact step_p1_test_p1_close2 W s inv p hp heq hg
      · exact step_p1_test_p1_unlock W s inv p hp heq
    · rename_i heq
      split
      · rename_i hg
        exact step_p1_close2_p1_open1 W s inv p hp heq hg
      · exact inv
    · rename_i heq
      exact step_p1_open1_p1_unlock W s inv p hp heq
    · rename_i heq
      exact step_p1_unlock_p1_wait1 W s inv p hp heq
    · rename_i heq
      split
      · rename_i hg
        exact step_p1_wait1_p1_post1 W s inv p hp heq hg
      · exact inv
    · rename_i heq
      exact step_p1_post1_p2_lock W s inv p hp heq
    · rename_i heq
      split
      · rename_i hg
        exact step_p2_lock_p2_decr W s inv p hp heq hg
      · exact inv
    · rename_i heq
      exact step_p2_decr_p2_test W s inv p hp heq
    · rename_i heq
      split
      · rename_i hg
        exact step_p2_test_p2_close1 W s inv p hp heq hg
      · exact step_p2_test_p2_unlock W s inv p hp heq
    · rename_i heq
      split
      · rename_i hg
        exact step_p2_close1_p2_open2 W s inv p hp heq hg
      · exact inv
    · rename_i heq
      exact step_p2_open2_p2_unlock W s inv p hp heq
    · rename_i heq
      exact step_p2_unlock_p2_wait2 W s inv p hp heq
    · rename_i heq
      split
      · rename_i hg
        exact step_p2_wait2_p2_post2 W s inv p hp heq hg
      · exact inv
    · rename_i heq
      exact step_p2_post2_idle W s inv p hp heq
  · exact inv

/-! ### Reachable states of the barrier -/

theorem count_at_zero_of_none (P : Loc → Bool) (pc : Nat → Loc) :
    ∀ k, (∀ q, q < k → P (pc q) = false) → count_at P pc k = 0 := by
  intro k
  induction k with
  | zero => intro _; rfl
  | succ k ih =>
    intro h
    simp only [count_at]
    rw [ih (fun q hq => h q (by omega)), h k (by omega)]
    rfl

theorem system_init_inv (W : Nat) : barrier_inv W (system_init W) := by
  have hc : ∀ P : Loc → Bool, P Loc.idle = false →
      count_at P (system_init W).pc W = 0 :=
    fun P hP => count_at_zero_of_none P _ W (fun _ _ => hP)
  have t1 : tokens (system_init W) Phase.fill = 1 := by
    show 1 + count_at _ (system_init W).pc W = 1
    rw [hc _ (by decide)]
  have t2 : tokens (system_init W) Phase.open1 = 0 := hc _ (by decide)
  have t3 : tokens (system_init W) Phase.drain = 0 := by
    show 0 + count_at _ (system_init W).pc W = 0
    rw [hc _ (by decide)]
  have t4 : tokens (system_init W) Phase.open2 = 0 := hc _ (by decide)
  refine ⟨rfl, ?_, ?_, ?_, ?_, ?_, ?_, ?_, ?_⟩
  · show 1 + count_at holds_mutex (system_init W).pc W = 1
    rw [hc _ (by decide)]
  · show (0 : Int) = (count_at counted (system_init W).pc W : Int)
    rw [hc _ (by decide)]
    rfl
  · rw [t1, t2, t3, t4]
  · intro X hX q _
    cases X
    · rfl
    · rw [t2] at hX; cases hX
    · rw [t3] at hX; cases hX
    · rw [t4] at hX; cases hX
  · intro q _ h; cases h
  · intro q _ h; cases h
  · intro p q _ _; rfl
  · intro q _; rfl

theorem barrier_run_inv (W : Nat) (sched : List Nat) :
    ∀ s, barrier_inv W s → barrier_inv W (barrier_run s sched) := by
  induction sched with
  | nil => intro s h; exact h
  | cons p rest ih =>
    intro s h
    exact ih _ (barrier_step_inv W s h p)

/-- Every state reachable from `barrier_init(b, W)` satisfies the invariant. -/
theorem reachable_inv (W : Nat) (sched : List Nat) :
    barrier_inv W (barrier_run (system_init W) sched) :=
  barrier_run_inv W sched _ (system_init_inv W)

theorem round_of_bounds (s : system) (q : Nat) :
    s.returned q ≤ round_of s q ∧
    round_of s q ≤ s.returned q + (if s.pc q = Loc.idle then 0 else 1) := by
  unfold round_of
  by_cases h : tokens s Phase.fill = 1 ∧ leaving (s.pc q) = true
  · rw [if_pos h]
    have : s.pc q ≠ Loc.idle := by
      intro hc; rw [hc] at h; exact absurd h.2 (by decide)
    rw [if_neg this]
    omega
  · rw [if_neg h]
    omega

/-! ## Claims on the partitioner -/

/-- C1. For every grid size `M ≥ 2` and worker count `1 ≤ W ≤ M-1`, the ranges computed by
the partitioning loop of `jacobi_parallel` and by the one of threads4 `main` (worker 0
first) are `W` ranges with `start_0 = 1`, `start_{i+1} = end_i` for `i < W-1` and
`end_{W-1} = M`; every index of `[1, M)` lies in exactly one range, two ranges sharing an
index are the same worker's range, and the loops of a worker store only at indices of its
own range: no two workers write the same index in a round. -/
theorem C1_partition_exact_cover (α : Type) [Add α] [Mul α] [Div α] [NatCast α]
    (M W : Nat) (hM : 2 ≤ M) (hW1 : 1 ≤ W) (hW2 : W ≤ M - 1)
    (ws : List thread_data_t)
    (hws : ws = parallel_thread_data M W ∨ ws = main_thread_data M W) :
    ws.length = W ∧
    (∃ w : thread_data_t, ws[0]? = some w ∧ w.start = 1) ∧
    (∀ i, i + 1 < W → ∃ a c : thread_data_t, ws[i]? = some a ∧ ws[i + 1]? = some c ∧ c.start = a.end_) ∧
    (∃ w : thread_data_t, ws[W - 1]? = some w ∧ w.end_ = M) ∧
    (∀ j, 1 ≤ j → j < M → ∃! i : Nat, ∃ w : thread_data_t, ws[i]? = some w ∧ w.start ≤ j ∧ j < w.end_) ∧
    (∀ (i k : Nat) (a c : thread_data_t) (j : Nat), ws[i]? = some a → ws[k]? = some c →
      a.start ≤ j → j < a.end_ → c.start ≤ j → j < c.end_ → i = k) ∧
    (∀ (w : thread_data_t), w ∈ ws → ∀ (h2 : α) (f src dst : Nat → α) (j : Nat),
      ¬ (w.start ≤ j ∧ j < w.end_) →
        half_sweep h2 f src w.end_ w.start dst j = dst j ∧
        copy_back src w.end_ w.start dst j = dst j) := by
  have hmin : min W (M - 1) = W := Nat.min_eq_left hW2
  have hws2 : ws = closed_ranges ((M - 1) / W) ((M - 1) % W) W := by
    rcases hws with h | h
    · rw [h, parallel_thread_data_eq M W hM hW1, hmin]
    · rw [h, main_thread_data_eq]
  subst hws2
  obtain ⟨h1, h2, h3, h4, h5, h6⟩ :=
    closed_ranges_partition _ _ W M hW1 (pstart_last M W (by omega) hW1)
  refine ⟨h1, h2, h3, h4, h5, h6, ?_⟩
  intro w _ h2 f src dst j hj
  refine ⟨half_sweep_out h2 f src _ _ dst j hj, ?_⟩
  rw [copy_back_apply src _ _ _ dst j rfl, if_neg hj]

/-- Witness of C1 at `M = 10`, `W = 3` on the ranges of `jacobi_parallel`. -/
theorem C1_partition_exact_cover_witness :
    (parallel_thread_data 10 3).length = 3 ∧
    (∃ w : thread_data_t, (parallel_thread_data 10 3)[0]? = some w ∧ w.start = 1) ∧
    (∀ i, i + 1 < 3 → ∃ a c : thread_data_t, (parallel_thread_data 10 3)[i]? = some a ∧
      (parallel_thread_data 10 3)[i + 1]? = some c ∧ c.start = a.end_) ∧
    (∃ w : thread_data_t, (parallel_thread_data 10 3)[3 - 1]? = some w ∧ w.end_ = 10) ∧
    (∀ j, 1 ≤ j → j < 10 →
      ∃! i : Nat, ∃ w : thread_data_t, (parallel_thread_data 10 3)[i]? = some w ∧ w.start ≤ j ∧ j < w.end_) ∧
    (∀ (i k : Nat) (a c : thread_data_t) (j : Nat), (parallel_thread_data 10 3)[i]? = some a →
      (parallel_thread_data 10 3)[k]? = some c →
      a.start ≤ j → j < a.end_ → c.start ≤ j → j < c.end_ → i = k) ∧
    (∀ (w : thread_data_t), w ∈ parallel_thread_data 10 3 →
      ∀ (h2 : ℚ) (f src dst : Nat → ℚ) (j : Nat), ¬ (w.start ≤ j ∧ j < w.end_) →
        half_sweep h2 f src w.end_ w.start dst j = dst j ∧
        copy_back src w.end_ w.start dst j = dst j) :=
  C1_partition_exact_cover ℚ 10 3 (by decide) (by decide) (by decide) _ (Or.inl rfl)

/-- C3. For `M ≥ 2`, `1 ≤ W ≤ M-1`, `base = (M-1) / W`, `remainder = (M-1) % W`: in the
`W` ranges of `jacobi_parallel` and of the process/threads4 `main`, worker `i` owns
exactly `base + 1` indices when `i < remainder` and exactly `base` otherwise; the sizes of
two ranges differ by at most 1 and every range is non-empty. -/
theorem C3_partition_sizes (M W : Nat) (hM : 2 ≤ M) (hW1 : 1 ≤ W) (hW2 : W ≤ M - 1)
    (ws : List thread_data_t)
    (hws : ws = parallel_thread_data M W ∨ ws = main_thread_data M W) :
    ws.length = W ∧
    (∀ (i : Nat) (w : thread_data_t), ws[i]? = some w → w.start ≤ w.end_ ∧
      w.end_ - w.start = if i < (M - 1) % W then (M - 1) / W + 1 else (M - 1) / W) ∧
    (∀ (i k : Nat) (a c : thread_data_t), ws[i]? = some a → ws[k]? = some c →
      a.end_ - a.start ≤ c.end_ - c.start + 1) ∧
    (∀ (i : Nat) (w : thread_data_t), ws[i]? = some w → w.start < w.end_) := by
  have hmin : min W (M - 1) = W := Nat.min_eq_left hW2
  have hws2 : ws = closed_ranges ((M - 1) / W) ((M - 1) % W) W := by
    rcases hws with h | h
    · rw [h, parallel_thread_data_eq M W hM hW1, hmin]
    · rw [h, main_thread_data_eq]
  have hbase : 1 ≤ (M - 1) / W := (Nat.one_le_div_iff (by omega)).mpr hW2
  have key : ∀ (i : Nat) (w : thread_data_t), ws[i]? = some w → w.start ≤ w.end_ ∧
      w.end_ - w.start = if i < (M - 1) % W then (M - 1) / W + 1 else (M - 1) / W := by
    intro i w hw
    subst hws2
    obtain ⟨_, rfl⟩ := closed_ranges_get_some _ _ W i w hw
    show pstart _ _ i ≤ pstart _ _ (i + 1) ∧ pstart _ _ (i + 1) - pstart _ _ i = _
    rw [pstart_succ]
    split <;> omega
  refine ⟨by rw [hws2]; exact closed_ranges_length _ _ W, key, ?_, ?_⟩
  · intro i k a c ha hc
    have h1 := (key i a ha).2
    have h2 := (key k c hc).2
    rw [h1, h2]
    split <;> split <;> omega
  · intro i w hw
    have h1 := key i w hw
    have h2 : 1 ≤ w.end_ - w.start := by
      rw [h1.2]; split <;> omega
    omega

/-- Witness of C3 at `M = 10`, `W = 4` on the ranges of the process variant. -/
theorem C3_partition_sizes_witness :
    (main_thread_data 10 4).length = 4 ∧
    (∀ (i : Nat) (w : thread_data_t), (main_thread_data 10 4)[i]? = some w → w.start ≤ w.end_ ∧
      w.end_ - w.start = if i < (10 - 1) % 4 then (10 - 1) / 4 + 1 else (10 - 1) / 4) ∧
    (∀ (i k : Nat) (a c : thread_data_t), (main_thread_data 10 4)[i]? = some a → (main_thread_data 10 4)[k]? = some c →
      a.end_ - a.start ≤ c.end_ - c.start + 1) ∧
    (∀ (i : Nat) (w : thread_data_t), (main_thread_data 10 4)[i]? = some w → w.start < w.end_) :=
  C3_partition_sizes 10 4 (by decide) (by decide) (by decide) _ (Or.inr rfl)

/-- C7. For every `M ≥ 2` and requested worker count `W ≥ 1`, `jacobi_parallel` uses exactly
`min W (M-1)` workers: the barrier is initialised for `min W (M-1)` participants and that
many ranges are computed; a request above `M-1` becomes `M-1`, a request of at most `M-1`
is used unchanged. -/
theorem C7_parallel_clamp (M W : Nat) (hM : 2 ≤ M) (hW : 1 ≤ W) :
    (jacobi_parallel_setup M W).barrier_count = min W (M - 1) ∧
    (jacobi_parallel_setup M W).thread_data.length = min W (M - 1) ∧
    (M - 1 < W → clamp_threads M W = M - 1) ∧
    (W ≤ M - 1 → clamp_threads M W = W) := by
  refine ⟨?_, ?_, ?_, ?_⟩
  · show clamp_threads M W = _
    exact clamp_threads_eq_min M W
  · have := parallel_thread_data_eq M W hM hW
    unfold parallel_thread_data at this
    rw [this, closed_ranges_length]
  · intro h; rw [clamp_threads_eq_min]; omega
  · intro h; rw [clamp_threads_eq_min]; omega

/-- Witness of C7 at `M = 5`, `W = 9` (clamped to 4). -/
theorem C7_parallel_clamp_witness :
    (jacobi_parallel_setup 5 9).barrier_count = min 9 (5 - 1) ∧
    (jacobi_parallel_setup 5 9).thread_data.length = min 9 (5 - 1) ∧
    (5 - 1 < 9 → clamp_threads 5 9 = 5 - 1) ∧
    (9 ≤ 5 - 1 → clamp_threads 5 9 = 9) :=
  C7_parallel_clamp 5 9 (by decide) (by decide)

/-! ## Claims on the sweep engine -/

section SweepClaims

variable {α : Type} [Add α] [Mul α] [Div α] [NatCast α]

/-- C2. For every `M ≥ 2`, iteration count, source term `f`, initial grid `u` and worker
count `W ≥ 1` (in particular `1 ≤ W ≤ M-1`), the final grid produced by the partitioned
workers of `jacobi_parallel` equals the final grid produced by `jacobi_sequential` on the
same inputs, whatever the initial contents of the two scratch allocations; hence the final
grid is the same for any two worker counts. Moreover each barrier-delimited half-sweep of
the workers, executed store by store under any interleaving that lets every worker finish
its loop, leaves in the destination buffer exactly what the single loop over `1 ≤ i < M`
stores, so the lockstep rounds describe every execution. -/
theorem C2_parallel_equals_sequential (M : Nat) (hM : 2 ≤ M) (nsweeps : Int)
    (f u : Nat → α) (W : Nat) (hW1 : 1 ≤ W) (utmp0 utmp1 : Nat → α) :
    (jacobi_parallel nsweeps M u f W utmp0).1 = (jacobi_sequential nsweeps M u f utmp1).1 ∧
    (∀ W2 : Nat, 1 ≤ W2 → ∀ utmp2 : Nat → α,
      (jacobi_parallel nsweeps M u f W2 utmp2).1 =
        (jacobi_parallel nsweeps M u f W utmp0).1) ∧
    (∀ (src dst : Nat → α) (sched : List Nat),
      round_finished (jacobi_parallel_setup M W).thread_data
        (round_run (grid_h2 M) f src (jacobi_parallel_setup M W).thread_data sched
          (round_init (jacobi_parallel_setup M W).thread_data dst)) →
      (round_run (grid_h2 M) f src (jacobi_parallel_setup M W).thread_data sched
          (round_init (jacobi_parallel_setup M W).thread_data dst)).dst =
        half_sweep (grid_h2 M) f src M 1 dst) := by
  have key : ∀ (V : Nat) (t0 t1 : Nat → α), 1 ≤ V →
      (jacobi_parallel nsweeps M u f V t0).1 = (jacobi_sequential nsweeps M u f t1).1 := by
    intro V t0 t1 hV
    exact parallel_final_grid_eq M hM nsweeps f u V hV t0 t1
  refine ⟨key W utmp0 utmp1 hW1, ?_, ?_⟩
  · intro W2 h1 utmp2
    rw [key W2 utmp2 utmp0 h1, key W utmp0 utmp0 hW1]
  · intro src dst sched hfin
    rw [round_interleaving (grid_h2 M) f src _ dst sched hfin]
    exact workers_half_sweep_eq _ f src _ M (parallel_thread_data_covers M W hM hW1) dst

/-- C4. For every `M ≥ 2`, every iteration count and every worker count `W ≥ 1`, in both
the threaded run `jacobi_parallel` and the threads4 run (`jacobi_thread` under `main`), the
workers store only at indices of `[1, M)`: outside of it the grid keeps its initial values
and the scratch buffer its seeded contents; in particular `grid[0]`, `grid[M]` are the
initial ones and `scratch[0]`, `scratch[M]` are the grid boundary values seeded into it. -/
theorem C4_boundary_frame (M : Nat) (hM : 2 ≤ M) (nsteps : Int) (f u utmp0 : Nat → α)
    (W : Nat) (hW : 1 ≤ W) (r : (Nat → α) × (Nat → α))
    (hr : r = jacobi_parallel nsteps M u f W utmp0 ∨ r = main_solve nsteps M u f W utmp0) :
    (∀ j : Nat, ¬ (1 ≤ j ∧ j < M) → r.1 j = u j ∧ r.2 j = seed_boundary M u utmp0 j) ∧
    r.1 0 = u 0 ∧ r.1 M = u M ∧ r.2 0 = u 0 ∧ r.2 M = u M := by
  have frame : ∀ j : Nat, ¬ (1 ≤ j ∧ j < M) →
      r.1 j = u j ∧ r.2 j = seed_boundary M u utmp0 j := by
    intro j hj
    rcases hr with h | h
    · rw [h]
      exact jacobi_worker_frame _ f _ M (parallel_thread_data_covers M W hM hW) nsteps u _ j hj
    · rw [h]
      exact jacobi_thread_frame _ f _ M (main_thread_data_covers M W (by omega) hW) nsteps u _ j hj
  have h0 := frame 0 (by omega)
  have hl := frame M (by omega)
  refine ⟨frame, h0.1, hl.1, ?_, ?_⟩
  · rw [h0.2, seed_boundary_zero]
  · rw [hl.2, seed_boundary_last]

/-- C5. In the threads4 and process variants (`jacobi_thread` under `main`), for every
`k ≥ 0` the run with iteration count `2k+1` ends in the state of the run with count `2k`
followed by exactly one half-sweep over the interior (`scratch[i] = (grid[i-1] + grid[i+1] +
h²·source[i])/2` for `1 ≤ i < M`) and the copy `grid[i] = scratch[i]` for `1 ≤ i < M`; in
particular count 1 is that single half-sweep with copy-back on the initial grid. -/
theorem C5_odd_count_tail (M : Nat) (hM : 2 ≤ M) (k : Nat) (f u utmp0 : Nat → α)
    (W : Nat) (hW : 1 ≤ W) :
    main_solve (2 * (k : Int) + 1) M u f W utmp0 =
      half_sweep_copy (grid_h2 M) f M (main_solve (2 * (k : Int)) M u f W utmp0) ∧
    (∀ i : Nat, 1 ≤ i → i < M →
      (main_solve (2 * (k : Int) + 1) M u f W utmp0).1 i =
        ((main_solve (2 * (k : Int)) M u f W utmp0).1 (i - 1) +
          (main_solve (2 * (k : Int)) M u f W utmp0).1 (i + 1) + grid_h2 M * f i) /
            ((2 : Nat) : α)) ∧
    (∀ i : Nat, ¬ (1 ≤ i ∧ i < M) →
      (main_solve (2 * (k : Int) + 1) M u f W utmp0).1 i =
        (main_solve (2 * (k : Int)) M u f W utmp0).1 i) ∧
    main_solve 1 M u f W utmp0 =
      half_sweep_copy (grid_h2 M) f M (u, seed_boundary M u utmp0) := by
  have hc : covers_interior (main_setup M W).thread_data M :=
    main_thread_data_covers M W (by omega) hW
  have hr : main_solve (2 * (k : Int) + 1) M u f W utmp0 =
      half_sweep_copy (grid_h2 M) f M (main_solve (2 * (k : Int)) M u f W utmp0) := by
    unfold main_solve
    simp only
    rw [jacobi_thread_odd, odd_tail_eq _ f _ M hc]
  refine ⟨hr, ?_, ?_, ?_⟩
  · intro i h1 hlt
    rw [hr]
    exact half_sweep_copy_in _ f M _ i ⟨h1, hlt⟩
  · intro i hi
    rw [hr]
    exact half_sweep_copy_out _ f M _ i hi
  · have h1 := jacobi_thread_odd (grid_h2 M) f (main_setup M W).thread_data 0 u
      (seed_boundary M u utmp0)
    have h0 : jacobi_thread (grid_h2 M) f (main_setup M W).thread_data (2 * ((0 : Nat) : Int)) u
        (seed_boundary M u utmp0) = (u, seed_boundary M u utmp0) := by
      unfold jacobi_thread
      simp only
      rw [pair_loop_eq_iterate _ _ 0 0 _ (by omega), if_neg (by decide)]
      rfl
    have e : 2 * ((0 : Nat) : Int) + 1 = 1 := by norm_num
    rw [h0, odd_tail_eq _ f _ M hc, e] at h1
    exact h1

end SweepClaims

/-- Witness of C2 in exact arithmetic: `M = 100`, 100 iterations, `f i = i / 100`, zero
initial grid, 7 workers (not a divisor of 99). -/
theorem C2_parallel_equals_sequential_witness :
    (jacobi_parallel 100 100 (fun _ => (0 : ℚ)) (fun i => (i : ℚ) / 100) 7 (fun _ => 5)).1 =
      (jacobi_sequential 100 100 (fun _ => (0 : ℚ)) (fun i => (i : ℚ) / 100) (fun _ => 0)).1 ∧
    (∀ W2 : Nat, 1 ≤ W2 → ∀ utmp2 : Nat → ℚ,
      (jacobi_parallel 100 100 (fun _ => (0 : ℚ)) (fun i => (i : ℚ) / 100) W2 utmp2).1 =
        (jacobi_parallel 100 100 (fun _ => (0 : ℚ)) (fun i => (i : ℚ) / 100) 7
          (fun _ => 5)).1) ∧
    (∀ (src dst : Nat → ℚ) (sched : List Nat),
      round_finished (jacobi_parallel_setup 100 7).thread_data
        (round_run (grid_h2 100) (fun i => (i : ℚ) / 100) src
          (jacobi_parallel_setup 100 7).thread_data sched
          (round_init (jacobi_parallel_setup 100 7).thread_data dst)) →
      (round_run (grid_h2 100) (fun i => (i : ℚ) / 100) src
          (jacobi_parallel_setup 100 7).thread_data sched
          (round_init (jacobi_parallel_setup 100 7).thread_data dst)).dst =
        half_sweep (grid_h2 100) (fun i => (i : ℚ) / 100) src 100 1 dst) :=
  C2_parallel_equals_sequential 100 (by decide) 100 _ _ 7 (by decide) _ _

/-- Witness of C4 in exact arithmetic on the threads4 run: `M = 10`, 5 iterations, 3
workers. -/
theorem C4_boundary_frame_witness :
    (∀ j : Nat, ¬ (1 ≤ j ∧ j < 10) →
      (main_solve 5 10 (fun _ => (0 : ℚ)) (fun i => (i : ℚ) / 10) 3 (fun _ => 7)).1 j =
        (fun _ => (0 : ℚ)) j ∧
      (main_solve 5 10 (fun _ => (0 : ℚ)) (fun i => (i : ℚ) / 10) 3 (fun _ => 7)).2 j =
        seed_boundary 10 (fun _ => (0 : ℚ)) (fun _ => 7) j) ∧
    (main_solve 5 10 (fun _ => (0 : ℚ)) (fun i => (i : ℚ) / 10) 3 (fun _ => 7)).1 0 =
      (fun _ => (0 : ℚ)) 0 ∧
    (main_solve 5 10 (fun _ => (0 : ℚ)) (fun i => (i : ℚ) / 10) 3 (fun _ => 7)).1 10 =
      (fun _ => (0 : ℚ)) 10 ∧
    (main_solve 5 10 (fun _ => (0 : ℚ)) (fun i => (i : ℚ) / 10) 3 (fun _ => 7)).2 0 =
      (fun _ => (0 : ℚ)) 0 ∧
    (main_solve 5 10 (fun _ => (0 : ℚ)) (fun i => (i : ℚ) / 10) 3 (fun _ => 7)).2 10 =
      (fun _ => (0 : ℚ)) 10 :=
  C4_boundary_frame 10 (by decide) 5 (fun i => (i : ℚ) / 10) (fun _ => (0 : ℚ)) (fun _ => 7) 3
    (by decide) _ (Or.inr rfl)

/-- Witness of C5 in exact arithmetic: `M = 10`, `k = 2` (counts 5 and 4), 3 workers. -/
theorem C5_odd_count_tail_witness :
    main_solve (2 * ((2 : Nat) : Int) + 1) 10 (fun _ => (0 : ℚ)) (fun i => (i : ℚ) / 10) 3
        (fun _ => 7) =
      half_sweep_copy (grid_h2 10) (fun i => (i : ℚ) / 10) 10
        (main_solve (2 * ((2 : Nat) : Int)) 10 (fun _ => (0 : ℚ)) (fun i => (i : ℚ) / 10) 3
          (fun _ => 7)) ∧
    (∀ i : Nat, 1 ≤ i → i < 10 →
      (main_solve (2 * ((2 : Nat) : Int) + 1) 10 (fun _ => (0 : ℚ)) (fun i => (i : ℚ) / 10) 3
          (fun _ => 7)).1 i =
        ((main_solve (2 * ((2 : Nat) : Int)) 10 (fun _ => (0 : ℚ)) (fun i => (i : ℚ) / 10) 3
            (fun _ => 7)).1 (i - 1) +
          (main_solve (2 * ((2 : Nat) : Int)) 10 (fun _ => (0 : ℚ)) (fun i => (i : ℚ) / 10) 3
            (fun _ => 7)).1 (i + 1) + grid_h2 10 * (fun i => (i : ℚ) / 10) i) /
            ((2 : Nat) : ℚ)) ∧
    (∀ i : Nat, ¬ (1 ≤ i ∧ i < 10) →
      (main_solve (2 * ((2 : Nat) : Int) + 1) 10 (fun _ => (0 : ℚ)) (fun i => (i : ℚ) / 10) 3
          (fun _ => 7)).1 i =
        (main_solve (2 * ((2 : Nat) : Int)) 10 (fun _ => (0 : ℚ)) (fun i => (i : ℚ) / 10) 3
          (fun _ => 7)).1 i) ∧
    main_solve 1 10 (fun _ => (0 : ℚ)) (fun i => (i : ℚ) / 10) 3 (fun _ => 7) =
      half_sweep_copy (grid_h2 10) (fun i => (i : ℚ) / 10) 10
        ((fun _ => (0 : ℚ)), seed_boundary 10 (fun _ => (0 : ℚ)) (fun _ => 7)) :=
  C5_odd_count_tail 10 (by decide) 2 (fun i => (i : ℚ) / 10) (fun _ => (0 : ℚ)) (fun _ => 7) 3
    (by decide)

/-- C6. For `M = 4`, `iterations = 2`, `source = [0, 1/4, 1/2, 3/4, 1]`, an all-zero initial
grid and one worker, in exact arithmetic (`h = 1/4`): the scratch buffer after the first
half-sweep is `[0, 1/128, 1/64, 3/128, 0]`, the final grid of `jacobi_parallel` is
`[0, 1/64, 1/32, 1/32, 0]` (and the final scratch is still the one of the first half-sweep),
and this is the final grid of the sequential recurrence `jacobi_sequential`. -/
theorem C6_end_to_end_scenario (utmp0 : Nat → ℚ) :
    (List.range 5).map (workers_half_sweep (grid_h2 4) scenario_source scenario_grid
        (jacobi_parallel_setup 4 1).thread_data (seed_boundary 4 scenario_grid utmp0)) =
      [0, 1/128, 1/64, 3/128, 0] ∧
    (List.range 5).map (jacobi_parallel 2 4 scenario_grid scenario_source 1 utmp0).1 =
      [0, 1/64, 1/32, 1/32, 0] ∧
    (List.range 5).map (jacobi_parallel 2 4 scenario_grid scenario_source 1 utmp0).2 =
      [0, 1/128, 1/64, 3/128, 0] ∧
    (jacobi_parallel 2 4 scenario_grid scenario_source 1 utmp0).1 =
      (jacobi_sequential 2 4 scenario_grid scenario_source utmp0).1 := by
  have hc : covers_interior (jacobi_parallel_setup 4 1).thread_data 4 :=
    parallel_thread_data_covers 4 1 (by decide) (by decide)
  have hrun : jacobi_parallel 2 4 scenario_grid scenario_source 1 utmp0 =
      sequential_pair (grid_h2 4) scenario_source 4
        (scenario_grid, seed_boundary 4 scenario_grid utmp0) := by
    rw [jacobi_parallel_eq_sequential 2 4 1 (by decide) (by decide)]
    unfold jacobi_sequential
    simp only
    rw [pair_loop_eq_iterate _ 2 1 0 _ (by decide)]
    rfl
  have hscr : ∀ j, half_sweep (grid_h2 4) scenario_source scenario_grid 4 1
      (seed_boundary 4 scenario_grid utmp0) j =
      if 1 ≤ j ∧ j < 4 then stencil (grid_h2 4) scenario_source scenario_grid j
      else seed_boundary 4 scenario_grid utmp0 j :=
    fun j => half_sweep_apply _ _ _ 4 _ 1 _ j rfl
  have hgrid : ∀ j, (sequential_pair (grid_h2 4) scenario_source 4
      (scenario_grid, seed_boundary 4 scenario_grid utmp0)).1 j =
      if 1 ≤ j ∧ j < 4 then stencil (grid_h2 4) scenario_source
        (half_sweep (grid_h2 4) scenario_source scenario_grid 4 1
          (seed_boundary 4 scenario_grid utmp0)) j
      else scenario_grid j :=
    fun j => half_sweep_apply _ _ _ 4 _ 1 _ j rfl
  have hscr2 : (sequential_pair (grid_h2 4) scenario_source 4
      (scenario_grid, seed_boundary 4 scenario_grid utmp0)).2 =
      half_sweep (grid_h2 4) scenario_source scenario_grid 4 1
        (seed_boundary 4 scenario_grid utmp0) := rfl
  have s0 : seed_boundary 4 scenario_grid utmp0 0 = 0 := seed_boundary_zero 4 _ _
  have s4 : seed_boundary 4 scenario_grid utmp0 4 = 0 := seed_boundary_last 4 _ _
  refine ⟨?_, ?_, ?_, ?_⟩
  · rw [workers_half_sweep_eq _ _ _ _ 4 hc]
    simp only [List.range, List.range.loop, List.map, hscr, stencil]
    simp [s0, s4, grid_h2, scenario_source, scenario_grid]
    norm_num
  · rw [hrun]
    simp only [List.range, List.range.loop, List.map, hgrid, hscr, stencil]
    simp [s0, s4, grid_h2, scenario_source, scenario_grid]
    norm_num
  · rw [hrun, hscr2]
    simp only [List.range, List.range.loop, List.map, hscr, stencil]
    simp [s0, s4, grid_h2, scenario_source, scenario_grid]
    norm_num
  · exact (parallel_final_grid_eq 4 (by decide) 2 scenario_source scenario_grid 1 (by decide) utmp0 utmp0)

/-! ## Claims on the worker count of `jacobi` and on the barrier -/

/-- C8 (as amended). For every `M ≥ 2`, a worker count `v ≤ 0` read by `jacobi` from
`JACOBI_NUM_THREADS` is not rejected: it is replaced by the default 4, `jacobi` runs
`jacobi_parallel` with 4 requested threads, which sets the barrier and the ranges up for
`min 4 (M-1)` workers, and the count used as divisor is at least 1. -/
theorem C8_nonpositive_count_defaults {α : Type} [Add α] [Mul α] [Div α] [NatCast α]
    (M : Nat) (hM : 2 ≤ M) (v : Int) (hv : v ≤ 0) (nsweeps : Int) (u f utmp0 : Nat → α) :
    jacobi_num_threads (some v) = 4 ∧
    jacobi nsweeps M u f (some v) utmp0 = jacobi_parallel nsweeps M u f 4 utmp0 ∧
    (jacobi_setup M (some v)).barrier_count = min 4 (M - 1) ∧
    (jacobi_setup M (some v)).thread_data.length = min 4 (M - 1) ∧
    1 ≤ clamp_threads M (jacobi_num_threads (some v)).toNat := by
  have h4 : jacobi_num_threads (some v) = 4 := by
    unfold jacobi_num_threads
    simp only
    rw [if_pos hv]
  have hs : jacobi_setup M (some v) = jacobi_parallel_setup M 4 := by
    unfold jacobi_setup; rw [h4]; rfl
  refine ⟨h4, ?_, ?_, ?_, ?_⟩
  · unfold jacobi; rw [h4]; rfl
  · rw [hs]
    exact clamp_threads_eq_min M 4
  · rw [hs]
    have := parallel_thread_data_eq M 4 hM (by decide)
    unfold parallel_thread_data at this
    rw [this, closed_ranges_length]
  · rw [h4, clamp_threads_eq_min]
    show 1 ≤ min 4 (M - 1)
    omega

/-- Witness of the amended C8 at `M = 10`, environment value 0. -/
theorem C8_nonpositive_count_defaults_witness :
    jacobi_num_threads (some 0) = 4 ∧
    jacobi 2 10 scenario_grid scenario_source (some 0) scenario_grid =
      jacobi_parallel 2 10 scenario_grid scenario_source 4 scenario_grid ∧
    (jacobi_setup 10 (some 0)).barrier_count = min 4 (10 - 1) ∧
    (jacobi_setup 10 (some 0)).thread_data.length = min 4 (10 - 1) ∧
    1 ≤ clamp_threads 10 (jacobi_num_threads (some 0)).toNat :=
  C8_nonpositive_count_defaults 10 (by decide) 0 (by decide) 2 scenario_grid scenario_source
    scenario_grid

/-- C8 (counterexample to the claim as stated). A requested worker count of 0 is not
rejected by `jacobi`: for `M = 10` it is replaced by the default 4, ranges are computed
(the list is not empty), the barrier is sized for 4 participants and the ranges are
`[1,4) [4,6) [6,8) [8,10)`; on the scenario with `M = 4` the workers run and produce the
final grid `[0, 1/64, 1/32, 1/32, 0]`. -/
theorem C8_zero_count_counterexample :
    jacobi_num_threads (some 0) = 4 ∧
    (jacobi_setup 10 (some 0)).thread_data ≠ [] ∧
    (jacobi_setup 10 (some 0)).barrier_count = 4 ∧
    (jacobi_setup 10 (some 0)).thread_data = [⟨1, 4⟩, ⟨4, 6⟩, ⟨6, 8⟩, ⟨8, 10⟩] ∧
    (List.range 5).map (jacobi 2 4 scenario_grid scenario_source (some 0) scenario_grid).1 =
      [0, 1/64, 1/32, 1/32, 0] := by
  have h4 : jacobi_num_threads (some 0) = 4 := by decide
  have hs : jacobi_setup 10 (some 0) = jacobi_parallel_setup 10 4 := rfl
  have hd : (jacobi_parallel_setup 10 4).thread_data = [⟨1, 4⟩, ⟨4, 6⟩, ⟨6, 8⟩, ⟨8, 10⟩] := by
    have := parallel_thread_data_eq 10 4 (by decide) (by decide)
    unfold parallel_thread_data at this
    rw [this]
    decide
  refine ⟨h4, ?_, ?_, ?_, ?_⟩
  · rw [hs, hd]
    exact List.cons_ne_nil _ _
  · rw [hs]
    show clamp_threads 10 4 = 4
    decide
  · rw [hs]
    exact hd
  · have e : jacobi 2 4 scenario_grid scenario_source (some 0) scenario_grid =
        jacobi_parallel 2 4 scenario_grid scenario_source 4 scenario_grid := rfl
    rw [e, parallel_final_grid_eq 4 (by decide) 2 scenario_source scenario_grid 4 (by decide)
      scenario_grid scenario_grid]
    exact scenario_sequential_grid scenario_grid

/-- C9. For every `W ≥ 1` and every interleaving of `W` participants that call
`barrier_wait` repeatedly on a barrier set up by `barrier_init(b, W)`: in every state the
interleaving reaches, if some participant `p` has returned from its `k`-th `barrier_wait`
then every participant `q` has entered its `k`-th `barrier_wait`; so no participant
returns from its `k`-th call before all have entered theirs. -/
theorem C9_no_early_return (W : Nat) (sched : List Nat) (p q : Nat) (hp : p < W) (hq : q < W)
    (k : Nat) (hret : k ≤ (barrier_run (system_init W) sched).returned p) :
    k ≤ (barrier_run (system_init W) sched).entered q := by
  have inv := reachable_inv W sched
  have h1 := (round_of_bounds (barrier_run (system_init W) sched) p).1
  have h2 := (round_of_bounds (barrier_run (system_init W) sched) q).2
  have h3 := inv.hround p q hp hq
  have h4 := inv.hentered q hq
  omega

/-- C10. The two-turnstile barrier re-arms itself: for every `W ≥ 1`, in every reachable
state in which no participant is inside `barrier_wait`, the barrier is exactly in the state
`barrier_init(b, W)` established (`count = 0`, `mutex = 1`, `turnstile1 = 0`,
`turnstile2 = 1`), and all participants have completed the same number of calls. -/
theorem C10_barrier_rearmed (W : Nat) (hW : 1 ≤ W) (sched : List Nat)
    (hidle : ∀ p, p < W → (barrier_run (system_init W) sched).pc p = Loc.idle) :
    (barrier_run (system_init W) sched).b = barrier_init W ∧
    (barrier_run (system_init W) sched).b.count = 0 ∧
    (barrier_run (system_init W) sched).b.mutex = 1 ∧
    (barrier_run (system_init W) sched).b.turnstile1 = 0 ∧
    (barrier_run (system_init W) sched).b.turnstile2 = 1 ∧
    ∀ p q, p < W → q < W →
      (barrier_run (system_init W) sched).returned p =
        (barrier_run (system_init W) sched).returned q := by
  have inv := reachable_inv W sched
  have hc : ∀ P : Loc → Bool, P Loc.idle = false →
      count_at P (barrier_run (system_init W) sched).pc W = 0 :=
    fun P hP => count_at_zero_of_none P _ W (fun q hq => by rw [hidle q hq]; exact hP)
  have hm := inv.hmutex
  have hcnt := inv.hcount
  have htok := inv.htoken
  have hn := inv.hn
  rw [hc _ (by decide)] at hm hcnt
  have hd : tokens (barrier_run (system_init W) sched) Phase.drain ≠ 1 := by
    intro h
    have := inv.hphase Phase.drain h 0 (by omega)
    rw [hidle 0 (by omega)] at this
    exact absurd this (by decide)
  have c1 : count_at (fun l => decide (l = Loc.p2_post2))
      (barrier_run (system_init W) sched).pc W = 0 := hc _ (by decide)
  have c2 : count_at (fun l => decide (l = Loc.p1_open1))
      (barrier_run (system_init W) sched).pc W = 0 := hc _ (by decide)
  have c3 : count_at (fun l => decide (l = Loc.p1_post1))
      (barrier_run (system_init W) sched).pc W = 0 := hc _ (by decide)
  have c4 : count_at (fun l => decide (l = Loc.p2_open2))
      (barrier_run (system_init W) sched).pc W = 0 := hc _ (by decide)
  simp only [tokens, hn, c1, c2, c3, c4] at htok hd
  have k1 : (barrier_run (system_init W) sched).b.count = 0 := by simpa using hcnt
  have k2 : (barrier_run (system_init W) sched).b.mutex = 1 := by omega
  have k3 : (barrier_run (system_init W) sched).b.turnstile1 = 0 := by omega
  have k4 : (barrier_run (system_init W) sched).b.turnstile2 = 1 := by omega
  refine ⟨?_, k1, k2, k3, k4, ?_⟩
  · have e : ∀ b : barrier_t, b.count = 0 → b.n = W → b.mutex = 1 → b.turnstile1 = 0 →
        b.turnstile2 = 1 → b = barrier_init W := by
      intro b h1 h2 h3 h4 h5
      cases b
      simp only at h1 h2 h3 h4 h5
      subst h1 h2 h3 h4 h5
      rfl
    exact e _ k1 hn k2 k3 k4
  · intro p q hp hq
    have h1 := inv.hentered p hp
    have h2 := inv.hentered q hq
    have h3 := inv.hround p q hp hq
    unfold round_of at h3
    rw [hidle p hp, hidle q hq] at h3
    simpa [leaving] using h3

set_option maxRecDepth 100000

/-- Witness of C9: two participants, participant 0 has returned from its first call; then
participant 1 has entered its first call. -/
theorem C9_no_early_return_witness :
    1 ≤ (barrier_run (system_init 2) schedule_first_return).returned 0 ∧
    1 ≤ (barrier_run (system_init 2) schedule_first_return).entered 1 :=
  ⟨by decide, C9_no_early_return 2 schedule_first_return 0 1 (by decide) (by decide) 1
    (by decide)⟩

/-- Witness of C10: two participants after one full round. -/
theorem C10_barrier_rearmed_witness :
    (∀ p, p < 2 → (barrier_run (system_init 2) schedule_full_round).pc p = Loc.idle) ∧
    (barrier_run (system_init 2) schedule_full_round).b = barrier_init 2 ∧
    (barrier_run (system_init 2) schedule_full_round).b.count = 0 ∧
    (barrier_run (system_init 2) schedule_full_round).b.mutex = 1 ∧
    (barrier_run (system_init 2) schedule_full_round).b.turnstile1 = 0 ∧
    (barrier_run (system_init 2) schedule_full_round).b.turnstile2 = 1 ∧
    ∀ p q, p < 2 → q < 2 →
      (barrier_run (system_init 2) schedule_full_round).returned p =
        (barrier_run (system_init 2) schedule_full_round).returned q :=
  ⟨by decide, C10_barrier_rearmed 2 (by decide) schedule_full_round (by decide)⟩

/-! ## Further claims on the barrier, the paired loop and the partitioner -/

/-- C11. In every state reachable from `barrier_init(b, W)` by `W` participants executing
`barrier_wait` any number of times under any interleaving, the shared counter satisfies
`0 ≤ count ≤ W`: it is the number of participants between their `count++` and their
`count--`, so no participant observes more than `W` arrivals in flight. -/
theorem C11_count_bounds (W : Nat) (sched : List Nat) :
    0 ≤ (barrier_run (system_init W) sched).b.count ∧
    (barrier_run (system_init W) sched).b.count ≤ (W : Int) ∧
    (barrier_run (system_init W) sched).b.count =
      (count_at counted (barrier_run (system_init W) sched).pc W : Int) := by
  have inv := reachable_inv W sched
  have h := inv.hcount
  have hle := count_at_le counted (barrier_run (system_init W) sched).pc W
  refine ⟨?_, ?_, h⟩ <;> omega

theorem iterate_succ_counter (k : Nat) : ∀ c : Nat, (fun c : Nat => c + 1)^[k] c = c + k := by
  induction k with
  | zero => intro c; rfl
  | succ k ih =>
    intro c
    rw [Function.iterate_succ_apply, ih (c + 1)]
    omega

theorem loop_trips_eq (n : Nat) : loop_trips (n : Int) = (n + 1) / 2 := by
  unfold loop_trips
  rw [pair_loop_eq_iterate _ _ ((n + 1) / 2) 0 0 (by omega), iterate_succ_counter]
  omega

/-- C16 (as amended). In `2. threads-jacobi1d.c`, for every iteration count `n ≥ 0` the
paired loop of `jacobi_worker` and of `jacobi_sequential` runs exactly `(n + 1) / 2` times,
the count rounded up to an even number of half-sweeps: `k` times for `n = 2k` and `k + 1`
times for `n = 2k + 1`, which is `n + 1` half-sweeps. -/
theorem C16_paired_loop_rounds_up {α : Type} [Add α] [Mul α] [Div α] [NatCast α]
    (n : Nat) (h2 : α) (f u utmp : Nat → α) (ws : List thread_data_t) (M : Nat)
    (utmp0 : Nat → α) :
    loop_trips (n : Int) = (n + 1) / 2 ∧
    jacobi_worker h2 f ws (n : Int) u utmp = (worker_pair h2 f ws)^[(n + 1) / 2] (u, utmp) ∧
    jacobi_sequential (n : Int) M u f utmp0 =
      (sequential_pair (grid_h2 M) f M)^[(n + 1) / 2] (u, seed_boundary M u utmp0) ∧
    (∀ k : Nat, n = 2 * k + 1 → loop_trips (n : Int) = k + 1 ∧ 2 * (k + 1) = n + 1) ∧
    (∀ k : Nat, n = 2 * k → loop_trips (n : Int) = k) := by
  have ht := loop_trips_eq n
  refine ⟨ht, ?_, ?_, ?_, ?_⟩
  · unfold jacobi_worker
    exact pair_loop_eq_iterate _ _ _ 0 _ (by omega)
  · unfold jacobi_sequential
    exact pair_loop_eq_iterate _ _ _ 0 _ (by omega)
  · intro k hk
    rw [ht]
    omega
  · intro k hk
    rw [ht]
    omega

/-- C16 (counterexample to the claim as stated). For the iteration count 1 the paired loop
runs once, not `1 / 2 = 0` times: `jacobi_sequential` with count 1 performs two
half-sweeps, ends in the state of count 2, and on the scenario with `M = 4` its final grid
is `[0, 1/64, 1/32, 1/32, 0]`, not the unchanged initial grid. -/
theorem C16_odd_count_counterexample :
    loop_trips 1 = 1 ∧ loop_trips 1 ≠ 1 / 2 ∧
    jacobi_sequential 1 4 scenario_grid scenario_source scenario_grid =
      jacobi_sequential 2 4 scenario_grid scenario_source scenario_grid ∧
    (List.range 5).map (jacobi_sequential 1 4 scenario_grid scenario_source scenario_grid).1 =
      [0, 1/64, 1/32, 1/32, 0] ∧
    (List.range 5).map (jacobi_sequential 1 4 scenario_grid scenario_source scenario_grid).1 ≠
      (List.range 5).map scenario_grid := by
  have h1 : loop_trips 1 = 1 := loop_trips_eq 1
  have e : jacobi_sequential 1 4 scenario_grid scenario_source scenario_grid =
      jacobi_sequential 2 4 scenario_grid scenario_source scenario_grid := by
    unfold jacobi_sequential
    simp only
    rw [pair_loop_eq_iterate _ 1 1 0 _ (by decide), pair_loop_eq_iterate _ 2 1 0 _ (by decide)]
  have hg := scenario_sequential_grid scenario_grid
  refine ⟨h1, ?_, e, ?_, ?_⟩
  · rw [h1]; decide
  · rw [e]; exact hg
  · rw [e, hg]
    simp [List.range, List.range.loop, scenario_grid]

theorem closed_ranges_within (b r W M : Nat) (hlast : pstart b r W = M) (w : thread_data_t)
    (hw : w ∈ closed_ranges b r W) : 1 ≤ w.start ∧ w.start ≤ w.end_ ∧ w.end_ ≤ M := by
  obtain ⟨i, hi, rfl⟩ := (closed_ranges_mem b r W w).mp hw
  have h0 := pstart_mono b r (Nat.zero_le i)
  have h1 := pstart_mono b r (Nat.le_succ i)
  have h2 := pstart_mono b r (show i + 1 ≤ W from hi)
  rw [pstart_zero] at h0
  rw [hlast] at h2
  exact ⟨h0, h1, h2⟩

/-- C18. For every `M ≥ 2` and every worker count `W ≥ 1`, every range the partitioner of
`jacobi_parallel` or of threads4 `main` produces lies within `[1, M]`, and for each `i` of
a range the indices `i-1`, `i`, `i+1` the half-sweep and copy loops touch lie in `[0, M]`:
`1 ≤ i` (so `i - 1` is not negative) and `i + 1 ≤ M`. -/
theorem C18_indices_in_bounds (M W : Nat) (hM : 2 ≤ M) (hW : 1 ≤ W)
    (ws : List thread_data_t)
    (hws : ws = parallel_thread_data M W ∨ ws = main_thread_data M W) :
    (∀ (w : thread_data_t), w ∈ ws → 1 ≤ w.start ∧ w.start ≤ w.end_ ∧ w.end_ ≤ M) ∧
    (∀ (w : thread_data_t), w ∈ ws → ∀ i : Nat, w.start ≤ i → i < w.end_ →
      1 ≤ i ∧ i - 1 ≤ M ∧ i ≤ M ∧ i + 1 ≤ M) := by
  have hin : ∀ (w : thread_data_t), w ∈ ws →
      1 ≤ w.start ∧ w.start ≤ w.end_ ∧ w.end_ ≤ M := by
    intro w hw
    rcases hws with h | h
    · rw [h, parallel_thread_data_eq M W hM hW] at hw
      exact closed_ranges_within _ _ _ M (pstart_last M _ (by omega) (by omega)) w hw
    · rw [h, main_thread_data_eq] at hw
      exact closed_ranges_within _ _ _ M (pstart_last M W (by omega) hW) w hw
  refine ⟨hin, ?_⟩
  intro w hw i h1 h2
  have := hin w hw
  omega

/-- Witness of C18 on the threads4 ranges with more workers than interior points:
`M = 4`, `W = 7`. -/
theorem C18_indices_in_bounds_witness :
    (∀ (w : thread_data_t), w ∈ main_thread_data 4 7 →
      1 ≤ w.start ∧ w.start ≤ w.end_ ∧ w.end_ ≤ 4) ∧
    (∀ (w : thread_data_t), w ∈ main_thread_data 4 7 → ∀ i : Nat, w.start ≤ i → i < w.end_ →
      1 ≤ i ∧ i - 1 ≤ 4 ∧ i ≤ 4 ∧ i + 1 ≤ 4) :=
  C18_indices_in_bounds 4 7 (by decide) (by decide) _ (Or.inr rfl)

/-- C19. The threads4 and process `main` do not clamp the worker count: for every `M ≥ 2`
and every `W > M-1` they compute `W` ranges, worker `i` gets the single index `[i+1, i+2)`
for `i < M-1` and the empty range `[M, M)` for `i ≥ M-1`; every index of `[1, M)` lies in
exactly one range, and the barrier is initialised for all `W` participants. -/
theorem C19_more_workers_than_points (M W : Nat) (hM : 2 ≤ M) (hW : M - 1 < W) :
    (main_setup M W).barrier_count = W ∧
    (main_setup M W).thread_data.length = W ∧
    (∀ i : Nat, i < M - 1 → (main_setup M W).thread_data[i]? = some ⟨i + 1, i + 2⟩) ∧
    (∀ i : Nat, M - 1 ≤ i → i < W → (main_setup M W).thread_data[i]? = some ⟨M, M⟩) ∧
    (∀ j : Nat, 1 ≤ j → j < M →
      ∃! i : Nat, ∃ w : thread_data_t,
        (main_setup M W).thread_data[i]? = some w ∧ w.start ≤ j ∧ j < w.end_) := by
  have hd : (main_setup M W).thread_data = closed_ranges ((M - 1) / W) ((M - 1) % W) W :=
    main_thread_data_eq M W
  have hq : (M - 1) / W = 0 := Nat.div_eq_of_lt hW
  have hr : (M - 1) % W = M - 1 := Nat.mod_eq_of_lt hW
  rw [hq, hr] at hd
  have hp : ∀ i, pstart 0 (M - 1) i = 1 + min i (M - 1) := by
    intro i; unfold pstart; omega
  refine ⟨rfl, ?_, ?_, ?_, ?_⟩
  · rw [hd, closed_ranges_length]
  · intro i hi
    rw [hd, closed_ranges_get _ _ W i (by omega), hp, hp]
    have e1 : 1 + min i (M - 1) = i + 1 := by omega
    have e2 : 1 + min (i + 1) (M - 1) = i + 2 := by omega
    rw [e1, e2]
  · intro i hi hiW
    rw [hd, closed_ranges_get _ _ W i hiW, hp, hp]
    have e1 : 1 + min i (M - 1) = M := by omega
    have e2 : 1 + min (i + 1) (M - 1) = M := by omega
    rw [e1, e2]
  · rw [hd]
    have hlast : pstart 0 (M - 1) W = M := by rw [hp]; omega
    exact (closed_ranges_partition 0 (M - 1) W M (by omega) hlast).2.2.2.2.1

/-- Witness of C19 at `M = 4`, `W = 7`. -/
theorem C19_more_workers_than_points_witness :
    (main_setup 4 7).barrier_count = 7 ∧
    (main_setup 4 7).thread_data.length = 7 ∧
    (∀ i : Nat, i < 4 - 1 → (main_setup 4 7).thread_data[i]? = some ⟨i + 1, i + 2⟩) ∧
    (∀ i : Nat, 4 - 1 ≤ i → i < 7 → (main_setup 4 7).thread_data[i]? = some ⟨4, 4⟩) ∧
    (∀ j : Nat, 1 ≤ j → j < 4 →
      ∃! i : Nat, ∃ w : thread_data_t,
        (main_setup 4 7).thread_data[i]? = some w ∧ w.start ≤ j ∧ j < w.end_) :=
  C19_more_workers_than_points 4 7 (by decide) (by decide)

/-! ## The OpenMP variant against the threaded variant -/

theorem omp_sweep_apply (h2 : ℚ) (f src : Nat → ℚ) (n : Nat) (k : Nat) :
    ∀ (i : Nat) (dst : Nat → ℚ) (j : Nat), n - i = k →
      omp_sweep h2 f src n i dst j =
        if i ≤ j ∧ j < n then (src (j - 1) + src (j + 1) + h2 * f j) * (1 / 2) else dst j := by
  induction k with
  | zero =>
    intro i dst j hk
    rw [omp_sweep, if_neg (by omega), if_neg (by omega)]
  | succ k ih =>
    intro i dst j hk
    rw [omp_sweep, if_pos (by omega), ih (i + 1) _ j (by omega)]
    by_cases hji : j = i
    · subst hji
      rw [if_neg (by omega), if_pos (by omega), Function.update_same]
    · rw [Function.update_noteq hji]
      by_cases hj : i + 1 ≤ j ∧ j < n
      · rw [if_pos hj, if_pos (by omega)]
      · rw [if_neg hj, if_neg (by omega)]

/-- In exact arithmetic `* 0.5` and `/ 2` agree: an OpenMP sweep is the half-sweep of the
threaded variants. -/
theorem omp_sweep_eq_half_sweep (h2 : ℚ) (f src : Nat → ℚ) (n : Nat) (dst : Nat → ℚ) :
    omp_sweep h2 f src n 1 dst = half_sweep h2 f src n 1 dst := by
  funext j
  rw [omp_sweep_apply h2 f src n _ 1 dst j rfl, half_sweep_apply h2 f src n _ 1 dst j rfl]
  by_cases hj : 1 ≤ j ∧ j < n
  · rw [if_pos hj, if_pos hj]
    unfold stencil
    norm_num
    ring
  · rw [if_neg hj, if_neg hj]

theorem openmp_step_eq (h2 : ℚ) (f : Nat → ℚ) (n : Nat) :
    openmp_step h2 f n = sequential_pair h2 f n := by
  funext s
  simp only [openmp_step, sequential_pair, omp_sweep_eq_half_sweep]

theorem step_loop_eq_iterate {σ : Type} (body : σ → σ) (nsteps : Int) (k : Nat) :
    ∀ (step : Int) (s : σ), (nsteps - step).toNat = k →
      step_loop body nsteps step s = body^[k] s := by
  induction k with
  | zero =>
    intro step s hk
    rw [step_loop, if_neg (by omega)]
    rfl
  | succ k ih =>
    intro step s hk
    rw [step_loop, if_pos (by omega), ih (step + 1) (body s) (by omega)]
    rfl

theorem jacobi_thread_even {α : Type} [Add α] [Mul α] [Div α] [NatCast α]
    (h2 : α) (f : Nat → α) (ws : List thread_data_t) (k : Nat) (u utmp : Nat → α) :
    jacobi_thread h2 f ws (2 * (k : Int)) u utmp = (worker_pair h2 f ws)^[k] (u, utmp) := by
  unfold jacobi_thread
  simp only
  have e2 : ¬ Int.tmod (2 * (k : Int)) 2 ≠ 0 := by
    rw [Int.tmod_eq_emod (by omega) (by omega)]; omega
  rw [if_neg e2, pair_loop_eq_iterate _ _ k 0 _ (by omega)]

/-- The OpenMP variant with `k` steps ends in the final grid of `k` sequential pairs of
half-sweeps, whatever the scratch allocation. -/
theorem openmp_solve_grid (k : Nat) (M : Nat) (u f utmp0 utmp1 : Nat → ℚ) :
    (openmp_solve (k : Int) M u f utmp0).1 =
      ((sequential_pair (grid_h2 M) f M)^[k] (u, seed_boundary M u utmp1)).1 := by
  unfold openmp_solve
  simp only
  rw [step_loop_eq_iterate _ _ k 0 _ (by omega), openmp_step_eq]
  apply sequential_iterate_agree
  · rw [seed_boundary_zero, seed_boundary_zero]
  · rw [seed_boundary_last, seed_boundary_last]

/-- The threads4 run with the even count `2k` ends in the state of `k` sequential pairs of
half-sweeps. -/
theorem main_solve_even (k : Nat) (M W : Nat) (hM : 2 ≤ M) (hW : 1 ≤ W)
    (u f utmp0 : Nat → ℚ) :
    main_solve (2 * (k : Int)) M u f W utmp0 =
      (sequential_pair (grid_h2 M) f M)^[k] (u, seed_boundary M u utmp0) := by
  have hc : covers_interior (main_setup M W).thread_data M :=
    main_thread_data_covers M W (by omega) hW
  unfold main_solve
  simp only
  rw [jacobi_thread_even, worker_pair_eq _ f _ M hc]

/-- The threads4 run with count 1 is one interior half-sweep with copy-back. -/
theorem main_solve_one (M W : Nat) (hM : 2 ≤ M) (hW : 1 ≤ W) (u f utmp0 : Nat → ℚ) :
    main_solve 1 M u f W utmp0 =
      half_sweep_copy (grid_h2 M) f M (u, seed_boundary M u utmp0) := by
  have hc : covers_interior (main_setup M W).thread_data M :=
    main_thread_data_covers M W (by omega) hW
  have h1 := jacobi_thread_odd (grid_h2 M) f (main_setup M W).thread_data 0 u
    (seed_boundary M u utmp0)
  have h0 := jacobi_thread_even (grid_h2 M) f (main_setup M W).thread_data 0 u
    (seed_boundary M u utmp0)
  have e : 2 * ((0 : Nat) : Int) + 1 = 1 := by norm_num
  rw [h0, odd_tail_eq _ f _ M hc, e] at h1
  exact h1

/-- C14 (as amended). In exact arithmetic, for every `M ≥ 2`, step count `nsteps ≥ 0`,
source term, initial grid and worker count `W ≥ 1`, the final grid of the OpenMP variant
run with `nsteps` equals the final grid of the threaded variant (threads4 `jacobi_thread`)
run with iteration count `2 * nsteps`: an OpenMP step is a pair of half-sweeps, and
`* 0.5` equals `/ 2`. -/
theorem C14_openmp_equals_threads_doubled (M : Nat) (hM : 2 ≤ M) (nsteps : Nat)
    (f u : Nat → ℚ) (W : Nat) (hW : 1 ≤ W) (utmp0 utmp1 : Nat → ℚ) :
    (openmp_solve (nsteps : Int) M u f utmp0).1 =
      (main_solve (2 * (nsteps : Int)) M u f W utmp1).1 := by
  rw [main_solve_even nsteps M W hM hW, openmp_solve_grid nsteps M u f utmp0 utmp1]

/-- Witness of the amended C14: `M = 100`, 50 OpenMP steps against 100 threaded
iterations with 7 workers. -/
theorem C14_openmp_equals_threads_doubled_witness :
    (openmp_solve ((50 : Nat) : Int) 100 (fun _ => (0 : ℚ)) (fun i => (i : ℚ) / 100)
        (fun _ => 3)).1 =
      (main_solve (2 * ((50 : Nat) : Int)) 100 (fun _ => (0 : ℚ)) (fun i => (i : ℚ) / 100) 7
        (fun _ => 5)).1 :=
  C14_openmp_equals_threads_doubled 100 (by decide) 50 _ _ 7 (by decide) _ _

/-- C14 (counterexample to the claim as stated). For `M = 4`, `nsteps = 1`, the source
`[0, 1/4, 1/2, 3/4, 1]` and the zero initial grid, the OpenMP variant performs two sweeps
and ends in `[0, 1/64, 1/32, 1/32, 0]`, the threaded variant (one worker) performs one
half-sweep with copy-back and ends in `[0, 1/128, 1/64, 3/128, 0]`: the final grids
differ. -/
theorem C14_same_count_counterexample :
    (List.range 5).map (openmp_solve 1 4 scenario_grid scenario_source scenario_grid).1 =
      [0, 1/64, 1/32, 1/32, 0] ∧
    (List.range 5).map (main_solve 1 4 scenario_grid scenario_source 1 scenario_grid).1 =
      [0, 1/128, 1/64, 3/128, 0] ∧
    (openmp_solve 1 4 scenario_grid scenario_source scenario_grid).1 ≠
      (main_solve 1 4 scenario_grid scenario_source 1 scenario_grid).1 := by
  have ho : (List.range 5).map
      (openmp_solve 1 4 scenario_grid scenario_source scenario_grid).1 =
      [0, 1/64, 1/32, 1/32, 0] := by
    have h := openmp_solve_grid 1 4 scenario_grid scenario_source scenario_grid scenario_grid
    have e : jacobi_sequential 2 4 scenario_grid scenario_source scenario_grid =
        (sequential_pair (grid_h2 4) scenario_source 4)^[1]
          (scenario_grid, seed_boundary 4 scenario_grid scenario_grid) := by
      unfold jacobi_sequential
      simp only
      rw [pair_loop_eq_iterate _ 2 1 0 _ (by decide)]
    have h' : (openmp_solve 1 4 scenario_grid scenario_source scenario_grid).1 =
        (jacobi_sequential 2 4 scenario_grid scenario_source scenario_grid).1 := by
      rw [e]; exact h
    rw [h']
    exact scenario_sequential_grid scenario_grid
  have hscr : ∀ j, half_sweep (grid_h2 4) scenario_source scenario_grid 4 1
      (seed_boundary 4 scenario_grid scenario_grid) j =
      if 1 ≤ j ∧ j < 4 then stencil (grid_h2 4) scenario_source scenario_grid j
      else seed_boundary 4 scenario_grid scenario_grid j :=
    fun j => half_sweep_apply _ _ _ 4 _ 1 _ j rfl
  have hcp : ∀ j, (half_sweep_copy (grid_h2 4) scenario_source 4
      (scenario_grid, seed_boundary 4 scenario_grid scenario_grid)).1 j =
      if 1 ≤ j ∧ j < 4 then half_sweep (grid_h2 4) scenario_source scenario_grid 4 1
        (seed_boundary 4 scenario_grid scenario_grid) j else scenario_grid j :=
    fun j => copy_back_apply _ 4 _ 1 _ j rfl
  have ht : (List.range 5).map
      (main_solve 1 4 scenario_grid scenario_source 1 scenario_grid).1 =
      [0, 1/128, 1/64, 3/128, 0] := by
    rw [main_solve_one 4 1 (by decide) (by decide)]
    simp only [List.range, List.range.loop, List.map, hcp, hscr, stencil]
    simp [grid_h2, scenario_source, scenario_grid]
    norm_num
  refine ⟨ho, ht, ?_⟩
  intro hne
  rw [hne, ht] at ho
  revert ho
  norm_num

/-! ### Lemmas on the distributed variant -/

theorem mpi_sweep_apply (size rank local_n : Nat) (h2 : ℚ) (f src : Nat → ℚ) (k : Nat) :
    ∀ (i : Nat) (dst : Nat → ℚ) (j : Nat), local_n + 1 - i = k →
      mpi_sweep size rank local_n h2 f src i dst j =
        if i ≤ j ∧ j ≤ local_n then mpi_cell size rank local_n h2 f src j else dst j := by
  induction k with
  | zero =>
    intro i dst j hk
    rw [mpi_sweep, if_neg (by omega), if_neg (by omega)]
  | succ k ih =>
    intro i dst j hk
    rw [mpi_sweep, if_pos (by omega), ih (i + 1) _ j (by omega)]
    by_cases hji : j = i
    · subst hji
      rw [if_neg (by omega), if_pos (by omega), Function.update_same]
    · rw [Function.update_noteq hji]
      by_cases hj : i + 1 ≤ j ∧ j ≤ local_n
      · rw [if_pos hj, if_pos (by omega)]
      · rw [if_neg hj, if_neg (by omega)]

theorem mpi_init_loop_apply (h : ℚ) (local_start local_n : Nat) (k : Nat) :
    ∀ (i : Nat) (s : (Nat → ℚ) × (Nat → ℚ)) (j : Nat), local_n + 1 - i = k →
      (mpi_init_loop h local_start local_n i s).1 j =
        (if i ≤ j ∧ j ≤ local_n then ((local_start + j - 1 : Nat) : ℚ) * h else s.1 j) ∧
      (mpi_init_loop h local_start local_n i s).2 j =
        (if i ≤ j ∧ j ≤ local_n then 0 else s.2 j) := by
  induction k with
  | zero =>
    intro i s j hk
    rw [mpi_init_loop, if_neg (by omega), if_neg (by omega), if_neg (by omega)]
    exact ⟨rfl, rfl⟩
  | succ k ih =>
    intro i s j hk
    rw [mpi_init_loop, if_pos (by omega)]
    obtain ⟨h1, h2⟩ := ih (i + 1) (Function.update s.1 i (((local_start + i - 1 : Nat) : ℚ) * h),
      Function.update s.2 i 0) j (by omega)
    simp only at h1 h2 ⊢
    rw [h1, h2]
    by_cases hji : j = i
    · subst hji
      have c1 : ¬ (j + 1 ≤ j ∧ j ≤ local_n) := by omega
      have c2 : j ≤ j ∧ j ≤ local_n := by omega
      simp only [if_neg c1, if_pos c2, Function.update_same, and_self]
    · simp only [Function.update_noteq hji]
      by_cases hj : i + 1 ≤ j ∧ j ≤ local_n
      · have c2 : i ≤ j ∧ j ≤ local_n := by omega
        simp only [if_pos hj, if_pos c2, and_self]
      · have c2 : ¬ (i ≤ j ∧ j ≤ local_n) := by omega
        simp only [if_neg hj, if_neg c2, and_self]

theorem match_recv_left {α : Type} (size : Nat) (local_n : Nat → Nat) (u : Nat → Nat → α)
    (r : Nat) (hr : r < size) (h0 : 0 < r) (c : Nat) :
    match_recv size (fun s => posted_sends size (local_n s) s (u s)) r ⟨r - 1, 1, c⟩ =
      some (u (r - 1) (local_n (r - 1))) := by
  have a1 : r - 1 < size := by omega
  have a4 : r - 1 < size - 1 := by omega
  have a5 : r - 1 + 1 = r := by omega
  unfold match_recv posted_sends
  simp only [a1, a4, if_true]
  by_cases h : 0 < r - 1
  · have a6 : ¬ (r - 1 - 1 = r) := by omega
    simp [h, List.find?, a5, a6]
  · simp [h, List.find?, a5]

theorem match_recv_right {α : Type} (size : Nat) (local_n : Nat → Nat) (u : Nat → Nat → α)
    (r : Nat) (h1 : r < size - 1) (c : Nat) :
    match_recv size (fun s => posted_sends size (local_n s) s (u s)) r ⟨r + 1, 0, c⟩ =
      some (u (r + 1) 1) := by
  have a2 : r + 1 < size := by omega
  have a3 : 0 < r + 1 := by omega
  unfold match_recv posted_sends
  simp [a2, a3, List.find?]

/-- The exchange of a rank always completes, and its result is `u_local` with the left
halo cell replaced by the left neighbour's `u_local[local_n]` and the right halo cell by
the right neighbour's `u_local[1]`. -/
theorem exchange_eq {α : Type} (size : Nat) (local_n : Nat → Nat) (u : Nat → Nat → α)
    (r : Nat) (hr : r < size) :
    exchange size local_n u r =
      some (fun i =>
        if i = local_n r + 1 ∧ r < size - 1 then u (r + 1) 1
        else if i = 0 ∧ 0 < r then u (r - 1) (local_n (r - 1))
        else u r i) := by
  unfold exchange posted_recvs
  by_cases h0 : 0 < r <;> by_cases h1 : r < size - 1
  · simp only [h0, h1, if_true, List.cons_append, List.nil_append, complete_recvs,
      match_recv_left size local_n u r hr h0, match_recv_right size local_n u r h1]
    congr 1
    funext i
    by_cases hi1 : i = local_n r + 1
    · subst hi1; simp
    · by_cases hi0 : i = 0
      · subst hi0; simp [Function.update_noteq hi1]
      · simp [hi0, hi1, Function.update_noteq]
  · simp only [h0, h1, if_true, if_false, List.append_nil, complete_recvs,
      match_recv_left size local_n u r hr h0]
    congr 1
    funext i
    by_cases hi0 : i = 0
    · subst hi0; simp
    · simp [hi0, Function.update_noteq]
  · simp only [h0, h1, if_true, if_false, List.nil_append, complete_recvs,
      match_recv_right size local_n u r h1]
    congr 1
    funext i
    by_cases hi1 : i = local_n r + 1
    · subst hi1; simp
    · simp [hi1, Function.update_noteq]
  · simp only [h0, h1, if_false, List.append_nil, complete_recvs]
    congr 1
    funext i
    simp

theorem sends_to_right_unique {α : Type} (size local_n : Nat) (u_local : Nat → α) (r : Nat)
    (hr : r < size) (h0 : 0 < r) :
    ((posted_sends size local_n (r - 1) u_local).filter
      (fun m => decide (m.dest = r ∧ m.tag = 1))).length = 1 := by
  have a4 : r - 1 < size - 1 := by omega
  have a5 : r - 1 + 1 = r := by omega
  unfold posted_sends
  by_cases h : 0 < r - 1
  · have a6 : ¬ (r - 1 - 1 = r) := by omega
    simp [h, a4, a5, a6, List.filter]
  · simp [h, a4, a5, List.filter]

theorem sends_to_left_unique {α : Type} (size local_n : Nat) (u_local : Nat → α) (r : Nat) :
    ((posted_sends size local_n (r + 1) u_local).filter
      (fun m => decide (m.dest = r ∧ m.tag = 0))).length = 1 := by
  unfold posted_sends
  by_cases h : r + 1 < size - 1
  · simp [h, List.filter]
  · simp [h, List.filter]

theorem recvs_from_right_unique (size local_n : Nat) (r : Nat) (hr : r < size) (h0 : 0 < r) :
    ((posted_recvs size local_n (r - 1)).filter
      (fun q => decide (q.source = r ∧ q.tag = 0))).length = 1 := by
  have a4 : r - 1 < size - 1 := by omega
  have a5 : r - 1 + 1 = r := by omega
  unfold posted_recvs
  by_cases h : 0 < r - 1
  · simp [h, a4, a5, List.filter]
  · simp [h, a4, a5, List.filter]

theorem recvs_from_left_unique (size local_n : Nat) (r : Nat) :
    ((posted_recvs size local_n (r + 1)).filter
      (fun q => decide (q.source = r ∧ q.tag = 1))).length = 1 := by
  unfold posted_recvs
  by_cases h : r + 1 < size - 1
  · simp [h, List.filter]
  · simp [h, List.filter]

theorem trunc_zero_small (x : ℚ) (h1 : -1 < x) (h2 : x < 1) : trunc_zero x = 0 := by
  unfold trunc_zero
  by_cases h : 0 ≤ x
  · rw [if_pos h]
    exact Int.floor_eq_iff.mpr ⟨by simpa using h, by simpa using h2⟩
  · rw [if_neg h]
    exact Int.ceil_eq_iff.mpr ⟨by simpa using h1, by simpa using le_of_lt (not_le.mp h)⟩

theorem trunc_zero_nat (k : Nat) : trunc_zero (k : ℚ) = (k : Int) := by
  unfold trunc_zero
  rw [if_pos (by positivity)]
  exact Int.floor_natCast k

/-- The conversion to `int` is the truncation toward zero when the integer part fits. -/
theorem c_trunc_of_fits (x : ℚ) (h : int_fits (trunc_zero x)) : c_trunc x = trunc_zero x := by
  unfold c_trunc
  exact if_pos h

/-- When the integer part does not fit, the conversion delivers `INT_MIN`. -/
theorem c_trunc_not_fits (x : ℚ) (h : ¬ int_fits (trunc_zero x)) : c_trunc x = INT_MIN := by
  unfold c_trunc
  exact if_neg h

theorem c_trunc_small (x : ℚ) (h1 : -1 < x) (h2 : x < 1) : c_trunc x = 0 := by
  have h0 := trunc_zero_small x h1 h2
  rw [c_trunc_of_fits x (by rw [h0]; decide), h0]

theorem mpi_init_u (n size r : Nat) (utmp0 f0 : Nat → ℚ) (j : Nat) :
    (mpi_init n size r utmp0 f0).u_local j = 0 := by
  unfold mpi_init
  simp only
  split <;> split <;> simp [Function.update_apply]

theorem mpi_init_utmp_zero (n size r : Nat) (utmp0 f0 : Nat → ℚ)
    (hl : 1 ≤ mpi_local_n n size r) :
    (mpi_init n size r utmp0 f0).utmp_local 0 = utmp0 0 := by
  have hloop := (mpi_init_loop_apply (1 / (n : ℚ)) (mpi_local_start n size r)
    (mpi_local_n n size r) _ 1 (f0, utmp0) 0 rfl).2
  rw [if_neg (by omega)] at hloop
  have hne1 : (0 : Nat) ≠ 1 := by decide
  have hne2 : (0 : Nat) ≠ mpi_local_n n size r := by omega
  unfold mpi_init
  simp only
  split <;> split <;>
    simp only [Function.update_noteq hne1, Function.update_noteq hne2, hloop]

theorem mpi_init_utmp_owned (n size r : Nat) (utmp0 f0 : Nat → ℚ) (j : Nat)
    (h1 : 1 ≤ j) (h2 : j ≤ mpi_local_n n size r) :
    (mpi_init n size r utmp0 f0).utmp_local j = 0 := by
  have hloop := (mpi_init_loop_apply (1 / (n : ℚ)) (mpi_local_start n size r)
    (mpi_local_n n size r) _ 1 (f0, utmp0) j rfl).2
  rw [if_pos ⟨h1, h2⟩] at hloop
  unfold mpi_init
  simp only
  split <;> split <;> simp only [Function.update_apply, hloop, ite_self]

theorem mpi_init_f (n size r : Nat) (utmp0 f0 : Nat → ℚ) (j : Nat)
    (h1 : 1 ≤ j) (h2 : j ≤ mpi_local_n n size r) :
    (mpi_init n size r utmp0 f0).f_local j =
      ((mpi_local_start n size r + j - 1 : Nat) : ℚ) * (1 / (n : ℚ)) := by
  have hloop := (mpi_init_loop_apply (1 / (n : ℚ)) (mpi_local_start n size r)
    (mpi_local_n n size r) _ 1 (f0, utmp0) j rfl).1
  rw [if_pos ⟨h1, h2⟩] at hloop
  exact hloop

/-- The first part of a step completes on every rank; it changes `u_local` by the exchange
only and stores the first sweep into the owned cells of `utmp_local`. -/
theorem mpi_first_half_eq (n size : Nat) (st : Nat → rank_state) (r : Nat) (hr : r < size) :
    ∃ u : Nat → ℚ,
      exchange size (mpi_local_n n size) (fun s => (st s).u_local) r = some u ∧
      mpi_first_half n size st r =
        some { u_local := u
               utmp_local := mpi_sweep size r (mpi_local_n n size r)
                 (1 / (n : ℚ) * (1 / (n : ℚ))) (st r).f_local u 1 (st r).utmp_local
               f_local := (st r).f_local } := by
  have he := exchange_eq size (mpi_local_n n size) (fun s => (st s).u_local) r hr
  refine ⟨_, he, ?_⟩
  unfold mpi_first_half
  simp only [he]

/-- Neither the exchange nor the first sweep stores into the halo cells of `utmp_local`. -/
theorem mpi_first_half_halo (n size : Nat) (st : Nat → rank_state) (r : Nat) (hr : r < size)
    (s : rank_state) (hs : mpi_first_half n size st r = some s) :
    s.utmp_local 0 = (st r).utmp_local 0 ∧
    s.utmp_local (mpi_local_n n size r + 1) = (st r).utmp_local (mpi_local_n n size r + 1) := by
  obtain ⟨u, _, h⟩ := mpi_first_half_eq n size st r hr
  rw [h] at hs
  obtain rfl := Option.some.inj hs
  constructor
  · show mpi_sweep _ _ _ _ _ _ 1 _ 0 = _
    rw [mpi_sweep_apply _ _ _ _ _ _ _ 1 _ 0 rfl, if_neg (by omega)]
  · show mpi_sweep _ _ _ _ _ _ 1 _ (mpi_local_n n size r + 1) = _
    rw [mpi_sweep_apply _ _ _ _ _ _ _ 1 _ _ rfl, if_neg (by omega)]

theorem mpi_local_start_zero (n size : Nat) : mpi_local_start n size 0 = 0 := by
  unfold mpi_local_start
  simp only
  split <;> omega

theorem mpi_local_start_succ (n size r : Nat) :
    mpi_local_start n size (r + 1) = mpi_local_start n size r + mpi_local_n n size r := by
  unfold mpi_local_start mpi_local_n
  simp only
  rw [Nat.succ_mul]
  split <;> split <;> omega

theorem mpi_local_start_last (n size : Nat) (hs : 1 ≤ size) :
    mpi_local_start n size size = n := by
  unfold mpi_local_start
  simp only
  have h1 : n % size < size := Nat.mod_lt _ hs
  have h2 := Nat.div_add_mod n size
  rw [if_neg (by omega)]
  omega

/-- C12. In the distributed variant, for every number of ranks in which each rank owns at
least one point, the exchange at the start of a step completes on every rank `r`; after it
`r > 0` holds in `u_local[0]` the value of rank `r-1`'s last owned cell `u_local[local_n]`,
`r < size-1` holds in `u_local[local_n+1]` the value of rank `r+1`'s first owned cell
`u_local[1]`, and the owned cells are unchanged. No receive stores into a cell a send
reads, every receive of `r` is matched by exactly one send of its source with the same
(source, destination, tag), and every send of `r` by exactly one receive of its
destination. -/
theorem C12_halo_exchange (α : Type) (n size : Nat)
    (hown : ∀ q, q < size → 1 ≤ mpi_local_n n size q) (u : Nat → Nat → α)
    (r : Nat) (hr : r < size) :
    ∃ v : Nat → α, exchange size (mpi_local_n n size) u r = some v ∧
      (0 < r → v 0 = u (r - 1) (mpi_local_n n size (r - 1))) ∧
      (r < size - 1 → v (mpi_local_n n size r + 1) = u (r + 1) 1) ∧
      (∀ i : Nat, 1 ≤ i → i ≤ mpi_local_n n size r → v i = u r i) ∧
      (∀ q : recv_req, q ∈ posted_recvs size (mpi_local_n n size r) r →
        q.cell ≠ 1 ∧ q.cell ≠ mpi_local_n n size r ∧ q.source < size ∧
        ((posted_sends size (mpi_local_n n size q.source) q.source (u q.source)).filter
          (fun m => decide (m.dest = r ∧ m.tag = q.tag))).length = 1) ∧
      (∀ m : message α, m ∈ posted_sends size (mpi_local_n n size r) r (u r) →
        m.source = r ∧ m.dest < size ∧
        ((posted_recvs size (mpi_local_n n size m.dest) m.dest).filter
          (fun q => decide (q.source = r ∧ q.tag = m.tag))).length = 1) := by
  have hl := hown r hr
  refine ⟨_, exchange_eq size (mpi_local_n n size) u r hr, ?_, ?_, ?_, ?_, ?_⟩
  · intro h0
    have c : ¬ ((0 : Nat) = mpi_local_n n size r + 1 ∧ r < size - 1) := by omega
    simp only [if_neg c, h0, and_self, if_true]
  · intro h1
    simp only [h1, and_self, if_true]
  · intro i hi1 hi2
    have c1 : ¬ (i = mpi_local_n n size r + 1 ∧ r < size - 1) := by omega
    have c2 : ¬ (i = 0 ∧ 0 < r) := by omega
    simp only [if_neg c1, if_neg c2]
  · intro q hq
    unfold posted_recvs at hq
    rcases List.mem_append.mp hq with hq | hq
    · by_cases h0 : 0 < r
      · rw [if_pos h0] at hq
        obtain rfl := List.mem_singleton.mp hq
        refine ⟨Nat.zero_ne_one, ?_, ?_, ?_⟩
        · show 0 ≠ mpi_local_n n size r
          omega
        · show r - 1 < size
          omega
        · exact sends_to_right_unique size _ _ r hr h0
      · rw [if_neg h0] at hq; cases hq
    · by_cases h1 : r < size - 1
      · rw [if_pos h1] at hq
        obtain rfl := List.mem_singleton.mp hq
        refine ⟨?_, ?_, ?_, ?_⟩
        · show mpi_local_n n size r + 1 ≠ 1
          omega
        · show mpi_local_n n size r + 1 ≠ mpi_local_n n size r
          omega
        · show r + 1 < size
          omega
        · exact sends_to_left_unique size _ _ r
      · rw [if_neg h1] at hq; cases hq
  · intro m hm
    unfold posted_sends at hm
    rcases List.mem_append.mp hm with hm | hm
    · by_cases h0 : 0 < r
      · rw [if_pos h0] at hm
        obtain rfl := List.mem_singleton.mp hm
        refine ⟨rfl, ?_, ?_⟩
        · show r - 1 < size
          omega
        · exact recvs_from_right_unique size _ r hr h0
      · rw [if_neg h0] at hm; cases hm
    · by_cases h1 : r < size - 1
      · rw [if_pos h1] at hm
        obtain rfl := List.mem_singleton.mp hm
        refine ⟨rfl, ?_, ?_⟩
        · show r + 1 < size
          omega
        · exact recvs_from_left_unique size _ r
      · rw [if_neg h1] at hm; cases hm

/-- Witness of C12 on the scenario with 3 ranks on 30 points, middle rank. -/
theorem C12_halo_exchange_witness :
    ∃ v : Nat → ℚ, exchange 3 (mpi_local_n 30 3) sample_cells 1 = some v ∧
      (0 < 1 → v 0 = sample_cells (1 - 1) (mpi_local_n 30 3 (1 - 1))) ∧
      (1 < 3 - 1 → v (mpi_local_n 30 3 1 + 1) = sample_cells (1 + 1) 1) ∧
      (∀ i : Nat, 1 ≤ i → i ≤ mpi_local_n 30 3 1 →
        v i = sample_cells 1 i) ∧
      (∀ q : recv_req, q ∈ posted_recvs 3 (mpi_local_n 30 3 1) 1 →
        q.cell ≠ 1 ∧ q.cell ≠ mpi_local_n 30 3 1 ∧ q.source < 3 ∧
        ((posted_sends 3 (mpi_local_n 30 3 q.source) q.source
          (sample_cells q.source)).filter
          (fun m => decide (m.dest = 1 ∧ m.tag = q.tag))).length = 1) ∧
      (∀ m : message ℚ, m ∈ posted_sends 3 (mpi_local_n 30 3 1) 1
          (sample_cells 1) →
        m.source = 1 ∧ m.dest < 3 ∧
        ((posted_recvs 3 (mpi_local_n 30 3 m.dest) m.dest).filter
          (fun q => decide (q.source = 1 ∧ q.tag = m.tag))).length = 1) :=
  C12_halo_exchange ℚ 30 3 (by decide) sample_cells 1 (by decide)

/-- C13 (the code at the failing input). Run with `n = 4` on 2 ranks, allocated
`utmp_local` holding 7: the first part of the first step completes on both ranks; rank 0
has just computed its scratch boundary value `utmp_local[2] = 1/128`, but the left scratch
halo `utmp_local[0]` of rank 1 still holds the allocated 7, since only `u_local` is
exchanged; the second sweep reads it, and rank 1 ends the step with
`u_local[1] = (7 + 0 + 1/32) / 2 = 225/64`. -/
theorem C13_scratch_halo_stale :
    ∃ s0 s1 t1 : rank_state,
      mpi_first_half 4 2 mpi_start_state 0 = some s0 ∧
      mpi_first_half 4 2 mpi_start_state 1 = some s1 ∧
      mpi_step 4 2 mpi_start_state 1 = some t1 ∧
      s0.utmp_local (mpi_local_n 4 2 0) = 1 / 128 ∧
      s1.utmp_local 0 = 7 ∧
      s1.utmp_local 0 ≠ s0.utmp_local (mpi_local_n 4 2 0) ∧
      t1.u_local 1 = 225 / 64 := by
  have ln0 : mpi_local_n 4 2 0 = 2 := by decide
  have ln1 : mpi_local_n 4 2 1 = 2 := by decide
  have ls0 : mpi_local_start 4 2 0 = 0 := by decide
  have ls1 : mpi_local_start 4 2 1 = 2 := by decide
  obtain ⟨u0, he0, hf0⟩ := mpi_first_half_eq 4 2 mpi_start_state 0 (by decide)
  obtain ⟨u1, he1, hf1⟩ := mpi_first_half_eq 4 2 mpi_start_state 1 (by decide)
  have hu0 : ∀ i, u0 i = 0 := by
    rw [exchange_eq 2 _ _ 0 (by decide)] at he0
    obtain rfl := Option.some.inj he0
    intro i
    simp [mpi_start_state, mpi_init_u]
  have hu1 : ∀ i, u1 i = 0 := by
    rw [exchange_eq 2 _ _ 1 (by decide)] at he1
    obtain rfl := Option.some.inj he1
    intro i
    simp [mpi_start_state, mpi_init_u]
  have f02 : (mpi_start_state 0).f_local 2 = 1 / 4 := by
    have := mpi_init_f 4 2 0 (fun _ => 7) (fun _ => 9) 2 (by decide) (by decide)
    rw [ls0] at this
    show (mpi_init 4 2 0 _ _).f_local 2 = 1 / 4
    rw [this]; norm_num
  have f11 : (mpi_start_state 1).f_local 1 = 1 / 2 := by
    have := mpi_init_f 4 2 1 (fun _ => 7) (fun _ => 9) 1 (by decide) (by decide)
    rw [ls1] at this
    show (mpi_init 4 2 1 _ _).f_local 1 = 1 / 2
    rw [this]; norm_num
  have f12 : (mpi_start_state 1).f_local 2 = 3 / 4 := by
    have := mpi_init_f 4 2 1 (fun _ => 7) (fun _ => 9) 2 (by decide) (by decide)
    rw [ls1] at this
    show (mpi_init 4 2 1 _ _).f_local 2 = 3 / 4
    rw [this]; norm_num
  have g1 : (mpi_start_state 1).utmp_local 0 = 7 :=
    mpi_init_utmp_zero 4 2 1 (fun _ => 7) (fun _ => 9) (by decide)
  have t0 : c_trunc 0 = 0 := c_trunc_small 0 (by norm_num) (by norm_num)
  have a00 : int_add 0 0 = 0 := by decide
  -- the scratch of both ranks after the first sweep
  have s02 : mpi_sweep 2 0 (mpi_local_n 4 2 0) (1 / ((4 : Nat) : ℚ) * (1 / ((4 : Nat) : ℚ)))
      (mpi_start_state 0).f_local u0 1 (mpi_start_state 0).utmp_local 2 = 1 / 128 := by
    rw [ln0, mpi_sweep_apply _ _ _ _ _ _ _ 1 _ 2 rfl, if_pos (by decide)]
    simp only [mpi_cell, mpi_left, mpi_right, hu0, ite_self, t0, a00, f02]
    norm_num
  have s10 : mpi_sweep 2 1 (mpi_local_n 4 2 1) (1 / ((4 : Nat) : ℚ) * (1 / ((4 : Nat) : ℚ)))
      (mpi_start_state 1).f_local u1 1 (mpi_start_state 1).utmp_local 0 = 7 := by
    rw [ln1, mpi_sweep_apply _ _ _ _ _ _ _ 1 _ 0 rfl, if_neg (by decide)]
    exact g1
  have s12 : mpi_sweep 2 1 (mpi_local_n 4 2 1) (1 / ((4 : Nat) : ℚ) * (1 / ((4 : Nat) : ℚ)))
      (mpi_start_state 1).f_local u1 1 (mpi_start_state 1).utmp_local 2 = 3 / 128 := by
    rw [ln1, mpi_sweep_apply _ _ _ _ _ _ _ 1 _ 2 rfl, if_pos (by decide)]
    simp only [mpi_cell, mpi_left, mpi_right, hu1, ite_self, t0, a00, f12]
    norm_num
  have hstep : mpi_step 4 2 mpi_start_state 1 =
      some { u_local := mpi_sweep 2 1 (mpi_local_n 4 2 1)
               (1 / ((4 : Nat) : ℚ) * (1 / ((4 : Nat) : ℚ))) (mpi_start_state 1).f_local
               (mpi_sweep 2 1 (mpi_local_n 4 2 1) (1 / ((4 : Nat) : ℚ) * (1 / ((4 : Nat) : ℚ)))
                 (mpi_start_state 1).f_local u1 1 (mpi_start_state 1).utmp_local) 1 u1
             utmp_local := mpi_sweep 2 1 (mpi_local_n 4 2 1)
               (1 / ((4 : Nat) : ℚ) * (1 / ((4 : Nat) : ℚ))) (mpi_start_state 1).f_local u1 1
               (mpi_start_state 1).utmp_local
             f_local := (mpi_start_state 1).f_local } := by
    unfold mpi_step
    simp only [hf1]
  refine ⟨_, _, _, hf0, hf1, hstep, s02, s10, ?_, ?_⟩
  · show mpi_sweep 2 1 _ _ _ u1 1 _ 0 ≠ mpi_sweep 2 0 _ _ _ u0 1 _ (mpi_local_n 4 2 0)
    simp only [ln0, ln1] at s10 s02 ⊢
    rw [s10, s02]
    norm_num
  · show mpi_sweep 2 1 (mpi_local_n 4 2 1) _ _ _ 1 u1 1 = 225 / 64
    have t7 : c_trunc 7 = 7 := by
      have h7 : trunc_zero 7 = 7 := trunc_zero_nat 7
      rw [c_trunc_of_fits 7 (by rw [h7]; decide), h7]
    have a70 : int_add 7 0 = 7 := by decide
    have t3 : c_trunc (3 / 128) = 0 := c_trunc_small _ (by norm_num) (by norm_num)
    rw [mpi_sweep_apply _ _ _ _ _ _ _ 1 _ 1 rfl, if_pos ⟨by decide, by rw [ln1]; decide⟩]
    have hl : mpi_left 1 (mpi_sweep 2 1 (mpi_local_n 4 2 1)
        (1 / ((4 : Nat) : ℚ) * (1 / ((4 : Nat) : ℚ))) (mpi_start_state 1).f_local u1 1
        (mpi_start_state 1).utmp_local) 1 = 7 := by
      unfold mpi_left
      rw [if_neg (by decide)]
      exact s10
    have hr : mpi_right 2 1 (mpi_local_n 4 2 1) (mpi_sweep 2 1 (mpi_local_n 4 2 1)
        (1 / ((4 : Nat) : ℚ) * (1 / ((4 : Nat) : ℚ))) (mpi_start_state 1).f_local u1 1
        (mpi_start_state 1).utmp_local) 1 = 3 / 128 := by
      unfold mpi_right
      rw [if_neg (by rw [ln1]; decide)]
      exact s12
    unfold mpi_cell
    simp only [hl, hr, f11]
    rw [t7, t3, a70]
    norm_num

/-- The ranges of the distributed variant are contiguous in rank order and run from index
0 to index `n`: rank 0 starts at 0, each rank starts where the previous one ends, and the
last one ends at `n`. -/
theorem mpi_ranges_chain (n size : Nat) (hs : 1 ≤ size) :
    mpi_local_start n size 0 = 0 ∧
    (∀ r : Nat, mpi_local_start n size (r + 1) =
      mpi_local_start n size r + mpi_local_n n size r) ∧
    mpi_local_start n size (size - 1) + mpi_local_n n size (size - 1) = n := by
  refine ⟨mpi_local_start_zero n size, mpi_local_start_succ n size, ?_⟩
  rw [← mpi_local_start_succ, Nat.sub_add_cancel hs]
  exact mpi_local_start_last n size hs

/-- C15 (the code at the failing input). For `M = 4` on 2 ranks, rank 0 owns `[0, 2)` and
rank 1 owns `[2, 4)`: the union of the owned ranges is `[0, 4)`, not `[1, 4)`; the boundary
index 0 is owned by rank 0, whose sweep stores into its local cell 1 (global index 0)
whatever that cell held. -/
theorem C15_mpi_ranges_start_at_zero :
    mpi_local_start 4 2 0 = 0 ∧ mpi_local_n 4 2 0 = 2 ∧
    mpi_local_start 4 2 1 = 2 ∧ mpi_local_n 4 2 1 = 2 ∧
    (∀ j : Nat, (∃ r : Nat, r < 2 ∧ mpi_local_start 4 2 r ≤ j ∧
      j < mpi_local_start 4 2 r + mpi_local_n 4 2 r) ↔ j < 4) ∧
    ¬ (∀ j : Nat, (∃ r : Nat, r < 2 ∧ mpi_local_start 4 2 r ≤ j ∧
      j < mpi_local_start 4 2 r + mpi_local_n 4 2 r) ↔ (1 ≤ j ∧ j < 4)) ∧
    (∀ (h2 : ℚ) (f src dst : Nat → ℚ),
      mpi_sweep 2 0 (mpi_local_n 4 2 0) h2 f src 1 dst 1 =
        mpi_cell 2 0 (mpi_local_n 4 2 0) h2 f src 1) := by
  have ln0 : mpi_local_n 4 2 0 = 2 := by decide
  have ln1 : mpi_local_n 4 2 1 = 2 := by decide
  have ls0 : mpi_local_start 4 2 0 = 0 := by decide
  have ls1 : mpi_local_start 4 2 1 = 2 := by decide
  have hu : ∀ j : Nat, (∃ r : Nat, r < 2 ∧ mpi_local_start 4 2 r ≤ j ∧
      j < mpi_local_start 4 2 r + mpi_local_n 4 2 r) ↔ j < 4 := by
    intro j
    constructor
    · rintro ⟨r, hr, h1, h2⟩
      have : r = 0 ∨ r = 1 := by omega
      rcases this with rfl | rfl
      · rw [ls0, ln0] at h2; omega
      · rw [ls1, ln1] at h2; omega
    · intro hj
      by_cases h : j < 2
      · exact ⟨0, by decide, by rw [ls0]; omega, by rw [ls0, ln0]; omega⟩
      · exact ⟨1, by decide, by rw [ls1]; omega, by rw [ls1, ln1]; omega⟩
  refine ⟨ls0, ln0, ls1, ln1, hu, ?_, ?_⟩
  · intro h
    have h0 := (h 0).mp ((hu 0).mpr (by decide))
    omega
  · intro h2 f src dst
    rw [mpi_sweep_apply _ _ _ _ _ _ _ 1 _ 1 rfl, if_pos ⟨by decide, by rw [ln0]; decide⟩]

end Jacobi
